import Mathlib

/-!
# LFHMM: a log-space profile HMM aligner for tandem repeats (`lfhmm.cpp`)

A shallow embedding of `LFHMM::initialize`, `LFHMM::proc_comp`, `LFHMM::align`,
`LFHMM::trace_path` and `LFHMM::log10_emission_odds`, followed by theorems about them.

Conventions of the embedding.

* `int32_t` tracks are natural numbers (the 32-bit pattern read as unsigned); the
  `track_*` macros are the same bit operations on `Nat`.
* A `double` score is a value of `WithBot R`: `⊥` is `-INFINITY`, and the finite values
  live in an ordered additive group `R` with exact arithmetic (rounding is not modelled).
  All definitions are polymorphic in `R`; they run on `ℤ`, `ℚ` or on `LogQ` below.
* `log10` is a parameter `ℚ → WithBot R` of `initialize`. `LogQ` is the exact instance
  used by the concrete scenarios: the logarithm of a positive rational, stored as its
  argument, so that adding logarithms multiplies arguments and the order is preserved.
* The move functions `move_A_B` and `LogTool::pl2log10_varp` are not part of the
  translated file; they are the fields `moves` and `lt` of the object.
* `V[s]` and `U[s]` are functions from the flat offset to the stored value. Only the
  states `S..Z` and the offsets below `MAXLEN*MAXLEN` are allocated; an access outside of
  that, or outside of the path buffer, is undefined behaviour in C++ and ends the model
  with a `Fault`.
-/

/-- The aligner object: every member of `class LFHMM` that the translated functions use. -/
structure LFHMM (R : Type) where
  /-- `lt->pl2log10_varp`, the injected log tool. -/
  lt : Nat → R
  /-- `moves[A][B]` applied to a track and a read offset. -/
  moves : Nat → Nat → Nat → Nat → Nat
  /-- `model[d][k]`: the byte at offset `k` of component `d`. -/
  model : Nat → Int → Char
  mlen : Nat
  T : Nat → Nat → WithBot R
  V : Nat → Nat → WithBot R
  U : Nat → Nat → Nat
  read : List Char
  /-- `qual[j]`: the bytes reachable through the quality pointer. -/
  qual : Nat → Char
  rlen : Nat
  plen : Nat
  max_score : WithBot R
  max_track : Nat
  optimal_score : WithBot R
  optimal_track : Nat
  optimal_state : Nat
  optimal_probe_len : Nat
  /-- The buffer `optimal_path[0 .. (MAXLEN<<2)-1]`. -/
  optimal_path : Nat → Nat
  /-- The offset of `optimal_path_ptr` from `optimal_path`. -/
  optimal_path_ptr : Int
  optimal_path_len : Nat
  optimal_path_traced : Bool

namespace LFHMM

abbrev MAXLEN : Nat := 256
abbrev MAXLEN_NBITS : Nat := 8

abbrev S : Nat := 0
abbrev M : Nat := 1
abbrev D : Nat := 2
abbrev I : Nat := 3
abbrev Z : Nat := 4
abbrev E : Nat := 5
abbrev N : Nat := 6
abbrev TBD : Nat := 7
abbrev NSTATES : Nat := 6

abbrev MOTIF : Nat := 0
abbrev READ : Nat := 1
abbrev UNMODELED : Nat := 2
abbrev UNCERTAIN : Nat := 3

abbrev MATCH : Nat := 0
abbrev READ_ONLY : Nat := 1
abbrev PROBE_ONLY : Nat := 2

/-- `#define index(i,j) (((i)<<MAXLEN_NBITS)+(j))` on `size_t`. -/
def index (i j : Nat) : Nat := (i <<< MAXLEN_NBITS) + j

/-- The same macro on the `int32_t` counters of `trace_path`, which may go negative. -/
def index32 (i j : Int) : Int := i * 2 ^ MAXLEN_NBITS + j

def track_get_u (t : Nat) : Nat := (t &&& 0xFF000000) >>> 24
def track_get_d (t : Nat) : Nat := (t &&& 0x00FF0000) >>> 16
def track_get_c (t : Nat) : Nat := (t &&& 0x0000FF00) >>> 8
def track_get_p (t : Nat) : Nat := t &&& 0x000000FF
def track_valid (t : Nat) : Bool := track_get_d t == MOTIF && track_get_p t != 0
def track_set_u (t u : Nat) : Nat := (t &&& 0x00FFFFFF) ||| (u <<< 24)
def track_set_d (t d : Nat) : Nat := (t &&& 0xFF00FFFF) ||| (d <<< 16)
def track_set_c (t c : Nat) : Nat := (t &&& 0xFFFF00FF) ||| (c <<< 8)
def track_set_p (t p : Nat) : Nat := (t &&& 0xFFFFFF00) ||| p
def make_track (u d c p : Nat) : Nat := (u <<< 24) ||| (d <<< 16) ||| (c <<< 8) ||| p

abbrev NULL_TRACK : Nat := 0x0F040000
abbrev START_TRACK : Nat := 0x0F000000

/-- What ends a run of the model: `exit(1)`, or an access to memory the object does not
own (undefined behaviour in C++). -/
inductive Fault where
  /-- `exit(1)` after the length test of `align`. -/
  | exit
  /-- `V[s][c]`/`U[s][c]` stored at an offset `c` past the `MAXLEN*MAXLEN` cells. -/
  | store (c : Nat)
  /-- `U[u][index(i,j)]` read for a state without a matrix or an offset outside of it. -/
  | lookup (u : Nat) (i j : Int)
  /-- `*optimal_path_ptr` written below the first entry of the path buffer. -/
  | overrun
  deriving DecidableEq, Repr

variable {R : Type} [LinearOrderedAddCommGroup R]

/-- `#define track_get_base(t) (model[track_get_d(t)][track_get_p(t)-1])`. -/
def track_get_base (h : LFHMM R) (t : Nat) : Char :=
  h.model (track_get_d t) ((track_get_p t : Int) - 1)

/-- `LFHMM::log10_emission_odds`. -/
def log10_emission_odds (h : LFHMM R) (probe_base read_base : Char) (pl : Nat) : WithBot R :=
  if read_base = 'N' ∨ probe_base = 'N' then ⊥
  else if read_base ≠ probe_base then ((h.lt pl : R) : WithBot R)
  else ((-(h.lt pl) : R) : WithBot R)

/-- `read[j]`; the string ends with a NUL byte. -/
def read_at (h : LFHMM R) (j : Nat) : Char := h.read.getD j (Char.ofNat 0)

/-- `qual[j]-33` converted to `uint32_t`. -/
def qual_pl (h : LFHMM R) (j : Nat) : Nat := ((h.qual j).toNat + 2 ^ 32 - 33) % 2 ^ 32

/-- `LFHMM::proc_comp` (the part before the debugging output). -/
def proc_comp (h : LFHMM R) (A B index1 j match_type : Nat) : LFHMM R :=
  let t := h.moves A B (h.U A index1) j
  let valid : WithBot R := if t = NULL_TRACK then ⊥ else 0
  let emission : WithBot R :=
    if t = NULL_TRACK then 0
    else if match_type = MATCH then
      log10_emission_odds h (track_get_base h t) (read_at h j) (qual_pl h j)
    else 0
  let score := h.V A index1 + h.T A B + emission + valid
  if score > h.max_score then { h with max_score := score, max_track := t } else h

/-- `V[B][c] = max_score; U[B][c] = max_track;`. -/
def store_cell (h : LFHMM R) (B c : Nat) : LFHMM R :=
  { h with
    V := fun s x => if s = B ∧ x = c then h.max_score else h.V s x
    U := fun s x => if s = B ∧ x = c then h.max_track else h.U s x }

/-- `max_score = -INFINITY; max_track = NULL_TRACK;`. -/
def reset_max (h : LFHMM R) : LFHMM R :=
  { h with max_score := ⊥, max_track := NULL_TRACK }

/-- The body of the two loops of `LFHMM::align` for the cell `(i,j)`. -/
def align_cell (h : LFHMM R) (i j : Nat) : LFHMM R :=
  let c := index i j
  let d := index (i - 1) (j - 1)
  let u := index (i - 1) j
  let l := index i (j - 1)
  -- M
  let h := reset_max h
  let h := proc_comp h S M d (j - 1) MATCH
  let h := proc_comp h M M d (j - 1) MATCH
  let h := proc_comp h D M d (j - 1) MATCH
  let h := proc_comp h I M d (j - 1) MATCH
  let h := store_cell h M c
  -- D
  let h := reset_max h
  let h := proc_comp h S D u j PROBE_ONLY
  let h := proc_comp h M D u j PROBE_ONLY
  let h := proc_comp h D D u j PROBE_ONLY
  let h := store_cell h D c
  -- I
  let h := reset_max h
  let h := proc_comp h S I l (j - 1) READ_ONLY
  let h := proc_comp h M I l (j - 1) READ_ONLY
  let h := proc_comp h I I l (j - 1) READ_ONLY
  let h := store_cell h I c
  -- Z
  let h := reset_max h
  let h := proc_comp h M Z l (j - 1) READ_ONLY
  let h := proc_comp h D Z l (j - 1) READ_ONLY
  let h := proc_comp h I Z l (j - 1) READ_ONLY
  let h := proc_comp h Z Z l (j - 1) READ_ONLY
  store_cell h Z c

/-- The inner loop `for (size_t j=1; j<=rlen; ++j)` of `LFHMM::align`. -/
def align_row (h : LFHMM R) (i : Nat) : LFHMM R :=
  (List.range' 1 h.rlen).foldl (fun h j => align_cell h i j) h

/-- The outer loop `for (size_t i=1; i<=plen; ++i)` of `LFHMM::align`. -/
def align_fill (h : LFHMM R) : LFHMM R :=
  (List.range' 1 h.plen).foldl align_row h

/-- The scan of `LFHMM::trace_path` over column `rlen` of the `Z` matrices. -/
def trace_scan (h : LFHMM R) : LFHMM R :=
  let h := { h with
    optimal_score := ⊥, optimal_track := NULL_TRACK,
    optimal_state := TBD, optimal_probe_len := 0 }
  (List.range (h.plen + 1)).foldl
    (fun h i =>
      let c := index i h.rlen
      if h.V Z c ≥ h.optimal_score then
        { h with
          optimal_score := h.V Z c, optimal_track := h.U Z c,
          optimal_state := Z, optimal_probe_len := i }
      else h)
    h

/-- The `do ... while` loop of `LFHMM::trace_path`. `room` is the number of entries of the
path buffer at and below `optimal_path_ptr`. -/
def trace_walk : Nat → LFHMM R → Nat → Int → Int → Except Fault (LFHMM R)
  | 0, _, _, _, _ => .error .overrun
  | room + 1, h, last_t, i, j =>
    let u := track_get_u last_t
    if u ≤ Z ∧ 0 ≤ index32 i j ∧ index32 i j < MAXLEN * MAXLEN then
      let last_t := h.U u (index32 i j).toNat
      let h := { h with
        optimal_path := fun k =>
          if (k : Int) = h.optimal_path_ptr then track_set_u last_t u else h.optimal_path k }
      let ij : Int × Int :=
        if u = M then (i - 1, j - 1)
        else if u = D then (i - 1, j)
        else if u = I ∨ u = Z then (i, j - 1)
        else (i, j)
      let h := { h with
        optimal_path_ptr := h.optimal_path_ptr - 1,
        optimal_path_len := h.optimal_path_len + 1 }
      if track_get_u last_t ≠ S then trace_walk room h last_t ij.1 ij.2
      else .ok { h with
        optimal_path_ptr := h.optimal_path_ptr + 1, optimal_path_traced := true }
    else .error (.lookup u i j)

/-- `LFHMM::trace_path`. -/
def trace_path (h : LFHMM R) : Except Fault (LFHMM R) :=
  let h := trace_scan h
  let h := { h with optimal_path_ptr := ((MAXLEN <<< 2 : Nat) : Int) - 1 }
  let last_t := make_track h.optimal_state MOTIF 0 (h.mlen + 1)
  let h := { h with optimal_path_len := 0 }
  trace_walk (MAXLEN <<< 2) h last_t h.optimal_probe_len h.rlen

/-- The assignments of `LFHMM::align` before the length test. -/
def align_prep (h : LFHMM R) (read : List Char) (qual : Nat → Char) : LFHMM R :=
  { h with
    optimal_path_traced := false, read := read, qual := qual,
    rlen := read.length, plen := read.length }

/-- `LFHMM::align`. The two loops store at `index(plen,rlen)` at the latest, which has to
lie in the `MAXLEN*MAXLEN` allocated cells. -/
def align (h : LFHMM R) (read : List Char) (qual : Nat → Char) : Except Fault (LFHMM R) :=
  let h := align_prep h read qual
  if h.rlen > MAXLEN then .error .exit
  else if 0 < h.rlen ∧ MAXLEN * MAXLEN ≤ index h.plen h.rlen then
    .error (.store (index h.plen h.rlen))
  else trace_path (align_fill h)

/-- `T[a][b] = v`. -/
def set2 {α : Type} (f : Nat → Nat → α) (a b : Nat) (v : α) : Nat → Nat → α :=
  fun x y => if x = a ∧ y = b then v else f x y

abbrev delta : ℚ := 1 / 1000
abbrev epsilon : ℚ := 5 / 100
abbrev tau : ℚ := 1 / 100
abbrev eta : ℚ := 1 / 100

/-- The transition table built by `LFHMM::initialize`: `-INFINITY` on `S..Z`, then the
fourteen assignments in source order. -/
def initialise_T (log10 : ℚ → WithBot R) (T : Nat → Nat → WithBot R) :
    Nat → Nat → WithBot R :=
  let T : Nat → Nat → WithBot R := fun i j => if i ≤ Z ∧ j ≤ Z then ⊥ else T i j
  let T := set2 T S M (log10 ((1 - 2 * delta - tau) / (eta * (1 - eta) * (1 - eta))))
  let T := set2 T M M (log10 ((1 - 2 * delta - tau) / ((1 - eta) * (1 - eta))))
  let T := set2 T D M (log10 ((1 - epsilon - tau) / ((1 - eta) * (1 - eta))))
  let T := set2 T I M (T I M)
  let T := set2 T S D (log10 (delta / (eta * (1 - eta))))
  let T := set2 T M D (log10 (delta / (1 - eta)))
  let T := set2 T D D (log10 (delta / (1 - eta)))
  let T := set2 T S I (log10 (delta / (eta * (1 - eta))))
  let T := set2 T M I (log10 (delta / (1 - eta)))
  let T := set2 T I I (log10 (delta / (1 - eta)))
  let T := set2 T M Z (log10 (tau / (eta * (1 - eta))))
  let T := set2 T D Z (log10 (tau / (eta * (1 - eta))))
  let T := set2 T I Z (log10 (tau / (eta * (1 - eta))))
  set2 T Z Z 0

/-- The score matrices after the loops of `LFHMM::initialize` and the assignment
`V[S][index(0,0)] = 0`: every allocated cell is `-INFINITY` except the origin of `S`. -/
def initialise_V (V : Nat → Nat → WithBot R) : Nat → Nat → WithBot R :=
  fun s c =>
    if s ≤ Z ∧ c < MAXLEN * MAXLEN then
      if s = S ∧ c = index 0 0 then 0 else ⊥
    else V s c

/-- The track matrices after the loops of `LFHMM::initialize` and the assignment
`U[S][index(0,0)] = START_TRACK`. The cell `c = index(i,j)` with `i, j < MAXLEN` has
`i = c >> 8` and `j = c % 256`; `!i || !j` selects the boundary row and column. -/
def initialise_U (U : Nat → Nat → Nat) : Nat → Nat → Nat :=
  fun s c =>
    if s ≤ Z ∧ c < MAXLEN * MAXLEN then
      if s = S then (if c = index 0 0 then START_TRACK else NULL_TRACK)
      else if c >>> MAXLEN_NBITS = 0 ∨ c % MAXLEN = 0 then make_track N UNMODELED 0 0
      else make_track TBD UNCERTAIN 0 0
    else U s c

/-- `LFHMM::initialize(motif)` (spelt `initialise`, the other spelling being reserved
in Lean), run on an object whose `lt` and move functions are in
place. `model[MOTIF]` is the NUL-terminated copy of the motif. -/
def initialise (h : LFHMM R) (log10 : ℚ → WithBot R) (motif : List Char) : LFHMM R :=
  { h with
    model := fun d k =>
      if d = MOTIF ∧ 0 ≤ k ∧ k ≤ (motif.length : Int) then motif.getD k.toNat (Char.ofNat 0)
      else h.model d k
    mlen := motif.length
    optimal_path_traced := false
    T := initialise_T log10 h.T
    V := initialise_V h.V
    U := initialise_U h.U }

/-- The logarithm of a positive rational, stored as its argument: the sum of two
logarithms is the product of the arguments, and the order is that of the arguments. -/
abbrev LogQ : Type := Additive { q : ℚ // 0 < q }

/-- The function `log10` into `WithBot LogQ`; `log10 0 = -INFINITY`. -/
def log10Q (q : ℚ) : WithBot LogQ :=
  if hq : 0 < q then ((Additive.ofMul (⟨q, hq⟩ : { q : ℚ // 0 < q }) : LogQ) : WithBot LogQ)
  else ⊥

/-- Modelled from the spec: the move table `move_A_B`, which `lfhmm.cpp` references and
does not define (spec 4.2). A Match or Deletion edge advances one step along the motif,
wrapping after `mlen` and incrementing the repeat-copy counter on the wrap; an Insertion
or Z edge holds the position. The component is `MOTIF` for Match and Deletion, `READ` for
Insertion and Z. The state field is the source state `A`, the predecessor state that
`trace_path` reads back (spec 3 and 4.4). `NULL_TRACK` is returned when there is nothing
to extend: a Start edge away from the origin track, or a predecessor that is no path. -/
def moves_spec (mlen : Nat) (A B t _j : Nat) : Nat :=
  if A = S then
    if t = START_TRACK then
      if B = M ∨ B = D then make_track S MOTIF 0 1 else make_track S READ 0 0
    else NULL_TRACK
  else if t = NULL_TRACK ∨ READ < track_get_d t then NULL_TRACK
  else if B = M ∨ B = D then
    if track_get_p t ≥ mlen then make_track A MOTIF (track_get_c t + 1) 1
    else make_track A MOTIF (track_get_c t) (track_get_p t + 1)
  else make_track A READ (track_get_c t) (track_get_p t)

/-- Modelled from the spec: `LogTool::pl2log10_varp`, the log10 of the error probability
`10^(-pl/10)` of a phred quality `pl` (spec 4.5), exact in `LogQ` for the qualities that
are multiples of ten and taken at the decade below otherwise. -/
def pl2log10_varp_spec (pl : Nat) : LogQ :=
  Additive.ofMul (⟨1 / 10 ^ (pl / 10), by positivity⟩ : { q : ℚ // 0 < q })

/-- An object as the constructor leaves it before `initialize`: the log tool and the move
functions are in place, every other member holds an arbitrary value (here zeros). -/
def raw (lt : Nat → R) (moves : Nat → Nat → Nat → Nat → Nat) : LFHMM R where
  lt := lt
  moves := moves
  model := fun _ _ => Char.ofNat 0
  mlen := 0
  T := fun _ _ => 0
  V := fun _ _ => 0
  U := fun _ _ => 0
  read := []
  qual := fun _ => Char.ofNat 0
  rlen := 0
  plen := 0
  max_score := 0
  max_track := 0
  optimal_score := 0
  optimal_track := 0
  optimal_state := 0
  optimal_probe_len := 0
  optimal_path := fun _ => 0
  optimal_path_ptr := 0
  optimal_path_len := 0
  optimal_path_traced := false

/-- The aligner for a motif with the spec's move table and log tool, after
`initialize`. -/
def aligner_spec (motif : List Char) : LFHMM LogQ :=
  initialise (raw pl2log10_varp_spec (moves_spec motif.length)) log10Q motif

/-- The entries `optimal_path_ptr .. optimal_path+(MAXLEN<<2)-1` of the path buffer,
first entry first, as the printing loops of `print_alignment` walk them. -/
def path_entries (h : LFHMM R) : List Nat :=
  (List.range ((MAXLEN <<< 2) - h.optimal_path_ptr.toNat)).map
    (fun k => h.optimal_path (h.optimal_path_ptr.toNat + k))

/-- The track that `proc_comp(A, B, index1, j, _)` computes: the move `A → B` applied to
the track stored for `A` at the predecessor cell. -/
def cand_track (h : LFHMM R) (A B index1 j : Nat) : Nat :=
  h.moves A B (h.U A index1) j

/-- The candidate score of spec 4.3 for the edge `A → B`:
`V[A][predecessor] + T[A][B] + emission + validity_penalty`, the penalty being
`-INFINITY` when the move yields `NULL_TRACK`, the emission being the log10 emission odds
for `MATCH` and zero otherwise. -/
def cand_score (h : LFHMM R) (A B index1 j match_type : Nat) : WithBot R :=
  let t := cand_track h A B index1 j
  let emission : WithBot R :=
    if match_type = MATCH ∧ t ≠ NULL_TRACK then
      log10_emission_odds h (track_get_base h t) (read_at h j) (qual_pl h j)
    else 0
  let validity_penalty : WithBot R := if t = NULL_TRACK then ⊥ else 0
  h.V A index1 + h.T A B + emission + validity_penalty

/-- The source states of the candidates of a cell of state `B`, in the order in which
`align` evaluates them. -/
def sources (B : Nat) : List Nat :=
  if B = M then [S, M, D, I]
  else if B = D then [S, M, D]
  else if B = I then [S, M, I]
  else [M, D, I, Z]

/-- The flat offset of the predecessor cell of `(i,j)` for state `B`: diagonal for `M`,
vertical for `D`, horizontal for `I` and `Z`. -/
def pred (B i j : Nat) : Nat :=
  if B = M then index (i - 1) (j - 1)
  else if B = D then index (i - 1) j
  else index i (j - 1)

/-- The read offset that `align` passes to `proc_comp` for a cell of state `B`. -/
def roff (B j : Nat) : Nat := if B = D then j else j - 1

/-- The match type that `align` passes to `proc_comp` for a cell of state `B`. -/
def mtype (B : Nat) : Nat := if B = M then MATCH else if B = D then PROBE_ONLY else READ_ONLY

/-- The candidates (score, track) of the cell `(i,j)` of state `B`, read off the matrices
of `h`, in evaluation order. -/
def candidates (h : LFHMM R) (B i j : Nat) : List (WithBot R × Nat) :=
  (sources B).map fun A =>
    (cand_score h A B (pred B i j) (roff B j) (mtype B),
     cand_track h A B (pred B i j) (roff B j))

/-- The running pair `(max_score, max_track)` after a list of candidates: a candidate
replaces the pair when its score is strictly greater. -/
def best (cs : List (WithBot R × Nat)) (init : WithBot R × Nat) : WithBot R × Nat :=
  cs.foldl (fun acc c => if c.1 > acc.1 then c else acc) init

/-- The members that `initialize` sets once and `align` never writes. -/
def SameModel (h h' : LFHMM R) : Prop :=
  h'.lt = h.lt ∧ h'.moves = h.moves ∧ h'.model = h.model ∧ h'.mlen = h.mlen ∧ h'.T = h.T

/-- The members that stay fixed during the loops of one `align` call. -/
def SameInput (h h' : LFHMM R) : Prop :=
  SameModel h h' ∧ h'.read = h.read ∧ h'.qual = h.qual ∧ h'.rlen = h.rlen ∧ h'.plen = h.plen

/-- One state of one cell: reset, candidates, store. -/
def fill_state (h : LFHMM R) (B i j : Nat) : LFHMM R :=
  store_cell
    ((sources B).foldl (fun h A => proc_comp h A B (pred B i j) (roff B j) (mtype B))
      (reset_max h))
    B (index i j)

/-- The cell `(i,j)` of `h` holds, for each state `M..Z`, the best of its candidates,
the candidates being read off the matrices of `h` itself. -/
def CellOK (h : LFHMM R) (i j : Nat) : Prop :=
  ∀ B, 1 ≤ B → B ≤ Z →
    h.V B (index i j) = (best (candidates h B i j) (⊥, NULL_TRACK)).1 ∧
    h.U B (index i j) = (best (candidates h B i j) (⊥, NULL_TRACK)).2

/-- The entry `(s, x)` of the matrices is one that the loops of `align` have stored when
the rows below `a` are complete and row `a` is done up to column `b` (of `n` columns). -/
def Written (n a b s x : Nat) : Prop :=
  ∃ i j, 1 ≤ i ∧ 1 ≤ j ∧ j ≤ n ∧ (i < a ∨ (i = a ∧ j ≤ b)) ∧ 1 ≤ s ∧ s ≤ Z ∧ x = index i j

/-- The state of the loops of `align` started in `h0`, with the rows below `a` complete
and row `a` done up to column `b`. -/
def FillInv (h0 h : LFHMM R) (n a b : Nat) : Prop :=
  SameInput h0 h ∧
  (∀ i j, 1 ≤ i → 1 ≤ j → j ≤ n → (i < a ∨ (i = a ∧ j ≤ b)) → CellOK h i j) ∧
  (∀ s x, ¬ Written n a b s x → h.V s x = h0.V s x ∧ h.U s x = h0.U s x)

/-- The matrices and the inputs of `h'` are those of `h`. -/
def SameMatrices (h h' : LFHMM R) : Prop :=
  h'.V = h.V ∧ h'.U = h.U ∧ SameInput h h'

/-- The end cell that the scan of `trace_path` selects. -/
def SameOptimum (h h' : LFHMM R) : Prop :=
  h'.optimal_score = h.optimal_score ∧ h'.optimal_track = h.optimal_track ∧
  h'.optimal_state = h.optimal_state ∧ h'.optimal_probe_len = h.optimal_probe_len

/-- The object after the two loops of `LFHMM::align`, before `trace_path` is called. -/
def align_loops (h : LFHMM R) (read : List Char) (qual : Nat → Char) : LFHMM R :=
  align_fill (align_prep h read qual)

/-- The recurrence of spec 4.3 at the cell `(i,j)`, read on the matrices of `h`: each of
`V[M]`, `V[D]`, `V[I]`, `V[Z]` is the maximum of its candidate scores, taken at the
diagonal, vertical, horizontal and horizontal predecessor. The maximum `⊔` of scores that
are all `-INFINITY` is `-INFINITY`. -/
def Recurrence (h : LFHMM R) (i j : Nat) : Prop :=
  h.V M (index i j) =
      cand_score h S M (index (i - 1) (j - 1)) (j - 1) MATCH ⊔
      cand_score h M M (index (i - 1) (j - 1)) (j - 1) MATCH ⊔
      cand_score h D M (index (i - 1) (j - 1)) (j - 1) MATCH ⊔
      cand_score h I M (index (i - 1) (j - 1)) (j - 1) MATCH ∧
  h.V D (index i j) =
      cand_score h S D (index (i - 1) j) j PROBE_ONLY ⊔
      cand_score h M D (index (i - 1) j) j PROBE_ONLY ⊔
      cand_score h D D (index (i - 1) j) j PROBE_ONLY ∧
  h.V I (index i j) =
      cand_score h S I (index i (j - 1)) (j - 1) READ_ONLY ⊔
      cand_score h M I (index i (j - 1)) (j - 1) READ_ONLY ⊔
      cand_score h I I (index i (j - 1)) (j - 1) READ_ONLY ∧
  h.V Z (index i j) =
      cand_score h M Z (index i (j - 1)) (j - 1) READ_ONLY ⊔
      cand_score h D Z (index i (j - 1)) (j - 1) READ_ONLY ⊔
      cand_score h I Z (index i (j - 1)) (j - 1) READ_ONLY ⊔
      cand_score h Z Z (index i (j - 1)) (j - 1) READ_ONLY

/-- Ties keep the first-seen candidate, at the cell `(i,j)` of state `B` of `h`: no
candidate scores above the stored score, and when the stored score is above `-INFINITY`
the first candidate in evaluation order whose score equals it is the one whose track is
stored. -/
def FirstSeen (h : LFHMM R) (B i j : Nat) : Prop :=
  (∀ c ∈ candidates h B i j, c.1 ≤ h.V B (index i j)) ∧
  (⊥ < h.V B (index i j) →
    (candidates h B i j).find? (fun c => decide (c.1 = h.V B (index i j))) =
      some (h.V B (index i j), h.U B (index i j)))

/-- One iteration of the scan of `trace_path`, for the probe position `i`. -/
def scan_step (h : LFHMM R) (i : Nat) : LFHMM R :=
  let c := index i h.rlen
  if h.V Z c ≥ h.optimal_score then
    { h with
      optimal_score := h.V Z c, optimal_track := h.U Z c,
      optimal_state := Z, optimal_probe_len := i }
  else h

/-- What the scan of `trace_path` leaves in `g` when run on the matrices of `h`: the end
cell is in state `Z` at a probe position `optimal_probe_len ≤ plen` of column `rlen`, its
score and track are the stored ones, the score is the maximum of the column, and every
probe position above the selected one scores strictly less: of the positions that attain
the maximum, the highest is selected. -/
def ScanResult (h g : LFHMM R) : Prop :=
  g.optimal_state = Z ∧ g.optimal_probe_len ≤ h.plen ∧
  g.optimal_score = h.V Z (index g.optimal_probe_len h.rlen) ∧
  g.optimal_track = h.U Z (index g.optimal_probe_len h.rlen) ∧
  (∀ i, i ≤ h.plen → h.V Z (index i h.rlen) ≤ g.optimal_score) ∧
  (∀ i, i ≤ h.plen → g.optimal_probe_len < i → h.V Z (index i h.rlen) < g.optimal_score)

/-- The object after the loops of `align` for the motif `AT` and the one-base read `A`
with quality `I` (phred 40), on the aligner with the spec's move table and log tool. -/
def one_base_run : LFHMM LogQ :=
  align_loops (aligner_spec ['A', 'T']) ['A'] (fun _ => 'I')

/-- The fault that a run of the model ended with, if it ended with one. -/
def fault_of {α : Type} (r : Except Fault α) : Option Fault :=
  match r with
  | .ok _ => none
  | .error e => some e

/-- The object after the stores of one iteration of the loop of `trace_path` that read
the track `last_t` in state `u`: the entry `track_set_u(last_t, u)` is written at
`optimal_path_ptr`, the pointer is decremented and the length incremented. -/
def walk_write (h : LFHMM R) (u last_t : Nat) : LFHMM R :=
  { h with
    optimal_path := fun k =>
      if (k : Int) = h.optimal_path_ptr then track_set_u last_t u else h.optimal_path k
    optimal_path_ptr := h.optimal_path_ptr - 1
    optimal_path_len := h.optimal_path_len + 1 }

/-- The cell that one iteration of the loop of `trace_path` steps to from `(i,j)` after
a lookup in state `u`. -/
def walk_next (u : Nat) (i j : Int) : Int × Int :=
  if u = M then (i - 1, j - 1)
  else if u = D then (i - 1, j)
  else if u = I ∨ u = Z then (i, j - 1)
  else (i, j)

/-- The end of `trace_path` after the loop: `++optimal_path_ptr; optimal_path_traced = true`. -/
def walk_finish (h : LFHMM R) : LFHMM R :=
  { h with optimal_path_ptr := h.optimal_path_ptr + 1, optimal_path_traced := true }

/-- A log10 value converted back to the linear scale: `10^x` for the value `x` of `LogQ`
(the argument it stores), and `0` for `-INFINITY`. -/
def linear (x : WithBot LogQ) : ℚ :=
  match x with
  | none => 0
  | some q => (Additive.toMul q).val

/-- The transition table that `initialize` builds, with `log10Q` for `log10`. -/
def T_init : Nat → Nat → WithBot LogQ :=
  initialise_T log10Q (fun _ _ => ⊥)

/-- The finite entries of row `a` of the transition table, over the states `S..Z`,
converted back to linear probability. -/
def row_entries (a : Nat) : List ℚ :=
  ((List.range (Z + 1)).filter (fun b => decide (T_init a b ≠ ⊥))).map
    (fun b => linear (T_init a b))

/-- The sum of the finite entries of row `a`, on the linear scale. -/
def row_sum (a : Nat) : ℚ := (row_entries a).sum

/-- The objects that a sequence of successful `align` calls leads to from `h0`. -/
inductive Reachable (h0 : LFHMM R) : LFHMM R → Prop where
  | init : Reachable h0 h0
  | step {h hf : LFHMM R} {read : List Char} {qual : Nat → Char} :
      Reachable h0 h → align h read qual = .ok hf → Reachable h0 hf

/-- The boundary of the matrices as `initialize` sets it, over the allocated cells
`(i,j)`, `0 ≤ i, j ≤ 255`. The `S` matrices hold score `-INFINITY` and `NULL_TRACK` in
every cell but the origin, which holds score `0` and `START_TRACK`. In the matrices of
`M`, `D`, `I`, `Z` every cell of row 0 and of column 0 holds score `-INFINITY` and the
track `make_track(N,UNMODELED,0,0)`. -/
def Boundary (h : LFHMM R) : Prop :=
  ∀ i j, i ≤ 255 → j ≤ 255 →
    h.V S (index i j) = (if i = 0 ∧ j = 0 then 0 else ⊥) ∧
    h.U S (index i j) = (if i = 0 ∧ j = 0 then START_TRACK else NULL_TRACK) ∧
    ((i = 0 ∨ j = 0) → ∀ s, 1 ≤ s → s ≤ Z →
      h.V s (index i j) = ⊥ ∧ h.U s (index i j) = make_track N UNMODELED 0 0)

/-- The entries of the path buffer from offset `p` to its end. -/
def tail_entries (h : LFHMM R) (p : Nat) : List Nat :=
  (List.range ((MAXLEN <<< 2) - p)).map (fun k => h.optimal_path (p + k))

/-- The entries that the loop of `trace_path` writes, in path order (the entry written
last comes first), as a function of the track matrices alone; the faults are those of
`trace_walk`. -/
def walk_pure (U : Nat → Nat → Nat) : Nat → Nat → Int → Int → Except Fault (List Nat)
  | 0, _, _, _ => .error .overrun
  | room + 1, t, i, j =>
    if track_get_u t ≤ Z ∧ 0 ≤ index32 i j ∧ index32 i j < MAXLEN * MAXLEN then
      if track_get_u (U (track_get_u t) (index32 i j).toNat) ≠ S then
        match walk_pure U room (U (track_get_u t) (index32 i j).toNat)
            (walk_next (track_get_u t) i j).1 (walk_next (track_get_u t) i j).2 with
        | .ok es => .ok (es ++ [track_set_u (U (track_get_u t) (index32 i j).toNat) (track_get_u t)])
        | .error e => .error e
      else .ok [track_set_u (U (track_get_u t) (index32 i j).toNat) (track_get_u t)]
    else .error (.lookup (track_get_u t) i j)

/-- The path entry is in a state that consumes a read base: `M`, `I` or `Z`, the test
`u==M || u==I || u==Z` of `print_alignment`. -/
def consumes (e : Nat) : Bool :=
  track_get_u e == M || track_get_u e == I || track_get_u e == Z

/-- The row `Read:` of `print_alignment`: `read[j-1]` for an entry that consumes a read
base, with `j` starting at 1 and incremented there, and `-` for the other entries. -/
def read_row (read : List Char) : List Nat → Nat → List Char
  | [], _ => []
  | e :: es, j =>
    if consumes e then read.getD (j - 1) (Char.ofNat 0) :: read_row read es (j + 1)
    else '-' :: read_row read es j

/-- The read bases that the path consumes: the characters `read[j-1]` of `read_row`,
without the `-` of the entries that consume none. -/
def consumed_bases (read : List Char) : List Nat → Nat → List Char
  | [], _ => []
  | e :: es, j =>
    if consumes e then read.getD (j - 1) (Char.ofNat 0) :: consumed_bases read es (j + 1)
    else consumed_bases read es j

/-- The move table is well-tagged: every move from a state `A` of `S..Z` returns
`NULL_TRACK` or a track whose state field is `A`. -/
def WellTagged (moves : Nat → Nat → Nat → Nat → Nat) : Prop :=
  ∀ A B t j, A ≤ Z → moves A B t j = NULL_TRACK ∨ track_get_u (moves A B t j) = A

/-- The matrices of `h` are filled for a read of `n ≤ 255` bases over a well-tagged move
table: the boundary is as `initialize` sets it and every cell `(i,j)`, `1 ≤ i, j ≤ n`,
holds the best of its candidates. -/
def Filled (h : LFHMM R) (n : Nat) : Prop :=
  n ≤ 255 ∧ Boundary h ∧ WellTagged h.moves ∧
  ∀ i j, 1 ≤ i → i ≤ n → 1 ≤ j → j ≤ n → CellOK h i j

/-- The decoded entries `(state, component, counter, position)` of the path that a run
of `align` leaves, when it ends without a fault. -/
def path_fields (r : Except Fault (LFHMM R)) : Option (List (Nat × Nat × Nat × Nat)) :=
  match r with
  | .ok h =>
    some ((path_entries h).map fun t =>
      (track_get_u t, track_get_d t, track_get_c t, track_get_p t))
  | .error _ => none

/-- The scenario of spec 8.6: motif `AT`, read `ATATAT`, uniform quality `I` (phred 40),
on the aligner with the spec's move table and log tool. -/
def wrap_run : Except Fault (LFHMM LogQ) :=
  align (aligner_spec ['A', 'T']) ['A', 'T', 'A', 'T', 'A', 'T'] (fun _ => 'I')

/-- The result of an `align` call: the fault it ended with, or the optimal score, end
state, end probe position, end track, path length and path. -/
def align_result (r : Except Fault (LFHMM R)) :
    Except Fault (WithBot R × Nat × Nat × Nat × Nat × List Nat) :=
  match r with
  | .ok h =>
    .ok (h.optimal_score, h.optimal_state, h.optimal_probe_len, h.optimal_track,
      h.optimal_path_len, path_entries h)
  | .error e => .error e

/-- The matrices of `g1` and `g2` agree on the window of the cells `(i,j)`,
`0 ≤ i, j ≤ n`, of the states `S..Z`. -/
def AgreeWindow (g1 g2 : LFHMM R) (n : Nat) : Prop :=
  ∀ s i j, s ≤ Z → i ≤ n → j ≤ n →
    g2.V s (index i j) = g1.V s (index i j) ∧ g2.U s (index i j) = g1.U s (index i j)

/-- An object on which all the candidates of a cell tie: integer scores, every stored
score and every transition `0`, a log tool that returns `0`, and moves that return a
non-null track tagged with their source state. -/
def tie_aligner : LFHMM ℤ :=
  raw (fun _ => (0 : ℤ)) (fun A _ _ _ => make_track A MOTIF 0 1)

/-- The thirteen edges of the transition model with a finite entry (spec 4.1). -/
def finite_edges : List (Nat × Nat) :=
  [(S, M), (M, M), (D, M), (S, D), (M, D), (D, D), (S, I), (M, I), (I, I),
    (M, Z), (D, Z), (I, Z), (Z, Z)]

/-- The cells `(u, i, j)` that the loop of `trace_path` visits, in the order of the
visits (the end cell first), as a function of the track matrices; the faults are those
of `trace_walk`. -/
def walk_cells (U : Nat → Nat → Nat) : Nat → Nat → Int → Int →
    Except Fault (List (Nat × Int × Int))
  | 0, _, _, _ => .error .overrun
  | room + 1, t, i, j =>
    if track_get_u t ≤ Z ∧ 0 ≤ index32 i j ∧ index32 i j < MAXLEN * MAXLEN then
      if track_get_u (U (track_get_u t) (index32 i j).toNat) ≠ S then
        match walk_cells U room (U (track_get_u t) (index32 i j).toNat)
            (walk_next (track_get_u t) i j).1 (walk_next (track_get_u t) i j).2 with
        | .ok cs => .ok ((track_get_u t, i, j) :: cs)
        | .error e => .error e
      else .ok [(track_get_u t, i, j)]
    else .error (.lookup (track_get_u t) i j)

/-- The path entry of a visited cell `(u, i, j)`: the track `U[u][index(i,j)]` with its
state field overwritten by `u`. -/
def entry_of (U : Nat → Nat → Nat) (c : Nat × Int × Int) : Nat :=
  track_set_u (U c.1 (index32 c.2.1 c.2.2).toNat) c.1

end LFHMM


/-! ## The ordered region overlap matcher (`ordered_region_overlap_matcher.cpp`) -/

/-- A `BEDRecord` as `overlaps_with` uses it: the 1-based first and last position of the
region (`int32_t` members, only compared). -/
structure BEDRecord where
  start1 : Int
  end1 : Int
deriving DecidableEq

/-- The members of `OrderedRegionOverlapMatcher` that `overlaps_with` uses. `todr` is
the reader, as the list of the records that `todr->read(&s)` still hands out, next record
first; `read` fails when the list is empty. -/
structure OrderedRegionOverlapMatcher where
  todr : List BEDRecord
  current_interval_seq : String
  buffer : List BEDRecord
deriving DecidableEq

namespace OrderedRegionOverlapMatcher

/-- The loop of `overlaps_with` over the buffer, from the iterator position on: a record
with `end1 < start1` is erased; the first record that is not ends the loop, with
`overlaps = (start1 of the record ≤ end1)`. The result is the buffer left, and
`overlaps` (which is `false` when the loop runs off the end). -/
def scan_buffer (start1 end1 : Int) : List BEDRecord → List BEDRecord × Bool
  | [] => ([], false)
  | r :: rest =>
    if r.end1 < start1 then scan_buffer start1 end1 rest
    else if r.start1 ≤ end1 then (r :: rest, true)
    else (r :: rest, false)

/-- The loop `while (todr->read(&s))` of `overlaps_with`: a record with `end1 < start1` is
skipped; any other record sets `overlaps = (br.start1 <= end1)` and is pushed to the back
of the buffer, and ends the loop when `br.start1 > end1`. The result is the reader, the
buffer and `overlaps` after the loop. -/
def read_loop (start1 end1 : Int) :
    List BEDRecord → List BEDRecord → Bool → List BEDRecord × List BEDRecord × Bool
  | [], buffer, overlaps => ([], buffer, overlaps)
  | br :: todr, buffer, overlaps =>
    if br.end1 < start1 then read_loop start1 end1 todr buffer overlaps
    else if br.start1 > end1 then (todr, buffer ++ [br], decide (br.start1 ≤ end1))
    else read_loop start1 end1 todr (buffer ++ [br]) (decide (br.start1 ≤ end1))

/-- `OrderedRegionOverlapMatcher::overlaps_with`: the value returned and the object
after the call; `none` is the `exit(1)` of the branch for another chromosome. -/
def overlaps_with (m : OrderedRegionOverlapMatcher) (chrom : String) (start1 end1 : Int) :
    Option (Bool × OrderedRegionOverlapMatcher) :=
  if m.current_interval_seq ≠ chrom then none
  else
    let scanned := scan_buffer start1 end1 m.buffer
    if scanned.1.length = 0 ∧ scanned.2 = false then
      let loaded := read_loop start1 end1 m.todr scanned.1 scanned.2
      some (loaded.2.2, { m with todr := loaded.1, buffer := loaded.2.1 })
    else some (scanned.2, { m with buffer := scanned.1 })

/-- The record overlaps the query interval `[start1, end1]`. -/
def Overlaps (r : BEDRecord) (start1 end1 : Int) : Prop :=
  r.end1 ≥ start1 ∧ r.start1 ≤ end1

instance decidableOverlaps (r : BEDRecord) (start1 end1 : Int) :
    Decidable (Overlaps r start1 end1) :=
  inferInstanceAs (Decidable (_ ∧ _))

/-- The records that one call of `overlaps_with` reads: those that the reader has handed
out between the state before and the state after the call. -/
def records_read (m m' : OrderedRegionOverlapMatcher) : List BEDRecord :=
  m.todr.take (m.todr.length - m'.todr.length)

/-- A matcher on chromosome `20` with an empty buffer, whose reader still holds the
sorted records `[5,10]` and `[20,30]`. -/
def two_records : OrderedRegionOverlapMatcher :=
  { todr := [⟨5, 10⟩, ⟨20, 30⟩], current_interval_seq := "20", buffer := [] }

end OrderedRegionOverlapMatcher
/-! ## Basic facts -/

set_option linter.unusedSectionVars false
set_option linter.unusedVariables false

namespace LFHMM

variable {R : Type} [LinearOrderedAddCommGroup R]

theorem index_eq (i j : Nat) : index i j = i * 256 + j := by
  simp only [index, Nat.shiftLeft_eq, MAXLEN_NBITS]

theorem index_lt {i j : Nat} (hi : i ≤ 255) (hj : j ≤ 255) : index i j < MAXLEN * MAXLEN := by
  rw [index_eq]; simp only [MAXLEN]; omega

theorem index_inj {i j i' j' : Nat} (hj : j ≤ 255) (hj' : j' ≤ 255)
    (h : index i j = index i' j') : i = i' ∧ j = j' := by
  rw [index_eq, index_eq] at h; omega

theorem sameInput_refl (h : LFHMM R) : SameInput h h :=
  ⟨⟨rfl, rfl, rfl, rfl, rfl⟩, rfl, rfl, rfl, rfl⟩

theorem sameInput_trans {a b c : LFHMM R} (h1 : SameInput a b) (h2 : SameInput b c) :
    SameInput a c := by
  obtain ⟨⟨a1, a2, a3, a4, a5⟩, a6, a7, a8, a9⟩ := h1
  obtain ⟨⟨b1, b2, b3, b4, b5⟩, b6, b7, b8, b9⟩ := h2
  exact ⟨⟨b1.trans a1, b2.trans a2, b3.trans a3, b4.trans a4, b5.trans a5⟩,
    b6.trans a6, b7.trans a7, b8.trans a8, b9.trans a9⟩

theorem cand_track_congr {h h' : LFHMM R} (hs : SameInput h h') {A x : Nat}
    (hU : h'.U A x = h.U A x) (B j : Nat) :
    cand_track h' A B x j = cand_track h A B x j := by
  simp only [cand_track, hs.1.2.1, hU]

theorem cand_score_congr {h h' : LFHMM R} (hs : SameInput h h') {A x : Nat}
    (hV : h'.V A x = h.V A x) (hU : h'.U A x = h.U A x) (B j m : Nat) :
    cand_score h' A B x j m = cand_score h A B x j m := by
  obtain ⟨⟨a1, a2, a3, a4, a5⟩, a6, a7, a8, a9⟩ := hs
  simp only [cand_score, cand_track, log10_emission_odds, track_get_base, read_at, qual_pl,
    a1, a2, a3, a5, a6, a7, hV, hU]

theorem proc_comp_eq (h : LFHMM R) (A B x j m : Nat) :
    proc_comp h A B x j m =
      if cand_score h A B x j m > h.max_score then
        { h with max_score := cand_score h A B x j m, max_track := cand_track h A B x j }
      else h := by
  have hsc : cand_score h A B x j m =
      h.V A x + h.T A B +
        (if h.moves A B (h.U A x) j = NULL_TRACK then (0 : WithBot R)
          else if m = MATCH then
            log10_emission_odds h (track_get_base h (h.moves A B (h.U A x) j)) (read_at h j)
              (qual_pl h j)
          else 0) +
        (if h.moves A B (h.U A x) j = NULL_TRACK then (⊥ : WithBot R) else 0) := by
    simp only [cand_score, cand_track]
    by_cases ht : h.moves A B (h.U A x) j = NULL_TRACK
    · simp [ht]
    · by_cases hm : m = MATCH <;> simp [ht, hm]
  unfold proc_comp
  simp only [hsc, cand_track]

/-- The candidates of one state, evaluated one after the other by `proc_comp`. -/
theorem proc_comp_fold (B x j m : Nat) (srcs : List Nat) (h : LFHMM R) :
    let h' := srcs.foldl (fun h A => proc_comp h A B x j m) h
    SameInput h h' ∧ h'.V = h.V ∧ h'.U = h.U ∧
      (h'.max_score, h'.max_track) =
        best (srcs.map fun A => (cand_score h A B x j m, cand_track h A B x j))
          (h.max_score, h.max_track) := by
  induction srcs generalizing h with
  | nil => exact ⟨sameInput_refl h, rfl, rfl, rfl⟩
  | cons A rest ih =>
    simp only [List.foldl_cons, List.map_cons, best]
    have key : SameInput h (proc_comp h A B x j m) ∧ (proc_comp h A B x j m).V = h.V ∧
        (proc_comp h A B x j m).U = h.U ∧
        ((proc_comp h A B x j m).max_score, (proc_comp h A B x j m).max_track) =
          (if cand_score h A B x j m > h.max_score then
            (cand_score h A B x j m, cand_track h A B x j)
           else (h.max_score, h.max_track)) := by
      rw [proc_comp_eq]
      split
      · exact ⟨⟨⟨rfl, rfl, rfl, rfl, rfl⟩, rfl, rfl, rfl, rfl⟩, rfl, rfl, rfl⟩
      · exact ⟨sameInput_refl h, rfl, rfl, rfl⟩
    obtain ⟨k1, k2, k3, k4⟩ := key
    obtain ⟨i1, i2, i3, i4⟩ := ih (proc_comp h A B x j m)
    refine ⟨sameInput_trans k1 i1, i2.trans k2, i3.trans k3, ?_⟩
    rw [i4, k4]
    have hmap : (rest.map fun A' =>
          (cand_score (proc_comp h A B x j m) A' B x j m,
            cand_track (proc_comp h A B x j m) A' B x j)) =
        (rest.map fun A' => (cand_score h A' B x j m, cand_track h A' B x j)) := by
      apply List.map_congr_left
      intro A' _
      rw [cand_score_congr k1 (congrFun (congrFun k2 A') x) (congrFun (congrFun k3 A') x),
        cand_track_congr k1 (congrFun (congrFun k3 A') x)]
    rw [hmap]
    rfl

theorem align_cell_eq (h : LFHMM R) (i j : Nat) :
    align_cell h i j = fill_state (fill_state (fill_state (fill_state h M i j) D i j) I i j) Z i j :=
  rfl

theorem candidates_congr {h h' : LFHMM R} (hs : SameInput h h') (B i j : Nat)
    (hV : ∀ A, h'.V A (pred B i j) = h.V A (pred B i j))
    (hU : ∀ A, h'.U A (pred B i j) = h.U A (pred B i j)) :
    candidates h' B i j = candidates h B i j := by
  unfold candidates
  apply List.map_congr_left
  intro A _
  rw [cand_score_congr hs (hV A) (hU A), cand_track_congr hs (hU A)]

theorem pred_ne (B : Nat) {i j : Nat} (hi : 1 ≤ i) (hj : 1 ≤ j) : pred B i j ≠ index i j := by
  unfold pred
  split_ifs <;> simp only [index_eq] <;> omega

/-- The cell value that `align` computes for state `B` at `(i,j)` from the matrices of `h`. -/
theorem fill_state_spec (h : LFHMM R) (B i j : Nat) :
    SameInput h (fill_state h B i j) ∧
    (∀ s x, (fill_state h B i j).V s x =
      if s = B ∧ x = index i j then (best (candidates h B i j) (⊥, NULL_TRACK)).1 else h.V s x) ∧
    (∀ s x, (fill_state h B i j).U s x =
      if s = B ∧ x = index i j then (best (candidates h B i j) (⊥, NULL_TRACK)).2 else h.U s x) := by
  obtain ⟨k1, k2, k3, k4⟩ :=
    proc_comp_fold B (pred B i j) (roff B j) (mtype B) (sources B) (reset_max h)
  have hc : (List.map (fun A => (cand_score (reset_max h) A B (pred B i j) (roff B j) (mtype B),
      cand_track (reset_max h) A B (pred B i j) (roff B j))) (sources B)) = candidates h B i j := rfl
  rw [hc] at k4
  have k5 := congrArg Prod.fst k4
  have k6 := congrArg Prod.snd k4
  simp only at k5 k6
  refine ⟨?_, ?_, ?_⟩
  · exact k1
  · intro s x
    show (if s = B ∧ x = index i j then _ else _) = _
    rw [k5, k2]; rfl
  · intro s x
    show (if s = B ∧ x = index i j then _ else _) = _
    rw [k6, k3]; rfl

/-- What a later state of the same cell sees: the earlier stores of the cell are not at
its predecessor. -/
theorem fill_state_candidates (h : LFHMM R) (B B' : Nat) {i j : Nat} (hi : 1 ≤ i) (hj : 1 ≤ j) :
    candidates (fill_state h B i j) B' i j = candidates h B' i j := by
  obtain ⟨k1, k2, k3⟩ := fill_state_spec h B i j
  apply candidates_congr k1
  · intro A; rw [k2]; simp [pred_ne B' hi hj]
  · intro A; rw [k3]; simp [pred_ne B' hi hj]

theorem align_cell_spec (h : LFHMM R) {i j : Nat} (hi : 1 ≤ i) (hj : 1 ≤ j) :
    SameInput h (align_cell h i j) ∧
    (∀ s x, (align_cell h i j).V s x =
      if (1 ≤ s ∧ s ≤ Z) ∧ x = index i j then (best (candidates h s i j) (⊥, NULL_TRACK)).1
      else h.V s x) ∧
    (∀ s x, (align_cell h i j).U s x =
      if (1 ≤ s ∧ s ≤ Z) ∧ x = index i j then (best (candidates h s i j) (⊥, NULL_TRACK)).2
      else h.U s x) := by
  rw [align_cell_eq]
  obtain ⟨a1, a2, a3⟩ := fill_state_spec h M i j
  obtain ⟨b1, b2, b3⟩ := fill_state_spec (fill_state h M i j) D i j
  obtain ⟨c1, c2, c3⟩ := fill_state_spec (fill_state (fill_state h M i j) D i j) I i j
  obtain ⟨d1, d2, d3⟩ :=
    fill_state_spec (fill_state (fill_state (fill_state h M i j) D i j) I i j) Z i j
  have e1 : candidates (fill_state h M i j) D i j = candidates h D i j :=
    fill_state_candidates h M D hi hj
  have e2 : candidates (fill_state (fill_state h M i j) D i j) I i j = candidates h I i j :=
    (fill_state_candidates _ D I hi hj).trans (fill_state_candidates h M I hi hj)
  have e3 : candidates (fill_state (fill_state (fill_state h M i j) D i j) I i j) Z i j =
      candidates h Z i j :=
    (fill_state_candidates _ I Z hi hj).trans
      ((fill_state_candidates _ D Z hi hj).trans (fill_state_candidates h M Z hi hj))
  rw [e1] at b2 b3
  rw [e2] at c2 c3
  rw [e3] at d2 d3
  refine ⟨sameInput_trans (sameInput_trans (sameInput_trans a1 b1) c1) d1, ?_, ?_⟩
  · intro s x
    rw [d2, c2, b2, a2]
    simp only [M, D, I, Z]
    by_cases hx : x = index i j
    · simp only [hx, and_true]
      split_ifs <;> first | rfl | (exfalso; omega) | (subst_vars; rfl)
    · simp only [hx, and_false, if_false]
  · intro s x
    rw [d3, c3, b3, a3]
    simp only [M, D, I, Z]
    by_cases hx : x = index i j
    · simp only [hx, and_true]
      split_ifs <;> first | rfl | (exfalso; omega) | (subst_vars; rfl)
    · simp only [hx, and_false, if_false]

theorem pred_ne_later (B : Nat) {i j a b : Nat} (hi : 1 ≤ i) (hj : 1 ≤ j) (hj' : j ≤ 255)
    (hb : b ≤ 255) (hlt : i < a ∨ (i = a ∧ j < b)) : pred B i j ≠ index a b := by
  unfold pred
  split_ifs <;> simp only [index_eq] <;> omega

theorem fillInv_step {h0 h : LFHMM R} {n a b : Nat} (hinv : FillInv h0 h n a b)
    (ha : 1 ≤ a) (hb : b < n) (hn : n ≤ 255) :
    FillInv h0 (align_cell h a (b + 1)) n a (b + 1) := by
  obtain ⟨i1, i2, i3⟩ := hinv
  obtain ⟨c1, c2, c3⟩ := align_cell_spec h ha (Nat.succ_le_succ (Nat.zero_le b))
  refine ⟨sameInput_trans i1 c1, ?_, ?_⟩
  · intro i j hi hj hjn hij B hB1 hB2
    by_cases hnew : i = a ∧ j = b + 1
    · obtain ⟨rfl, rfl⟩ := hnew
      have hc : candidates (align_cell h i (b + 1)) B i (b + 1) = candidates h B i (b + 1) := by
        apply candidates_congr c1
        · intro A; rw [c2]; simp [pred_ne B hi hj]
        · intro A; rw [c3]; simp [pred_ne B hi hj]
      rw [hc, c2, c3]
      simp [hB1, hB2]
    · have hold : i < a ∨ (i = a ∧ j ≤ b) := by omega
      have hlt : i < a ∨ (i = a ∧ j < b + 1) := by omega
      have hne : index i j ≠ index a (b + 1) := by
        simp only [index_eq]; omega
      have hc : candidates (align_cell h a (b + 1)) B i j = candidates h B i j := by
        apply candidates_congr c1
        · intro A; rw [c2]; simp [pred_ne_later B hi hj (by omega) (by omega) hlt]
        · intro A; rw [c3]; simp [pred_ne_later B hi hj (by omega) (by omega) hlt]
      rw [hc, c2, c3]
      simp only [hne, and_false, if_false]
      exact i2 i j hi hj hjn hold B hB1 hB2
  · intro s x hw
    have hw' : ¬ Written n a b s x := by
      rintro ⟨i, j, hi, hj, hjn, hij, hs1, hs2, hx⟩
      exact hw ⟨i, j, hi, hj, hjn, by omega, hs1, hs2, hx⟩
    have hx : ¬ ((1 ≤ s ∧ s ≤ Z) ∧ x = index a (b + 1)) := by
      rintro ⟨⟨hs1, hs2⟩, hx⟩
      exact hw ⟨a, b + 1, ha, by omega, by omega, Or.inr ⟨rfl, le_refl _⟩, hs1, hs2, hx⟩
    rw [c2, c3]
    simp only [hx, if_false]
    exact i3 s x hw'

theorem fillInv_row {h0 h : LFHMM R} {n a : Nat} (ha : 1 ≤ a) (hn : n ≤ 255) (k : Nat) :
    k ≤ n → FillInv h0 h n a 0 →
    FillInv h0 ((List.range' 1 k).foldl (fun h j => align_cell h a j) h) n a k := by
  induction k with
  | zero => intro _ hinv; exact hinv
  | succ k ih =>
    intro hk hinv
    rw [List.range'_concat, List.foldl_append, List.foldl_cons, List.foldl_nil]
    have e : 1 + 1 * k = k + 1 := by omega
    rw [e]
    exact fillInv_step (ih (by omega) hinv) ha (by omega) hn

theorem fillInv_next {h0 h : LFHMM R} {n a : Nat} (hinv : FillInv h0 h n a n) :
    FillInv h0 h n (a + 1) 0 := by
  obtain ⟨i1, i2, i3⟩ := hinv
  refine ⟨i1, ?_, ?_⟩
  · intro i j hi hj hjn hij
    exact i2 i j hi hj hjn (by omega)
  · intro s x hw
    apply i3
    rintro ⟨i, j, hi, hj, hjn, hij, hs1, hs2, hx⟩
    exact hw ⟨i, j, hi, hj, hjn, by omega, hs1, hs2, hx⟩

theorem fillInv_rows {h0 : LFHMM R} (hn : h0.rlen ≤ 255) (m : Nat) :
    FillInv h0 ((List.range' 1 m).foldl align_row h0) h0.rlen (m + 1) 0 := by
  induction m with
  | zero =>
    refine ⟨sameInput_refl h0, ?_, ?_⟩
    · intro i j hi hj hjn hij; omega
    · intro s x _; exact ⟨rfl, rfl⟩
  | succ m ih =>
    rw [List.range'_concat, List.foldl_append, List.foldl_cons, List.foldl_nil]
    have e : 1 + 1 * m = m + 1 := by omega
    rw [e]
    generalize (List.range' 1 m).foldl align_row h0 = g at ih ⊢
    apply fillInv_next
    have hr : g.rlen = h0.rlen := ih.1.2.2.2.1
    show FillInv h0 ((List.range' 1 g.rlen).foldl (fun h j => align_cell h (m + 1) j) g) _ _ _
    rw [hr]
    exact fillInv_row (by omega) hn h0.rlen (le_refl _) ih

/-- The matrices after the two loops of `align`. -/
theorem align_fill_inv (h0 : LFHMM R) (hn : h0.rlen ≤ 255) :
    FillInv h0 (align_fill h0) h0.rlen (h0.plen + 1) 0 :=
  fillInv_rows hn h0.plen

theorem best_cons (c : WithBot R × Nat) (cs : List (WithBot R × Nat)) (acc : WithBot R × Nat) :
    best (c :: cs) acc = best cs (if c.1 > acc.1 then c else acc) := rfl

theorem best_fst (cs : List (WithBot R × Nat)) (acc : WithBot R × Nat) :
    (best cs acc).1 = cs.foldl (fun m c => m ⊔ c.1) acc.1 := by
  induction cs generalizing acc with
  | nil => rfl
  | cons c rest ih =>
    rw [best_cons, ih, List.foldl_cons]
    congr 1
    split
    · next hlt => exact (sup_eq_right.mpr (le_of_lt hlt)).symm
    · next hle => exact (sup_eq_left.mpr (not_lt.mp hle)).symm

theorem best_props (cs : List (WithBot R × Nat)) (acc : WithBot R × Nat) :
    acc.1 ≤ (best cs acc).1 ∧ (∀ c ∈ cs, c.1 ≤ (best cs acc).1) ∧
    ((best cs acc).1 = acc.1 → best cs acc = acc) ∧
    (acc.1 < (best cs acc).1 →
      cs.find? (fun c => decide (c.1 = (best cs acc).1)) = some (best cs acc)) := by
  induction cs generalizing acc with
  | nil =>
    refine ⟨le_refl _, ?_, fun _ => rfl, ?_⟩
    · intro c hc; cases hc
    · intro hlt; exact absurd hlt (lt_irrefl _)
  | cons c rest ih =>
    rw [best_cons]
    have hacc : acc.1 ≤ (if c.1 > acc.1 then c else acc).1 := by
      split
      · next hlt => exact le_of_lt hlt
      · exact le_refl _
    have hc : c.1 ≤ (if c.1 > acc.1 then c else acc).1 := by
      split
      · exact le_refl _
      · next hle => exact not_lt.mp hle
    have hpos : c.1 > acc.1 → (if c.1 > acc.1 then c else acc) = c := fun hgt => if_pos hgt
    have hneg : ¬ c.1 > acc.1 → (if c.1 > acc.1 then c else acc) = acc := fun hgt => if_neg hgt
    generalize (if c.1 > acc.1 then c else acc) = acc' at hacc hc hpos hneg ⊢
    obtain ⟨p1, p2, p3, p4⟩ := ih acc'
    refine ⟨le_trans hacc p1, ?_, ?_, ?_⟩
    · intro x hx
      rcases List.mem_cons.mp hx with rfl | hx
      · exact le_trans hc p1
      · exact p2 x hx
    · intro heq
      have h1 : acc'.1 = acc.1 := le_antisymm (heq ▸ p1) hacc
      have h2 : ¬ c.1 > acc.1 := by
        intro hlt
        rw [hpos hlt] at h1
        exact absurd h1 (ne_of_gt hlt)
      have e := hneg h2
      subst e
      exact p3 heq
    · intro hlt
      by_cases hceq : c.1 = (best rest acc').1
      · have hgt : c.1 > acc.1 := hceq ▸ hlt
        have e := hpos hgt
        subst e
        rw [List.find?_cons_of_pos _ (by simpa using hceq)]
        rw [p3 hceq.symm]
      · rw [List.find?_cons_of_neg _ (by simpa using hceq)]
        apply p4
        have hclt : c.1 < (best rest acc').1 := lt_of_le_of_ne (le_trans hc p1) hceq
        by_cases hgt : c.1 > acc.1
        · have e := hpos hgt
          subst e
          exact hclt
        · have e := hneg hgt
          subst e
          exact hlt

theorem sameMatrices_refl (h : LFHMM R) : SameMatrices h h := ⟨rfl, rfl, sameInput_refl h⟩

theorem sameMatrices_trans {a b c : LFHMM R} (h1 : SameMatrices a b) (h2 : SameMatrices b c) :
    SameMatrices a c :=
  ⟨h2.1.trans h1.1, h2.2.1.trans h1.2.1, sameInput_trans h1.2.2 h2.2.2⟩

theorem trace_scan_frame (h : LFHMM R) : SameMatrices h (trace_scan h) := by
  unfold trace_scan
  have key : ∀ (l : List Nat) (g : LFHMM R), SameMatrices g
      (l.foldl (fun h i =>
        if h.V Z (index i h.rlen) ≥ h.optimal_score then
          { h with
            optimal_score := h.V Z (index i h.rlen), optimal_track := h.U Z (index i h.rlen),
            optimal_state := Z, optimal_probe_len := i }
        else h) g) := by
    intro l
    induction l with
    | nil => intro g; exact sameMatrices_refl g
    | cons i rest ih =>
      intro g
      rw [List.foldl_cons]
      refine sameMatrices_trans ?_ (ih _)
      split
      · exact ⟨rfl, rfl, ⟨rfl, rfl, rfl, rfl, rfl⟩, rfl, rfl, rfl, rfl⟩
      · exact sameMatrices_refl g
  exact sameMatrices_trans ⟨rfl, rfl, ⟨rfl, rfl, rfl, rfl, rfl⟩, rfl, rfl, rfl, rfl⟩ (key _ _)

theorem trace_walk_frame (room : Nat) (h : LFHMM R) (t : Nat) (i j : Int) (hf : LFHMM R)
    (hok : trace_walk room h t i j = .ok hf) : SameMatrices h hf ∧ SameOptimum h hf := by
  induction room generalizing h t i j with
  | zero => simp [trace_walk] at hok
  | succ room ih =>
    rw [trace_walk] at hok
    simp only at hok
    split at hok
    · split at hok
      · obtain ⟨m1, m2⟩ := ih _ _ _ _ hok
        exact ⟨sameMatrices_trans ⟨rfl, rfl, ⟨rfl, rfl, rfl, rfl, rfl⟩, rfl, rfl, rfl, rfl⟩ m1,
          m2⟩
      · cases hok
        exact ⟨⟨rfl, rfl, ⟨rfl, rfl, rfl, rfl, rfl⟩, rfl, rfl, rfl, rfl⟩, rfl, rfl, rfl, rfl⟩
    · cases hok

theorem trace_path_frame (h hf : LFHMM R) (hok : trace_path h = .ok hf) :
    SameMatrices h hf ∧ SameOptimum (trace_scan h) hf := by
  unfold trace_path at hok
  obtain ⟨m1, m2⟩ := trace_walk_frame _ _ _ _ _ _ hok
  exact ⟨sameMatrices_trans (trace_scan_frame h)
    (sameMatrices_trans ⟨rfl, rfl, ⟨rfl, rfl, rfl, rfl, rfl⟩, rfl, rfl, rfl, rfl⟩ m1), m2⟩

theorem align_ok {h hf : LFHMM R} {read : List Char} {qual : Nat → Char}
    (hok : align h read qual = .ok hf) :
    read.length ≤ 255 ∧ trace_path (align_fill (align_prep h read qual)) = .ok hf := by
  unfold align at hok
  simp only at hok
  split at hok
  · cases hok
  · next h1 =>
    split at hok
    · cases hok
    · next h2 =>
      refine ⟨?_, hok⟩
      have e1 : (align_prep h read qual).rlen = read.length := rfl
      have e2 : (align_prep h read qual).plen = read.length := rfl
      rw [e1, e2, index_eq] at h2
      rw [e1] at h1
      simp only [MAXLEN] at h1 h2
      omega

theorem recurrence_of_cellOK {h : LFHMM R} {i j : Nat} (hc : CellOK h i j) :
    Recurrence h i j := by
  refine ⟨?_, ?_, ?_, ?_⟩
  · rw [(hc M (by decide) (by decide)).1, best_fst]
    simp [candidates, sources, pred, roff, mtype]
  · rw [(hc D (by decide) (by decide)).1, best_fst]
    simp [candidates, sources, pred, roff, mtype]
  · rw [(hc I (by decide) (by decide)).1, best_fst]
    simp [candidates, sources, pred, roff, mtype]
  · rw [(hc Z (by decide) (by decide)).1, best_fst]
    simp [candidates, sources, pred, roff, mtype]

theorem candidates_sameMatrices {h h' : LFHMM R} (hs : SameMatrices h h') (B i j : Nat) :
    candidates h' B i j = candidates h B i j :=
  candidates_congr hs.2.2 B i j (fun A => by rw [hs.1]) (fun A => by rw [hs.2.1])

theorem cellOK_sameMatrices {h h' : LFHMM R} (hs : SameMatrices h h') {i j : Nat}
    (hc : CellOK h i j) : CellOK h' i j := by
  intro B hB1 hB2
  rw [candidates_sameMatrices hs, hs.1, hs.2.1]
  exact hc B hB1 hB2

theorem align_loops_cellOK (h : LFHMM R) (read : List Char) (qual : Nat → Char)
    (hn : read.length ≤ 255) {i j : Nat}
    (hi : 1 ≤ i) (hi' : i ≤ read.length) (hj : 1 ≤ j) (hj' : j ≤ read.length) :
    CellOK (align_loops h read qual) i j := by
  have hinv := align_fill_inv (align_prep h read qual) hn
  exact hinv.2.1 i j hi hj hj' (Or.inl (Nat.lt_succ_of_le hi'))

theorem align_ok_sameMatrices {h hf : LFHMM R} {read : List Char} {qual : Nat → Char}
    (hok : align h read qual = .ok hf) : SameMatrices (align_loops h read qual) hf :=
  (trace_path_frame _ _ (align_ok hok).2).1

/-- C1: for a read of length `n ≤ 255`, after the loops of `align` (and in every object
that `align` returns) every cell `(i,j)` with `1 ≤ i, j ≤ n` satisfies the recurrence on
the final matrices: `V[M]`, `V[D]`, `V[I]`, `V[Z]` are the maxima of their candidate
scores at the diagonal, vertical, horizontal and horizontal predecessor. -/
theorem align_recurrence (h : LFHMM R) (read : List Char) (qual : Nat → Char)
    (hn : read.length ≤ 255) (i j : Nat)
    (hi : 1 ≤ i) (hi' : i ≤ read.length) (hj : 1 ≤ j) (hj' : j ≤ read.length) :
    Recurrence (align_loops h read qual) i j ∧
    ∀ hf, align h read qual = .ok hf → Recurrence hf i j :=
  ⟨recurrence_of_cellOK (align_loops_cellOK h read qual hn hi hi' hj hj'),
   fun _ hok => recurrence_of_cellOK
    (cellOK_sameMatrices (align_ok_sameMatrices hok)
      (align_loops_cellOK h read qual hn hi hi' hj hj'))⟩

theorem firstSeen_of_cellOK {h : LFHMM R} {i j : Nat} (hc : CellOK h i j) {B : Nat}
    (hB1 : 1 ≤ B) (hB2 : B ≤ Z) : FirstSeen h B i j := by
  obtain ⟨hV, hU⟩ := hc B hB1 hB2
  obtain ⟨_, p2, _, p4⟩ := best_props (candidates h B i j) ((⊥ : WithBot R), NULL_TRACK)
  refine ⟨?_, ?_⟩
  · intro c hcm
    rw [hV]
    exact p2 c hcm
  · intro hlt
    rw [hV] at hlt ⊢
    rw [hU, p4 hlt]

/-- C2: in every cell filled by `align`, ties keep the first-seen candidate. The
candidates of a cell are evaluated in the order `S,M,D,I` for `M`, `S,M,D` for `D`,
`S,M,I` for `I` and `M,D,I,Z` for `Z`; the stored score bounds every candidate score, and
when it is above `-INFINITY` the stored track is the track of the first candidate in that
order whose score equals the stored score. -/
theorem align_ties_first_seen (h : LFHMM R) (read : List Char) (qual : Nat → Char)
    (hn : read.length ≤ 255) (i j : Nat)
    (hi : 1 ≤ i) (hi' : i ≤ read.length) (hj : 1 ≤ j) (hj' : j ≤ read.length)
    (B : Nat) (hB1 : 1 ≤ B) (hB2 : B ≤ Z) :
    (sources M = [S, M, D, I] ∧ sources D = [S, M, D] ∧ sources I = [S, M, I] ∧
      sources Z = [M, D, I, Z]) ∧
    FirstSeen (align_loops h read qual) B i j ∧
    ∀ hf, align h read qual = .ok hf → FirstSeen hf B i j :=
  ⟨⟨rfl, rfl, rfl, rfl⟩,
   firstSeen_of_cellOK (align_loops_cellOK h read qual hn hi hi' hj hj') hB1 hB2,
   fun _ hok => firstSeen_of_cellOK
    (cellOK_sameMatrices (align_ok_sameMatrices hok)
      (align_loops_cellOK h read qual hn hi hi' hj hj')) hB1 hB2⟩

theorem trace_scan_eq (h : LFHMM R) :
    trace_scan h = (List.range (h.plen + 1)).foldl scan_step
      { h with
        optimal_score := ⊥, optimal_track := NULL_TRACK,
        optimal_state := TBD, optimal_probe_len := 0 } := rfl

theorem scan_step_frame (g : LFHMM R) (i : Nat) : SameMatrices g (scan_step g i) := by
  unfold scan_step
  simp only
  split
  · exact ⟨rfl, rfl, ⟨rfl, rfl, rfl, rfl, rfl⟩, rfl, rfl, rfl, rfl⟩
  · exact sameMatrices_refl g

/-- The scan after the probe positions `0 .. k-1`. -/
theorem scan_fold_inv (h g0 : LFHMM R) (hm : SameMatrices h g0) (h0 : g0.optimal_score = ⊥)
    (k : Nat) :
    let g := (List.range k).foldl scan_step g0
    SameMatrices h g ∧
    (∀ i, i < k → h.V Z (index i h.rlen) ≤ g.optimal_score) ∧
    (0 < k → g.optimal_state = Z ∧ g.optimal_probe_len < k ∧
      g.optimal_score = h.V Z (index g.optimal_probe_len h.rlen) ∧
      g.optimal_track = h.U Z (index g.optimal_probe_len h.rlen) ∧
      ∀ i, i < k → g.optimal_probe_len < i → h.V Z (index i h.rlen) < g.optimal_score) ∧
    (k = 0 → g.optimal_score = ⊥) := by
  induction k with
  | zero =>
    refine ⟨hm, ?_, ?_, fun _ => h0⟩
    · intro i hi; omega
    · intro hk; omega
  | succ k ih =>
    obtain ⟨i1, i2, i3, i4⟩ := ih
    rw [List.range_succ, List.foldl_append, List.foldl_cons, List.foldl_nil]
    generalize (List.range k).foldl scan_step g0 = g at i1 i2 i3 i4 ⊢
    have hV : g.V Z (index k g.rlen) = h.V Z (index k h.rlen) := by
      rw [i1.1, i1.2.2.2.2.2.1]
    have hU : g.U Z (index k g.rlen) = h.U Z (index k h.rlen) := by
      rw [i1.2.1, i1.2.2.2.2.2.1]
    refine ⟨sameMatrices_trans i1 (scan_step_frame g k), ?_, ?_, fun hk => by omega⟩
    · intro i hi
      unfold scan_step
      simp only
      split
      · next hge =>
        show _ ≤ g.V Z (index k g.rlen)
        rw [hV]
        rcases Nat.lt_succ_iff_lt_or_eq.mp hi with hlt | rfl
        · exact le_trans (i2 i hlt) (hV ▸ hge)
        · exact le_refl _
      · next hnge =>
        rcases Nat.lt_succ_iff_lt_or_eq.mp hi with hlt | rfl
        · exact i2 i hlt
        · rw [← hV]; exact le_of_lt (not_le.mp hnge)
    · intro _
      unfold scan_step
      simp only
      split
      · next hge =>
        refine ⟨rfl, Nat.lt_succ_self k, hV, hU, ?_⟩
        intro i hi hlt
        exact absurd hlt (by
          show ¬ k < i
          omega)
      · next hnge =>
        have hk : 0 < k := by
          rcases Nat.eq_zero_or_pos k with hz | hp
          · exact absurd (by rw [i4 hz]; exact bot_le) hnge
          · exact hp
        obtain ⟨j1, j2, j3, j4, j5⟩ := i3 hk
        refine ⟨j1, Nat.lt_succ_of_lt j2, j3, j4, ?_⟩
        intro i hi hlt
        rcases Nat.lt_succ_iff_lt_or_eq.mp hi with hlt' | rfl
        · exact j5 i hlt' hlt
        · rw [← hV]; exact not_le.mp hnge

theorem trace_scan_result (h : LFHMM R) : ScanResult h (trace_scan h) := by
  rw [trace_scan_eq]
  obtain ⟨i1, i2, i3, _⟩ := scan_fold_inv h
    { h with
      optimal_score := ⊥, optimal_track := NULL_TRACK,
      optimal_state := TBD, optimal_probe_len := 0 }
    ⟨rfl, rfl, ⟨rfl, rfl, rfl, rfl, rfl⟩, rfl, rfl, rfl, rfl⟩ rfl (h.plen + 1)
  obtain ⟨j1, j2, j3, j4, j5⟩ := i3 (Nat.succ_pos _)
  exact ⟨j1, Nat.lt_succ_iff.mp j2, j3, j4, fun i hi => i2 i (Nat.lt_succ_of_le hi),
    fun i hi hlt => j5 i (Nat.lt_succ_of_le hi) hlt⟩

theorem scanResult_of_sameOptimum {h g hf : LFHMM R} (hs : SameOptimum g hf)
    (hr : ScanResult h g) : ScanResult h hf := by
  obtain ⟨s1, s2, s3, s4⟩ := hs
  unfold ScanResult
  rw [s1, s2, s3, s4]
  exact hr

/-- C3 (as the code has it): the scan of `trace_path` over column `rlen` of the `Z`
matrices sets `optimal_score` to the maximum of `V[Z][i,rlen]`, `0 ≤ i ≤ plen`, and the
comparison `>=` lets a later probe position replace an earlier one of equal score: of the
positions that attain the maximum, the one with the highest index is selected. -/
theorem trace_scan_selects_highest (h : LFHMM R) :
    ScanResult h (trace_scan h) ∧ ∀ hf, trace_path h = .ok hf → ScanResult h hf :=
  ⟨trace_scan_result h,
   fun hf hok => scanResult_of_sameOptimum (trace_path_frame h hf hok).2 (trace_scan_result h)⟩

set_option maxRecDepth 100000 in
/-- C3, counterexample: for the motif `AT` and the read `A`, the probe positions 0 and 1
of column 1 both attain the maximum of the `Z` scores, and the scan selects position 1,
not the lowest index 0. -/
theorem trace_scan_tie_counterexample :
    one_base_run.V Z (index 0 1) = (trace_scan one_base_run).optimal_score ∧
    one_base_run.V Z (index 1 1) = (trace_scan one_base_run).optimal_score ∧
    (trace_scan one_base_run).optimal_probe_len = 1 ∧
    (trace_scan one_base_run).optimal_track = one_base_run.U Z (index 1 1) := by
  decide!

theorem track_get_u_eq (t : Nat) : track_get_u t = t / 2 ^ 24 % 256 := by
  unfold track_get_u
  apply Nat.eq_of_testBit_eq
  intro k
  have e1 : (0xFF000000 : Nat) = (2 ^ 8 - 1) <<< 24 := by decide
  have e2 : (256 : Nat) = 2 ^ 8 := by decide
  rw [e1, e2, Nat.testBit_shiftRight, Nat.testBit_and, Nat.testBit_shiftLeft,
    Nat.testBit_mod_two_pow, Nat.testBit_two_pow_sub_one, ← Nat.shiftRight_eq_div_pow,
    Nat.testBit_shiftRight]
  simp only [Nat.add_sub_cancel_left, ge_iff_le, Nat.le_add_right, decide_True, Bool.true_and]
  exact Bool.and_comm _ _

theorem track_set_u_eq (t u : Nat) : track_set_u t u = t % 2 ^ 24 + u * 2 ^ 24 := by
  unfold track_set_u
  have e1 : (0x00FFFFFF : Nat) = 2 ^ 24 - 1 := by decide
  rw [e1, Nat.and_pow_two_sub_one_eq_mod, Nat.shiftLeft_eq, Nat.or_comm, Nat.mul_comm u,
    ← Nat.mul_add_lt_is_or (Nat.mod_lt _ (by decide)), Nat.add_comm]

theorem track_get_u_set_u (t u : Nat) (hu : u < 256) :
    track_get_u (track_set_u t u) = u := by
  rw [track_get_u_eq, track_set_u_eq]
  omega

/-- The seed of the traceback, `make_track(optimal_state, MOTIF, 0, mlen+1)`. -/
theorem track_get_u_seed (u p : Nat) (hu : u < 256) (hp : p < 2 ^ 24) :
    track_get_u (make_track u MOTIF 0 p) = u := by
  have e : make_track u MOTIF 0 p = 2 ^ 24 * u + p := by
    unfold make_track
    simp only [MOTIF, Nat.zero_shiftLeft, Nat.or_zero]
    rw [Nat.shiftLeft_eq, Nat.mul_comm u, ← Nat.mul_add_lt_is_or hp]
  rw [track_get_u_eq, e]
  omega

theorem trace_walk_fault (room : Nat) (h : LFHMM R) (t : Nat) (i j : Int)
    (hu : Z < track_get_u t) :
    trace_walk (room + 1) h t i j = .error (.lookup (track_get_u t) i j) := by
  rw [trace_walk]
  simp only
  rw [if_neg]
  intro hc
  exact absurd hc.1 (not_le.mpr hu)

theorem index32_eq (i j : Nat) : index32 (i : Int) (j : Int) = ((index i j : Nat) : Int) := by
  simp only [index32, index_eq, MAXLEN_NBITS]
  push_cast
  norm_num

theorem index32_range {i j : Nat} (hi : i ≤ 255) (hj : j ≤ 255) :
    0 ≤ index32 (i : Int) (j : Int) ∧ index32 (i : Int) (j : Int) < ((MAXLEN * MAXLEN : Nat) : Int) := by
  rw [index32_eq]
  exact ⟨Int.natCast_nonneg _, by exact_mod_cast index_lt hi hj⟩

/-- One iteration of the loop of `trace_path` at a cell inside the matrices. -/
theorem trace_walk_step (room : Nat) (h : LFHMM R) (t i j : Nat)
    (hu : track_get_u t ≤ Z) (hi : i ≤ 255) (hj : j ≤ 255) :
    trace_walk (room + 1) h t (i : Int) (j : Int) =
      if track_get_u (h.U (track_get_u t) (index i j)) ≠ S then
        trace_walk room (walk_write h (track_get_u t) (h.U (track_get_u t) (index i j)))
          (h.U (track_get_u t) (index i j))
          (walk_next (track_get_u t) i j).1 (walk_next (track_get_u t) i j).2
      else .ok (walk_finish (walk_write h (track_get_u t) (h.U (track_get_u t) (index i j)))) := by
  rw [trace_walk]
  simp only
  have hr := index32_range hi hj
  rw [if_pos ⟨hu, hr.1, by exact_mod_cast hr.2⟩]
  have e : (index32 (i : Int) (j : Int)).toNat = index i j := by
    rw [index32_eq]; exact Int.toNat_natCast _
  rw [e]
  rfl

theorem trace_path_eq (h : LFHMM R) :
    trace_path h =
      trace_walk (MAXLEN <<< 2)
        { trace_scan h with
          optimal_path_ptr := ((MAXLEN <<< 2 : Nat) : Int) - 1, optimal_path_len := 0 }
        (make_track (trace_scan h).optimal_state MOTIF 0 (h.mlen + 1))
        (trace_scan h).optimal_probe_len h.rlen := by
  have e1 : (trace_scan h).mlen = h.mlen := (trace_scan_frame h).2.2.1.2.2.2.1
  have e2 : (trace_scan h).rlen = h.rlen := (trace_scan_frame h).2.2.2.2.2.1
  unfold trace_path
  simp only
  rw [e1, e2]

/-- C4 (as the code has it): `trace_path` has no bound or range check and raises no
error. When the track stored in the end cell that the scan selects has a state field
outside `S..Z` (as `NULL_TRACK`, state field 15, and the boundary tracks, state field
`N`, have), the loop does not stop after its first iteration: the second iteration looks
up `U[u]` for that state field, outside the allocated matrices, after the step to
`(optimal_probe_len, rlen - 1)`. -/
theorem trace_path_no_guard (h : LFHMM R) (hp : h.plen ≤ 255) (hr : h.rlen ≤ 255)
    (hm : h.mlen + 1 < 2 ^ 24) (hu : Z < track_get_u (trace_scan h).optimal_track) :
    trace_path h =
      .error (.lookup (track_get_u (trace_scan h).optimal_track)
        (trace_scan h).optimal_probe_len ((h.rlen : Int) - 1)) := by
  obtain ⟨s1, s2, s3, s4, _, _⟩ := trace_scan_result h
  have hseed : track_get_u (make_track (trace_scan h).optimal_state MOTIF 0 (h.mlen + 1)) = Z := by
    rw [s1]; exact track_get_u_seed Z _ (by decide) hm
  have hU : (trace_scan h).U Z (index (trace_scan h).optimal_probe_len h.rlen) =
      (trace_scan h).optimal_track := by
    rw [(trace_scan_frame h).2.1, s4]
  rw [trace_path_eq]
  show trace_walk (1023 + 1) _ _ _ _ = _
  rw [trace_walk_step _ _ _ _ _ (le_of_eq hseed) (le_trans s2 hp) hr, hseed]
  have hU' : ({ trace_scan h with
      optimal_path_ptr := ((MAXLEN <<< 2 : Nat) : Int) - 1, optimal_path_len := 0 } : LFHMM R).U Z
        (index (trace_scan h).optimal_probe_len h.rlen) = (trace_scan h).optimal_track := hU
  rw [hU']
  have hne : track_get_u (trace_scan h).optimal_track ≠ S := by
    intro h0; rw [h0] at hu; exact absurd hu (by decide)
  rw [if_pos hne]
  show trace_walk (1022 + 1) _ _ _ _ = _
  rw [trace_walk_fault _ _ _ _ _ hu]
  rfl

set_option maxRecDepth 100000 in
/-- C4, witness: the one-base read `A` on the motif `AT`. -/
theorem trace_path_no_guard_witness :
    trace_path one_base_run = .error (.lookup 15 1 0) := by
  have h := trace_path_no_guard one_base_run (by decide!) (by decide!) (by decide!) (by decide!)
  have e1 : track_get_u (trace_scan one_base_run).optimal_track = 15 := by decide!
  have e2 : (trace_scan one_base_run).optimal_probe_len = 1 := by decide!
  have e3 : one_base_run.rlen = 1 := by decide!
  rw [e1, e2, e3] at h
  exact h

set_option maxRecDepth 100000 in
/-- C4, counterexample: for the motif `AT`, `align` of the read `A` ends in the lookup of
`U[15]` at `(1,0)`, and `align` of the empty read in the lookup of `U[6]` at `(0,-1)`: no
internal error is raised, the walk goes on to a state without a matrix and to a negative
read position. -/
theorem trace_path_guard_counterexample :
    fault_of (align (aligner_spec ['A', 'T']) ['A'] (fun _ => 'I')) =
      some (.lookup 15 1 0) ∧
    fault_of (align (aligner_spec ['A', 'T']) [] (fun _ => 'I')) =
      some (.lookup 6 0 (-1)) := by
  decide!

/-- C5, at the failing input: a read of exactly `MAXLEN = 256` bases passes the length
test of `align`, and the loops then reach the cell `(256,256)` whose offset `65792` lies
past the `256*256` allocated cells (as does the offset of `(256,1)`), while the cells
`(1,256)` and `(2,0)` share one offset: the model stops with the out-of-bounds store. -/
theorem align_accepts_maxlen (h : LFHMM R) (qual : Nat → Char) :
    ¬ ((align_prep h (List.replicate 256 'A') qual).rlen > MAXLEN) ∧
    index 256 256 = 65792 ∧ MAXLEN * MAXLEN ≤ index 256 1 ∧ index 1 256 = index 2 0 ∧
    align h (List.replicate 256 'A') qual = .error (.store 65792) := by
  refine ⟨?_, by decide, by decide, by decide, ?_⟩
  · show ¬ ((List.replicate 256 'A').length > MAXLEN)
    rw [List.length_replicate]; decide
  · unfold align
    have e1 : (align_prep h (List.replicate 256 'A') qual).rlen = 256 := by
      show (List.replicate 256 'A').length = 256
      exact List.length_replicate _ _
    have e2 : (align_prep h (List.replicate 256 'A') qual).plen = 256 := e1
    simp only [e1, e2]
    rfl

/-- For reads of at most 255 bases the cells `(i,j)`, `0 ≤ i, j ≤ n`, lie in the
allocation and do not alias. -/
theorem index_safe (n : Nat) (hn : n ≤ 255) (i j i' j' : Nat) (hi : i ≤ n) (hj : j ≤ n)
    (hi' : i' ≤ n) (hj' : j' ≤ n) :
    index i j < MAXLEN * MAXLEN ∧ (index i j = index i' j' → i = i' ∧ j = j') :=
  ⟨index_lt (le_trans hi hn) (le_trans hj hn),
   index_inj (le_trans hj hn) (le_trans hj' hn)⟩

/-- C10 (as the code has it): with the priors of `initialize`, the finite entries of the
rows of `T`, converted back to linear scale, are the arguments of `log10` in the source
(and 1 for `Z → Z`); they sum to exactly 1 for `Z` and to more than 1 for `S`, `M`, `D`
and `I` (the entries are odds scaled by `1/(1-eta)` and `1/(eta*(1-eta))`). -/
theorem transition_row_sums :
    row_entries S = [988000 / 9801, 10 / 99, 10 / 99] ∧
    row_entries M = [9880 / 9801, 1 / 990, 1 / 990, 100 / 99] ∧
    row_entries D = [9400 / 9801, 1 / 990, 100 / 99] ∧
    row_entries I = [1 / 990, 100 / 99] ∧
    row_entries Z = [1] ∧
    row_sum Z = 1 ∧ 1 < row_sum S ∧ 1 < row_sum M ∧ 1 < row_sum D ∧ 1 < row_sum I := by
  decide!

/-- C10, counterexample: the row of `S` has finite entries and they sum to more than 1
on the linear scale. -/
theorem transition_row_sum_counterexample :
    row_entries S ≠ [] ∧ ¬ row_sum S ≤ 1 := by
  decide!

theorem initialise_boundary (h0 : LFHMM R) (log10 : ℚ → WithBot R) (motif : List Char) :
    Boundary (initialise h0 log10 motif) := by
  intro i j hi hj
  have hlt : index i j < MAXLEN * MAXLEN := index_lt hi hj
  have hdiv : index i j >>> MAXLEN_NBITS = i := by
    rw [index_eq, Nat.shiftRight_eq_div_pow]; simp only [MAXLEN_NBITS]; omega
  have hmod : index i j % MAXLEN = j := by
    rw [index_eq]; simp only [MAXLEN]; omega
  have h00 : index i j = index 0 0 ↔ i = 0 ∧ j = 0 := by
    simp only [index_eq]; omega
  refine ⟨?_, ?_, ?_⟩
  · show initialise_V h0.V S (index i j) = _
    unfold initialise_V
    rw [if_pos ⟨by decide, hlt⟩]
    simp only [true_and, h00]
  · show initialise_U h0.U S (index i j) = _
    unfold initialise_U
    rw [if_pos ⟨by decide, hlt⟩, if_pos rfl]
    simp only [h00]
  · intro hb s hs1 hs2
    have hs : s ≠ S := by
      intro e; rw [e] at hs1; exact absurd hs1 (by decide)
    refine ⟨?_, ?_⟩
    · show initialise_V h0.V s (index i j) = _
      unfold initialise_V
      rw [if_pos ⟨hs2, hlt⟩, if_neg (fun hc => hs hc.1)]
    · show initialise_U h0.U s (index i j) = _
      unfold initialise_U
      rw [if_pos ⟨hs2, hlt⟩, if_neg hs, hdiv, hmod, if_pos hb]

/-- The loops of `align` leave the `S` matrices and the boundary cells as they are. -/
theorem align_loops_boundary {h : LFHMM R} (hb : Boundary h) (read : List Char)
    (qual : Nat → Char) (hn : read.length ≤ 255) : Boundary (align_loops h read qual) := by
  have hinv := (align_fill_inv (align_prep h read qual) hn).2.2
  have hfr : ∀ s x, ¬ Written read.length (read.length + 1) 0 s x →
      (align_loops h read qual).V s x = h.V s x ∧ (align_loops h read qual).U s x = h.U s x :=
    hinv
  intro i j hi hj
  obtain ⟨b1, b2, b3⟩ := hb i j hi hj
  have hS : ¬ Written read.length (read.length + 1) 0 S (index i j) := by
    rintro ⟨i', j', _, _, _, _, hs1, _, _⟩
    exact absurd hs1 (by decide)
  refine ⟨?_, ?_, ?_⟩
  · rw [(hfr S _ hS).1]; exact b1
  · rw [(hfr S _ hS).2]; exact b2
  · intro hb0 s hs1 hs2
    have hW : ¬ Written read.length (read.length + 1) 0 s (index i j) := by
      rintro ⟨i', j', hi', hj', hjn, _, _, _, hx⟩
      obtain ⟨e1, e2⟩ := index_inj hj (le_trans hjn hn) hx
      omega
    rw [(hfr s _ hW).1, (hfr s _ hW).2]
    exact b3 hb0 s hs1 hs2

theorem boundary_sameMatrices {h h' : LFHMM R} (hs : SameMatrices h h') (hb : Boundary h) :
    Boundary h' := by
  intro i j hi hj
  rw [hs.1, hs.2.1]
  exact hb i j hi hj

theorem align_ok_boundary {h hf : LFHMM R} {read : List Char} {qual : Nat → Char}
    (hb : Boundary h) (hok : align h read qual = .ok hf) : Boundary hf :=
  boundary_sameMatrices (align_ok_sameMatrices hok)
    (align_loops_boundary hb read qual (align_ok hok).1)

theorem align_loops_sameModel (h : LFHMM R) (read : List Char) (qual : Nat → Char)
    (hn : read.length ≤ 255) : SameModel h (align_loops h read qual) :=
  (align_fill_inv (align_prep h read qual) hn).1.1

theorem sameModel_trans {a b c : LFHMM R} (h1 : SameModel a b) (h2 : SameModel b c) :
    SameModel a c :=
  ⟨h2.1.trans h1.1, h2.2.1.trans h1.2.1, h2.2.2.1.trans h1.2.2.1,
    h2.2.2.2.1.trans h1.2.2.2.1, h2.2.2.2.2.trans h1.2.2.2.2⟩

theorem align_ok_sameModel {h hf : LFHMM R} {read : List Char} {qual : Nat → Char}
    (hok : align h read qual = .ok hf) : SameModel h hf :=
  sameModel_trans (align_loops_sameModel h read qual (align_ok hok).1)
    (align_ok_sameMatrices hok).2.2.1

theorem reachable_inv {h0 h : LFHMM R} (hr : Reachable h0 h) :
    SameModel h0 h ∧ (Boundary h0 → Boundary h) := by
  induction hr with
  | init => exact ⟨⟨rfl, rfl, rfl, rfl, rfl⟩, fun hb => hb⟩
  | step _ hok ih =>
    exact ⟨sameModel_trans ih.1 (align_ok_sameModel hok),
      fun hb => align_ok_boundary (ih.2 hb) hok⟩

theorem ok_of_fault_of {α : Type} {r : Except Fault α} (h : fault_of r = none) :
    ∃ a, r = .ok a := by
  cases r with
  | ok a => exact ⟨a, rfl⟩
  | error e => cases h

/-- C9 (as the code has it): after `initialize` and after every successful `align`, over
the allocated cells, the matrices of `M`, `D`, `I`, `Z` hold score `-INFINITY` and a
track of component `UNMODELED` in every cell of row 0 and column 0; the matrices of `S`
hold score `-INFINITY` in every cell but the origin, whose score is `0`, with the
sentinel `NULL_TRACK` as track, and at the origin `START_TRACK`, whose component field is
`MOTIF`. -/
theorem boundary_after_align (h0 h : LFHMM R) (log10 : ℚ → WithBot R) (motif : List Char)
    (hr : Reachable (initialise h0 log10 motif) h) :
    Boundary h ∧ track_get_d (make_track N UNMODELED 0 0) = UNMODELED ∧
      track_get_d START_TRACK = MOTIF :=
  ⟨(reachable_inv hr).2 (initialise_boundary h0 log10 motif), by decide, by decide⟩

set_option maxRecDepth 100000 in
/-- C9, witness: the aligner for the motif `AT` after one alignment of the read `AT`. -/
theorem boundary_after_align_witness :
    ∃ hf, align (aligner_spec ['A', 'T']) ['A', 'T'] (fun _ => 'I') = .ok hf ∧ Boundary hf := by
  obtain ⟨hf, hok⟩ := ok_of_fault_of
    (show fault_of (align (aligner_spec ['A', 'T']) ['A', 'T'] (fun _ => 'I')) = none by decide!)
  exact ⟨hf, hok,
    (boundary_after_align _ hf log10Q ['A', 'T'] (Reachable.step Reachable.init hok)).1⟩

/-- C9, counterexample: after `initialize` the boundary cell `(0,1)` of state `S` holds
a track whose component field is 4, not `UNMODELED`, and the origin of `S` one whose
component field is `MOTIF`. -/
theorem boundary_component_counterexample :
    track_get_d ((aligner_spec ['A', 'T']).U S (index 0 1)) = 4 ∧
    track_get_d ((aligner_spec ['A', 'T']).U S (index 0 1)) ≠ UNMODELED ∧
    track_get_d ((aligner_spec ['A', 'T']).U S (index 0 0)) = MOTIF ∧
    MOTIF ≠ UNMODELED := by
  decide

theorem path_entries_eq (h : LFHMM R) : path_entries h = tail_entries h h.optimal_path_ptr.toNat :=
  rfl

theorem tail_entries_cons (h : LFHMM R) {p : Nat} (hp : p < 1024) :
    tail_entries h p = h.optimal_path p :: tail_entries h (p + 1) := by
  unfold tail_entries
  have e : (MAXLEN <<< 2) - p = ((MAXLEN <<< 2) - (p + 1)) + 1 := by
    have : MAXLEN <<< 2 = 1024 := by decide
    omega
  rw [e, List.range_succ_eq_map, List.map_cons, List.map_map]
  simp only [Nat.add_zero, List.cons.injEq, true_and]
  apply List.map_congr_left
  intro k _
  simp only [Function.comp, Nat.succ_eq_add_one]
  congr 1
  omega

theorem tail_entries_walk_write (h : LFHMM R) (u t : Nat) {p : Nat}
    (hp : h.optimal_path_ptr < (p : Int)) :
    tail_entries (walk_write h u t) p = tail_entries h p := by
  unfold tail_entries
  apply List.map_congr_left
  intro k _
  show (if ((p + k : Nat) : Int) = h.optimal_path_ptr then _ else _) = _
  rw [if_neg]
  intro hc
  rw [← hc] at hp
  push_cast at hp
  omega

/-- The loop of `trace_path` and its pure form: the same fault, or the entries of the
pure form written in front of the entries already in the buffer. -/
theorem trace_walk_pure (room : Nat) (h : LFHMM R) (t : Nat) (i j : Int)
    (hptr : h.optimal_path_ptr = (room : Int) - 1) (hroom : room ≤ 1024) :
    match walk_pure h.U room t i j with
    | .error e => trace_walk room h t i j = .error e
    | .ok es => ∃ hf, trace_walk room h t i j = .ok hf ∧
        hf.optimal_path_ptr = (room : Int) - es.length ∧ es.length ≤ room ∧
        tail_entries hf (room - es.length) = es ++ tail_entries h room ∧
        hf.optimal_path_len = h.optimal_path_len + es.length := by
  induction room generalizing h t i j with
  | zero => simp [walk_pure, trace_walk]
  | succ room ih =>
    rw [walk_pure, trace_walk]
    simp only
    by_cases hv : track_get_u t ≤ Z ∧ 0 ≤ index32 i j ∧ index32 i j < (MAXLEN : Int) * (MAXLEN : Int)
    · rw [if_pos hv, if_pos hv]
      have hptr' : (walk_write h (track_get_u t) (h.U (track_get_u t) (index32 i j).toNat)).optimal_path_ptr
          = (room : Int) - 1 := by
        show h.optimal_path_ptr - 1 = _
        rw [hptr]; push_cast; ring
      have hent : tail_entries (walk_write h (track_get_u t) (h.U (track_get_u t) (index32 i j).toNat)) room
          = track_set_u (h.U (track_get_u t) (index32 i j).toNat) (track_get_u t) ::
            tail_entries h (room + 1) := by
        rw [tail_entries_cons _ (by omega), tail_entries_walk_write]
        · congr 1
          show (if (room : Int) = h.optimal_path_ptr then _ else _) = _
          rw [if_pos]
          rw [hptr]; push_cast; ring
        · rw [hptr]; push_cast; omega
      by_cases hs : track_get_u (h.U (track_get_u t) (index32 i j).toNat) ≠ S
      · rw [if_pos hs, if_pos hs]
        have := ih (walk_write h (track_get_u t) (h.U (track_get_u t) (index32 i j).toNat))
          (h.U (track_get_u t) (index32 i j).toNat)
          (walk_next (track_get_u t) i j).1 (walk_next (track_get_u t) i j).2 hptr' (by omega)
        have hU : (walk_write h (track_get_u t) (h.U (track_get_u t) (index32 i j).toNat)).U = h.U :=
          rfl
        rw [hU] at this
        revert this
        cases walk_pure h.U room (h.U (track_get_u t) (index32 i j).toNat)
            (walk_next (track_get_u t) i j).1 (walk_next (track_get_u t) i j).2 with
        | error e => intro this; exact this
        | ok es =>
          intro this
          obtain ⟨hf, k1, k2, k3, k4, k5⟩ := this
          refine ⟨hf, k1, ?_, ?_, ?_, ?_⟩
          · rw [k2]; simp only [List.length_append, List.length_singleton]; push_cast; ring
          · simp only [List.length_append, List.length_singleton]; omega
          · have e : room + 1 - (es ++ [track_set_u (h.U (track_get_u t) (index32 i j).toNat)
                (track_get_u t)]).length = room - es.length := by
              simp only [List.length_append, List.length_singleton]; omega
            rw [e, k4, hent]
            simp
          · rw [k5]
            simp only [List.length_append, List.length_singleton]
            show h.optimal_path_len + 1 + es.length = _
            omega
      · rw [if_neg hs, if_neg hs]
        refine ⟨_, rfl, ?_, ?_, ?_, ?_⟩
        · show h.optimal_path_ptr - 1 + 1 = _
          rw [hptr]; simp
        · simp
        · simp only [List.length_singleton, Nat.add_sub_cancel, List.singleton_append]
          exact hent
        · rfl
    · rw [if_neg hv, if_neg hv]

theorem trace_scan_U (h : LFHMM R) : (trace_scan h).U = h.U := (trace_scan_frame h).2.1

/-- `trace_path` and the pure form of its loop. -/
theorem trace_path_pure (h : LFHMM R) :
    match walk_pure h.U (MAXLEN <<< 2)
        (make_track (trace_scan h).optimal_state MOTIF 0 (h.mlen + 1))
        (trace_scan h).optimal_probe_len h.rlen with
    | .error e => trace_path h = .error e
    | .ok es => ∃ hf, trace_path h = .ok hf ∧ path_entries hf = es ∧
        hf.optimal_path_len = es.length ∧
        hf.optimal_path_ptr = ((MAXLEN <<< 2 : Nat) : Int) - es.length ∧
        es.length ≤ MAXLEN <<< 2 := by
  have key := trace_walk_pure (MAXLEN <<< 2)
    { trace_scan h with
      optimal_path_ptr := ((MAXLEN <<< 2 : Nat) : Int) - 1, optimal_path_len := 0 }
    (make_track (trace_scan h).optimal_state MOTIF 0 (h.mlen + 1))
    (trace_scan h).optimal_probe_len h.rlen rfl (by decide)
  have hU : ({ trace_scan h with
      optimal_path_ptr := ((MAXLEN <<< 2 : Nat) : Int) - 1, optimal_path_len := 0 } : LFHMM R).U
        = h.U := trace_scan_U h
  rw [hU] at key
  rw [trace_path_eq]
  revert key
  cases walk_pure h.U (MAXLEN <<< 2)
      (make_track (trace_scan h).optimal_state MOTIF 0 (h.mlen + 1))
      (trace_scan h).optimal_probe_len h.rlen with
  | error e => intro key; exact key
  | ok es =>
    intro key
    obtain ⟨hf, k1, k2, k3, k4, k5⟩ := key
    refine ⟨hf, k1, ?_, ?_, k2, k3⟩
    · rw [path_entries_eq, k2]
      have e : (((MAXLEN <<< 2 : Nat) : Int) - (es.length : Int)).toNat = (MAXLEN <<< 2) - es.length := by
        omega
      rw [e, k4]
      have e0 : tail_entries ({ trace_scan h with
          optimal_path_ptr := ((MAXLEN <<< 2 : Nat) : Int) - 1, optimal_path_len := 0 } : LFHMM R)
            (MAXLEN <<< 2) = [] := by
        unfold tail_entries
        simp
      rw [e0, List.append_nil]
    · rw [k5]
      show 0 + es.length = es.length
      omega

theorem walk_pure_fault (U : Nat → Nat → Nat) (room t : Nat) (i j : Int)
    (hu : Z < track_get_u t) : ∃ e, walk_pure U room t i j = .error e := by
  cases room with
  | zero => exact ⟨_, rfl⟩
  | succ room =>
    refine ⟨.lookup (track_get_u t) i j, ?_⟩
    rw [walk_pure, if_neg]
    intro hc
    exact absurd hc.1 (not_le.mpr hu)

theorem sources_le {A B : Nat} (h : A ∈ sources B) : A ≤ Z := by
  unfold sources at h
  simp only [S, M, D, I, Z] at h ⊢
  split_ifs at h <;> simp at h <;> omega

/-- What a filled cell stores under a well-tagged move table: `NULL_TRACK`, or a track
whose state field is one of the source states of the cell, with a score above
`-INFINITY` at the predecessor cell of that source state. -/
theorem cell_track {h : LFHMM R} {i j B : Nat} (hc : CellOK h i j) (hw : WellTagged h.moves)
    (hB1 : 1 ≤ B) (hB2 : B ≤ Z) :
    h.U B (index i j) = NULL_TRACK ∨
    ∃ A, A ∈ sources B ∧ track_get_u (h.U B (index i j)) = A ∧ ⊥ < h.V A (pred B i j) := by
  obtain ⟨hV, hU⟩ := hc B hB1 hB2
  obtain ⟨_, _, p3, p4⟩ := best_props (candidates h B i j) ((⊥ : WithBot R), NULL_TRACK)
  by_cases hbot : (best (candidates h B i j) ((⊥ : WithBot R), NULL_TRACK)).1 = ⊥
  · left
    rw [hU, p3 hbot]
  · right
    have hlt : (⊥ : WithBot R) < (best (candidates h B i j) ((⊥ : WithBot R), NULL_TRACK)).1 :=
      bot_lt_iff_ne_bot.mpr hbot
    have hmem := List.mem_of_find?_eq_some (p4 hlt)
    unfold candidates at hmem
    obtain ⟨A, hA, hAe⟩ := List.mem_map.mp hmem
    have h1 : cand_score h A B (pred B i j) (roff B j) (mtype B) =
        (best (candidates h B i j) ((⊥ : WithBot R), NULL_TRACK)).1 := congrArg Prod.fst hAe
    have h2 : cand_track h A B (pred B i j) (roff B j) =
        (best (candidates h B i j) ((⊥ : WithBot R), NULL_TRACK)).2 := congrArg Prod.snd hAe
    have hne : cand_score h A B (pred B i j) (roff B j) (mtype B) ≠ ⊥ := by
      rw [h1]; exact hbot
    unfold cand_score at hne
    simp only [ne_eq, WithBot.add_eq_bot, not_or] at hne
    obtain ⟨⟨⟨hV0, _⟩, _⟩, hval⟩ := hne
    have hnn : cand_track h A B (pred B i j) (roff B j) ≠ NULL_TRACK := by
      intro hc0
      exact hval (if_pos hc0)
    refine ⟨A, hA, ?_, bot_lt_iff_ne_bot.mpr hV0⟩
    rw [hU, ← h2]
    rcases hw A B (h.U A (pred B i j)) (roff B j) (sources_le hA) with hnull | htag
    · exact absurd hnull hnn
    · exact htag

theorem walk_pure_step (U : Nat → Nat → Nat) (room t i j : Nat)
    (hu : track_get_u t ≤ Z) (hi : i ≤ 255) (hj : j ≤ 255) :
    walk_pure U (room + 1) t (i : Int) (j : Int) =
      if track_get_u (U (track_get_u t) (index i j)) ≠ S then
        match walk_pure U room (U (track_get_u t) (index i j))
            (walk_next (track_get_u t) i j).1 (walk_next (track_get_u t) i j).2 with
        | .ok es => .ok (es ++ [track_set_u (U (track_get_u t) (index i j)) (track_get_u t)])
        | .error e => .error e
      else .ok [track_set_u (U (track_get_u t) (index i j)) (track_get_u t)] := by
  rw [walk_pure]
  have hr := index32_range hi hj
  rw [if_pos ⟨hu, hr.1, by exact_mod_cast hr.2⟩]
  have e : (index32 (i : Int) (j : Int)).toNat = index i j := by
    rw [index32_eq]; exact Int.toNat_natCast _
  rw [e]
  try rfl

/-- The step of the traceback from a cell of state `u` is the step to the predecessor
cell of `align` for that state. -/
theorem walk_next_pred {u i j : Nat} (hu1 : 1 ≤ u) (hu2 : u ≤ Z) (hi : 1 ≤ i) (hj : 1 ≤ j) :
    ∃ i' j' : Nat, walk_next u i j = ((i' : Int), (j' : Int)) ∧ pred u i j = index i' j' ∧
      i' ≤ i ∧ j' ≤ j ∧
      (u = M → i' + 1 = i ∧ j' + 1 = j) ∧ (u = D → i' + 1 = i ∧ j' = j) ∧
      (u = I ∨ u = Z → i' = i ∧ j' + 1 = j) := by
  simp only [M, D, I, Z] at *
  have hcases : u = 1 ∨ u = 2 ∨ u = 3 ∨ u = 4 := by omega
  rcases hcases with rfl | rfl | rfl | rfl
  · refine ⟨i - 1, j - 1, ?_, ?_, by omega, by omega, fun _ => ⟨by omega, by omega⟩,
      fun h => absurd h (by decide), fun h => by omega⟩
    · simp only [walk_next, M, if_true]
      congr 1 <;> omega
    · simp [pred, M]
  · refine ⟨i - 1, j, ?_, ?_, by omega, by omega, fun h => absurd h (by decide),
      fun _ => ⟨by omega, rfl⟩, fun h => by omega⟩
    · simp only [walk_next, M, D]
      norm_num
      omega
    · simp [pred, M, D]
  · refine ⟨i, j - 1, ?_, ?_, by omega, by omega, fun h => absurd h (by decide),
      fun h => absurd h (by decide), fun _ => ⟨rfl, by omega⟩⟩
    · simp only [walk_next, M, D, I]
      norm_num
      omega
    · simp [pred, M, D]
  · refine ⟨i, j - 1, ?_, ?_, by omega, by omega, fun h => absurd h (by decide),
      fun h => absurd h (by decide), fun _ => ⟨rfl, by omega⟩⟩
    · simp only [walk_next, M, D, I, Z]
      norm_num
      omega
    · simp [pred, M, D]

theorem consumes_set_u (t : Nat) {u : Nat} (hu : u ≤ Z) :
    consumes (track_set_u t u) = (u == M || u == I || u == Z) := by
  unfold consumes
  rw [track_get_u_set_u t u (lt_of_le_of_lt hu (by decide))]

theorem track_get_u_boundary : track_get_u (make_track N UNMODELED 0 0) = N := by decide

/-- The walk of `trace_path` over filled matrices, from a cell `(i,j)` of the window in a
state of `M..Z`: when it ends, it has consumed exactly `j` read bases. -/
theorem walk_pure_count {h : LFHMM R} {n : Nat} (hfl : Filled h n) (room : Nat) :
    ∀ (t i j : Nat) (es : List Nat), i ≤ n → j ≤ n → 1 ≤ track_get_u t → track_get_u t ≤ Z →
      walk_pure h.U room t (i : Int) (j : Int) = .ok es → es.countP consumes = j := by
  obtain ⟨hn, hb, hw, hc⟩ := hfl
  induction room with
  | zero =>
    intro t i j es _ _ _ _ hok
    simp [walk_pure] at hok
  | succ room ih =>
    intro t i j es hi hj hu1 hu2 hok
    rw [walk_pure_step _ _ _ _ _ hu2 (le_trans hi hn) (le_trans hj hn)] at hok
    -- the track read at the cell
    have hcell : (i = 0 ∨ j = 0) ∨ (1 ≤ i ∧ 1 ≤ j) := by omega
    rcases hcell with hbd | ⟨hi1, hj1⟩
    · -- a boundary cell: the next lookup is in `U[N]`
      have hU := ((hb i j (le_trans hi hn) (le_trans hj hn)).2.2 hbd _ hu1 hu2).2
      rw [hU] at hok
      rw [if_pos (by rw [track_get_u_boundary]; decide)] at hok
      obtain ⟨e, he⟩ := walk_pure_fault h.U room (make_track N UNMODELED 0 0)
        (walk_next (track_get_u t) i j).1 (walk_next (track_get_u t) i j).2
        (by rw [track_get_u_boundary]; decide)
      rw [he] at hok
      cases hok
    · obtain ⟨i', j', hnext, hpred, hi', hj', hM, hD, hIZ⟩ := walk_next_pred hu1 hu2 hi1 hj1
      rcases cell_track (hc i j hi1 hi hj1 hj) hw hu1 hu2 with hnull | ⟨A, hA, hAu, hAV⟩
      · rw [hnull] at hok
        rw [if_pos (by decide)] at hok
        obtain ⟨e, he⟩ := walk_pure_fault h.U room NULL_TRACK
          (walk_next (track_get_u t) i j).1 (walk_next (track_get_u t) i j).2 (by decide)
        rw [he] at hok
        cases hok
      · rw [hpred] at hAV
        by_cases hS : A = S
        · -- the walk ends: the predecessor is the origin
          rw [hAu, hS] at hok
          rw [if_neg (by simp)] at hok
          cases hok
          rw [hS] at hAV
          have hbS := (hb i' j' (by omega) (by omega)).1
          rw [hbS] at hAV
          have h00 : i' = 0 ∧ j' = 0 := by
            by_contra hne
            rw [if_neg hne] at hAV
            exact lt_irrefl _ hAV
          rw [List.countP_singleton, consumes_set_u _ hu2]
          have hu : track_get_u t = M := by
            simp only [M, D, I, Z] at *
            have hcases : track_get_u t = 1 ∨ track_get_u t = 2 ∨
                (track_get_u t = 3 ∨ track_get_u t = 4) := by omega
            rcases hcases with h1 | h2 | h3
            · exact h1
            · have := hD h2; omega
            · have := hIZ h3; omega
          have := hM hu
          rw [hu]
          simp only [M, I, Z]
          simp
          omega
        · rw [hAu] at hok
          rw [if_pos hS] at hok
          rw [hnext] at hok
          have hA1 : 1 ≤ A := Nat.one_le_iff_ne_zero.mpr hS
          have hA2 : A ≤ Z := sources_le hA
          revert hok
          cases hres : walk_pure h.U room (h.U (track_get_u t) (index i j)) (i' : Int) (j' : Int) with
          | error e => intro hok; cases hok
          | ok es' =>
            intro hok
            cases hok
            have hcnt := ih (h.U (track_get_u t) (index i j)) i' j' es' (by omega) (by omega)
              (by rw [hAu]; exact hA1) (by rw [hAu]; exact hA2) hres
            rw [List.countP_append, hcnt, List.countP_singleton, consumes_set_u _ hu2]
            simp only [M, D, I, Z] at *
            have hcases : track_get_u t = 1 ∨ track_get_u t = 2 ∨
                (track_get_u t = 3 ∨ track_get_u t = 4) := by omega
            rcases hcases with h1 | h2 | h3
            · have := hM h1; rw [h1]; simp; omega
            · have := hD h2; rw [h2]; simp; omega
            · have := hIZ h3
              rcases h3 with h3 | h3 <;> rw [h3] <;> simp <;> omega

theorem track_get_u_make_track (u d c p : Nat) (hu : u < 256) (hd : d < 256)
    (hc : c < 2 ^ 16) (hp : p < 2 ^ 24) : track_get_u (make_track u d c p) = u := by
  have hrest : (d <<< 16 ||| c <<< 8) ||| p < 2 ^ 24 := by
    apply Nat.or_lt_two_pow _ hp
    apply Nat.or_lt_two_pow
    · rw [Nat.shiftLeft_eq]; omega
    · rw [Nat.shiftLeft_eq]; omega
  have e : make_track u d c p = 2 ^ 24 * u + ((d <<< 16 ||| c <<< 8) ||| p) := by
    unfold make_track
    rw [Nat.mul_add_lt_is_or hrest, Nat.shiftLeft_eq u, Nat.mul_comm u, Nat.or_assoc,
      Nat.or_assoc, Nat.or_assoc]
  rw [track_get_u_eq, e]
  omega

theorem track_get_c_le (t : Nat) : track_get_c t ≤ 255 := by
  unfold track_get_c
  have h1 : t &&& 0x0000FF00 ≤ 0x0000FF00 := Nat.and_le_right
  rw [Nat.shiftRight_eq_div_pow]
  omega

theorem track_get_p_le (t : Nat) : track_get_p t ≤ 255 := Nat.and_le_right

/-- The move table modelled from the spec is well-tagged. -/
theorem moves_spec_wellTagged (mlen : Nat) : WellTagged (moves_spec mlen) := by
  intro A B t j hA
  have hA' : A < 256 := lt_of_le_of_lt hA (by decide)
  have hc := track_get_c_le t
  have hp := track_get_p_le t
  unfold moves_spec
  split_ifs
  · right; subst_vars; decide
  · right; subst_vars; decide
  · left; rfl
  · left; rfl
  · right; exact track_get_u_make_track _ _ _ _ hA' (by decide) (by omega) (by decide)
  · right; exact track_get_u_make_track _ _ _ _ hA' (by decide) (by omega) (by omega)
  · right; exact track_get_u_make_track _ _ _ _ hA' (by decide) (by omega) (by omega)

theorem consumed_bases_eq (read : List Char) (es : List Nat) :
    ∀ j, 1 ≤ j → (j - 1) + es.countP consumes ≤ read.length →
      consumed_bases read es j = (read.drop (j - 1)).take (es.countP consumes) := by
  induction es with
  | nil => intro j _ _; simp [consumed_bases]
  | cons e es ih =>
    intro j hj hlen
    rw [consumed_bases]
    by_cases hce : consumes e = true
    · rw [if_pos hce, List.countP_cons_of_pos _ _ hce] at *
      rw [ih (j + 1) (by omega) (by simp only [Nat.add_sub_cancel]; omega)]
      have hlt : j - 1 < read.length := by omega
      rw [List.drop_eq_getElem_cons hlt, List.take_succ_cons, List.getD_eq_getElem _ _ hlt]
      have ej : j + 1 - 1 = j - 1 + 1 := by omega
      rw [ej]
    · rw [if_neg hce, List.countP_cons_of_neg _ _ hce] at *
      exact ih j hj hlen

theorem filled_align_loops {h0 h : LFHMM R} {log10 : ℚ → WithBot R} {motif : List Char}
    (hw : WellTagged h0.moves) (hr : Reachable (initialise h0 log10 motif) h)
    (read : List Char) (qual : Nat → Char) (hn : read.length ≤ 255) :
    Filled (align_loops h read qual) read.length := by
  refine ⟨hn, ?_, ?_, ?_⟩
  · exact align_loops_boundary ((reachable_inv hr).2 (initialise_boundary h0 log10 motif))
      read qual hn
  · have e1 : (align_loops h read qual).moves = h.moves :=
      (align_loops_sameModel h read qual hn).2.1
    have e2 : h.moves = h0.moves := (reachable_inv hr).1.2.1
    rw [e1, e2]
    exact hw
  · intro i j hi hi' hj hj'
    exact align_loops_cellOK h read qual hn hi hi' hj hj'

theorem align_loops_mlen {h0 h : LFHMM R} {log10 : ℚ → WithBot R} {motif : List Char}
    (hr : Reachable (initialise h0 log10 motif) h)
    (read : List Char) (qual : Nat → Char) (hn : read.length ≤ 255) :
    (align_loops h read qual).mlen = motif.length := by
  have e1 : (align_loops h read qual).mlen = h.mlen :=
    (align_loops_sameModel h read qual hn).2.2.2.1
  have e2 : h.mlen = motif.length := (reachable_inv hr).1.2.2.2.1
  rw [e1, e2]

/-- The path that a successful `trace_path` leaves over filled matrices consumes exactly
`rlen` read bases. -/
theorem trace_path_count {g hf : LFHMM R} {n : Nat} (hfl : Filled g n) (hr : g.rlen = n)
    (hp : g.plen = n) (hm : g.mlen + 1 < 2 ^ 24) (hok : trace_path g = .ok hf) :
    (path_entries hf).countP consumes = n := by
  obtain ⟨s1, s2, _, _, _, _⟩ := trace_scan_result g
  have key := trace_path_pure g
  have hseed : track_get_u (make_track (trace_scan g).optimal_state MOTIF 0 (g.mlen + 1)) = Z := by
    rw [s1]; exact track_get_u_seed Z _ (by decide) hm
  revert key
  cases hres : walk_pure g.U (MAXLEN <<< 2)
      (make_track (trace_scan g).optimal_state MOTIF 0 (g.mlen + 1))
      (trace_scan g).optimal_probe_len g.rlen with
  | error e =>
    intro key
    rw [hok] at key
    cases key
  | ok es =>
    intro key
    obtain ⟨hf', k1, k2, _⟩ := key
    rw [hok] at k1
    cases k1
    rw [k2]
    have := walk_pure_count hfl (MAXLEN <<< 2) _ (trace_scan g).optimal_probe_len g.rlen es
      (by rw [← hp]; exact s2) (le_of_eq hr) (by rw [hseed]; decide) (le_of_eq hseed) hres
    rw [this, hr]

/-- C6: path consistency. For an aligner built by `initialize` over a well-tagged move
table (motif shorter than `2^24`), in any state that earlier alignments left it in, every
path that `align` returns consumes the read exactly once in order: the number of entries
in state `M`, `I` or `Z` is the read length, and emitting `read[j-1]` on each of them,
`j` starting at 1, gives back the read. -/
theorem path_consumes_read (h0 h hf : LFHMM R) (log10 : ℚ → WithBot R)
    (motif read : List Char) (qual : Nat → Char)
    (hw : WellTagged h0.moves) (hm : motif.length + 1 < 2 ^ 24)
    (hr : Reachable (initialise h0 log10 motif) h)
    (hok : align h read qual = .ok hf) :
    (path_entries hf).countP consumes = read.length ∧
    consumed_bases read (path_entries hf) 1 = read := by
  obtain ⟨hn, htp⟩ := align_ok hok
  have hcount : (path_entries hf).countP consumes = read.length :=
    trace_path_count (filled_align_loops hw hr read qual hn)
      (align_fill_inv (align_prep h read qual) hn).1.2.2.2.1
      (align_fill_inv (align_prep h read qual) hn).1.2.2.2.2
      (by rw [align_loops_mlen hr read qual hn]; exact hm) htp
  refine ⟨hcount, ?_⟩
  rw [consumed_bases_eq read _ 1 (le_refl _) (by rw [hcount]; simp), hcount]
  simp

set_option maxRecDepth 100000 in
/-- C6, witness: the motif `AT` and the read `ATATAT`. -/
theorem path_consumes_read_witness :
    ∃ hf, wrap_run = .ok hf ∧ (path_entries hf).countP consumes = 6 ∧
      consumed_bases ['A', 'T', 'A', 'T', 'A', 'T'] (path_entries hf) 1 =
        ['A', 'T', 'A', 'T', 'A', 'T'] := by
  obtain ⟨hf, hok⟩ := ok_of_fault_of (show fault_of wrap_run = none by decide!)
  exact ⟨hf, hok,
    path_consumes_read (raw pl2log10_varp_spec (moves_spec 2)) _ hf log10Q ['A', 'T']
      ['A', 'T', 'A', 'T', 'A', 'T'] (fun _ => 'I') (moves_spec_wellTagged 2) (by decide)
      Reachable.init hok⟩

set_option maxRecDepth 100000 in
/-- C7 (as the code has it): for the motif `AT` and the read `ATATAT` of uniform quality
40, the optimal path is five Match entries, with repeat-copy counter 0, 0, 1, 1, 2 and
motif position 1, 2, 1, 2, 1 (the counter increments after every 2 bases), followed by a
final entry in state `Z` that consumes the sixth read base. -/
theorem wrap_scenario_path :
    path_fields wrap_run =
      some [(M, MOTIF, 0, 1), (M, MOTIF, 0, 2), (M, MOTIF, 1, 1), (M, MOTIF, 1, 2),
        (M, MOTIF, 2, 1), (Z, READ, 2, 1)] := by
  decide!

set_option maxRecDepth 100000 in
/-- C7, counterexample: the states of the optimal path of the scenario are not six
Match entries followed by `Z`. -/
theorem wrap_scenario_counterexample :
    (path_fields wrap_run).map (List.map Prod.fst) ≠ some [M, M, M, M, M, M, Z] := by
  decide!

theorem candidates_congr_sources {h h' : LFHMM R} (hs : SameInput h h') (B i j : Nat)
    (hVU : ∀ A, A ∈ sources B →
      h'.V A (pred B i j) = h.V A (pred B i j) ∧ h'.U A (pred B i j) = h.U A (pred B i j)) :
    candidates h' B i j = candidates h B i j := by
  unfold candidates
  apply List.map_congr_left
  intro A hA
  rw [cand_score_congr hs (hVU A hA).1 (hVU A hA).2, cand_track_congr hs (hVU A hA).2]

/-- Two fills of the same read over the same boundary agree on the whole window. -/
theorem window_agree {g1 g2 : LFHMM R} {n : Nat} (hn : n ≤ 255) (hs : SameInput g1 g2)
    (hb1 : Boundary g1) (hb2 : Boundary g2)
    (hc1 : ∀ i j, 1 ≤ i → i ≤ n → 1 ≤ j → j ≤ n → CellOK g1 i j)
    (hc2 : ∀ i j, 1 ≤ i → i ≤ n → 1 ≤ j → j ≤ n → CellOK g2 i j) :
    AgreeWindow g1 g2 n := by
  have key : ∀ k i j, i + j ≤ k → i ≤ n → j ≤ n → ∀ s, s ≤ Z →
      g2.V s (index i j) = g1.V s (index i j) ∧ g2.U s (index i j) = g1.U s (index i j) := by
    intro k
    induction k with
    | zero =>
      intro i j hk hi hj s hs2
      obtain ⟨a1, a2, a3⟩ := hb1 i j (by omega) (by omega)
      obtain ⟨b1, b2, b3⟩ := hb2 i j (by omega) (by omega)
      by_cases hs0 : s = S
      · subst hs0; exact ⟨b1.trans a1.symm, b2.trans a2.symm⟩
      · have h1 : 1 ≤ s := Nat.one_le_iff_ne_zero.mpr hs0
        have hbd : i = 0 ∨ j = 0 := by omega
        exact ⟨(b3 hbd s h1 hs2).1.trans (a3 hbd s h1 hs2).1.symm,
          (b3 hbd s h1 hs2).2.trans (a3 hbd s h1 hs2).2.symm⟩
    | succ k ih =>
      intro i j hk hi hj s hs2
      obtain ⟨a1, a2, a3⟩ := hb1 i j (by omega) (by omega)
      obtain ⟨b1, b2, b3⟩ := hb2 i j (by omega) (by omega)
      by_cases hs0 : s = S
      · subst hs0; exact ⟨b1.trans a1.symm, b2.trans a2.symm⟩
      · have h1 : 1 ≤ s := Nat.one_le_iff_ne_zero.mpr hs0
        by_cases hbd : i = 0 ∨ j = 0
        · exact ⟨(b3 hbd s h1 hs2).1.trans (a3 hbd s h1 hs2).1.symm,
            (b3 hbd s h1 hs2).2.trans (a3 hbd s h1 hs2).2.symm⟩
        · have hi1 : 1 ≤ i := by omega
          have hj1 : 1 ≤ j := by omega
          obtain ⟨i', j', _, hpred, hi', hj', hM, hD, hIZ⟩ := walk_next_pred h1 hs2 hi1 hj1
          have hlt : i' + j' ≤ k := by
            simp only [M, D, I, Z] at *
            have hcases : s = 1 ∨ s = 2 ∨ (s = 3 ∨ s = 4) := by omega
            rcases hcases with e | e | e
            · have := hM e; omega
            · have := hD e; omega
            · have := hIZ e; omega
          have hcand : candidates g2 s i j = candidates g1 s i j := by
            apply candidates_congr_sources hs
            intro A hA
            rw [hpred]
            exact ih i' j' hlt (by omega) (by omega) A (sources_le hA)
          obtain ⟨v1, u1⟩ := hc1 i j hi1 hi hj1 hj s h1 hs2
          obtain ⟨v2, u2⟩ := hc2 i j hi1 hi hj1 hj s h1 hs2
          rw [v1, u1, v2, u2, hcand]
          exact ⟨rfl, rfl⟩
  intro s i j hs2 hi hj
  exact key (i + j) i j (le_refl _) hi hj s hs2

theorem scan_fold_agree (l : List Nat) :
    ∀ g1 g2 : LFHMM R, g2.rlen = g1.rlen → SameOptimum g1 g2 →
      (∀ i, i ∈ l → g2.V Z (index i g1.rlen) = g1.V Z (index i g1.rlen) ∧
        g2.U Z (index i g1.rlen) = g1.U Z (index i g1.rlen)) →
      SameOptimum (l.foldl scan_step g1) (l.foldl scan_step g2) := by
  induction l with
  | nil => intro g1 g2 _ ho _; exact ho
  | cons i rest ih =>
    intro g1 g2 hr ho hag
    rw [List.foldl_cons, List.foldl_cons]
    have hV := (hag i (List.mem_cons_self _ _)).1
    have hU := (hag i (List.mem_cons_self _ _)).2
    have hr1 : (scan_step g1 i).rlen = g1.rlen := (scan_step_frame g1 i).2.2.2.2.2.1
    have hr2 : (scan_step g2 i).rlen = g2.rlen := (scan_step_frame g2 i).2.2.2.2.2.1
    have hV1 : (scan_step g1 i).V = g1.V := (scan_step_frame g1 i).1
    have hU1 : (scan_step g1 i).U = g1.U := (scan_step_frame g1 i).2.1
    have hV2 : (scan_step g2 i).V = g2.V := (scan_step_frame g2 i).1
    have hU2 : (scan_step g2 i).U = g2.U := (scan_step_frame g2 i).2.1
    apply ih
    · rw [hr1, hr2, hr]
    · unfold scan_step
      simp only
      rw [hr, hV, hU, ho.1]
      split
      · exact ⟨rfl, rfl, rfl, rfl⟩
      · exact ho
    · intro i' hi'
      rw [hr1, hV1, hU1, hV2, hU2]
      exact hag i' (List.mem_cons_of_mem _ hi')

theorem trace_scan_agree {g1 g2 : LFHMM R} {n : Nat} (hag : AgreeWindow g1 g2 n)
    (hr1 : g1.rlen = n) (hr2 : g2.rlen = n) (hp1 : g1.plen = n) (hp2 : g2.plen = n) :
    SameOptimum (trace_scan g1) (trace_scan g2) := by
  rw [trace_scan_eq, trace_scan_eq, hp1, hp2]
  apply scan_fold_agree
  · show g2.rlen = g1.rlen
    rw [hr1, hr2]
  · exact ⟨rfl, rfl, rfl, rfl⟩
  · intro i hi
    have hi' : i ≤ n := Nat.lt_succ_iff.mp (List.mem_range.mp hi)
    show g2.V Z (index i g1.rlen) = g1.V Z (index i g1.rlen) ∧ _
    rw [hr1]
    exact hag Z i n (le_refl _) hi' (le_refl _)

theorem walk_pure_fault_eq (U1 U2 : Nat → Nat → Nat) (room t : Nat) (i j : Int)
    (hu : Z < track_get_u t) : walk_pure U2 room t i j = walk_pure U1 room t i j := by
  cases room with
  | zero => rfl
  | succ room =>
    have hneg : ¬ (track_get_u t ≤ Z ∧ 0 ≤ index32 i j ∧
        index32 i j < (MAXLEN : Int) * (MAXLEN : Int)) := fun hc => absurd hc.1 (not_le.mpr hu)
    rw [walk_pure, walk_pure, if_neg hneg, if_neg hneg]

/-- The walk of `trace_path` reads the track matrices inside the window only: two track
matrices that agree there, with the boundary tracks of `initialize`, give the same walk
(the same path or the same fault). -/
theorem walk_pure_agree {U1 U2 : Nat → Nat → Nat} {n : Nat} (hn : n ≤ 255)
    (hag : ∀ s i j, s ≤ Z → i ≤ n → j ≤ n → U2 s (index i j) = U1 s (index i j))
    (hbd : ∀ s i j, 1 ≤ s → s ≤ Z → i ≤ n → j ≤ n → (i = 0 ∨ j = 0) →
      Z < track_get_u (U1 s (index i j)))
    (room : Nat) :
    ∀ (t i j : Nat), i ≤ n → j ≤ n →
      walk_pure U2 room t (i : Int) (j : Int) = walk_pure U1 room t (i : Int) (j : Int) := by
  induction room with
  | zero => intro t i j _ _; rfl
  | succ room ih =>
    intro t i j hi hj
    by_cases hu : track_get_u t ≤ Z
    · rw [walk_pure_step _ _ _ _ _ hu (le_trans hi hn) (le_trans hj hn),
        walk_pure_step _ _ _ _ _ hu (le_trans hi hn) (le_trans hj hn), hag _ i j hu hi hj]
      have e : walk_pure U2 room (U1 (track_get_u t) (index i j))
            (walk_next (track_get_u t) i j).1 (walk_next (track_get_u t) i j).2 =
          walk_pure U1 room (U1 (track_get_u t) (index i j))
            (walk_next (track_get_u t) i j).1 (walk_next (track_get_u t) i j).2 := by
        by_cases hu0 : track_get_u t = S
        · have hnx : walk_next (track_get_u t) (i : Int) (j : Int) = ((i : Int), (j : Int)) := by
            rw [hu0]; rfl
          rw [hnx]
          exact ih _ i j hi hj
        · have hu1 : 1 ≤ track_get_u t := Nat.one_le_iff_ne_zero.mpr hu0
          by_cases hb : i = 0 ∨ j = 0
          · exact walk_pure_fault_eq U1 U2 room _ _ _ (hbd _ i j hu1 hu hi hj hb)
          · obtain ⟨i', j', hnext, _, hi', hj', _⟩ :=
              walk_next_pred hu1 hu (by omega : 1 ≤ i) (by omega : 1 ≤ j)
            rw [hnext]
            exact ih _ i' j' (by omega) (by omega)
      rw [e]
    · exact walk_pure_fault_eq U1 U2 (room + 1) t _ _ (not_le.mp hu)

/-- `trace_path` on two objects whose matrices agree on the window gives the same
result. -/
theorem trace_path_agree {g1 g2 : LFHMM R} {n : Nat} (hn : n ≤ 255)
    (hag : AgreeWindow g1 g2 n) (hb1 : Boundary g1)
    (hr1 : g1.rlen = n) (hr2 : g2.rlen = n) (hp1 : g1.plen = n) (hp2 : g2.plen = n)
    (hm : g2.mlen = g1.mlen) :
    align_result (trace_path g2) = align_result (trace_path g1) := by
  have hso := trace_scan_agree hag hr1 hr2 hp1 hp2
  obtain ⟨s1, s2, _, _, _, _⟩ := trace_scan_result g1
  have hw : walk_pure g2.U (MAXLEN <<< 2)
        (make_track (trace_scan g2).optimal_state MOTIF 0 (g2.mlen + 1))
        (trace_scan g2).optimal_probe_len g2.rlen =
      walk_pure g1.U (MAXLEN <<< 2)
        (make_track (trace_scan g1).optimal_state MOTIF 0 (g1.mlen + 1))
        (trace_scan g1).optimal_probe_len g1.rlen := by
    rw [hso.2.2.1, hso.2.2.2, hm, hr2, hr1]
    apply walk_pure_agree hn (fun s i j hs hi hj => (hag s i j hs hi hj).2)
    · intro s i j hs1 hs2 hi hj hb
      rw [((hb1 i j (by omega) (by omega)).2.2 hb s hs1 hs2).2]
      decide
    · rw [← hp1]; exact s2
    · exact le_refl _
  have k1 := trace_path_pure g1
  have k2 := trace_path_pure g2
  rw [hw] at k2
  revert k1 k2
  cases walk_pure g1.U (MAXLEN <<< 2)
      (make_track (trace_scan g1).optimal_state MOTIF 0 (g1.mlen + 1))
      (trace_scan g1).optimal_probe_len g1.rlen with
  | error e =>
    intro k1 k2
    rw [k1, k2]
  | ok es =>
    intro k1 k2
    obtain ⟨f1, a1, a2, a3, _⟩ := k1
    obtain ⟨f2, b1, b2, b3, _⟩ := k2
    have o1 := (trace_path_frame g1 f1 a1).2
    have o2 := (trace_path_frame g2 f2 b1).2
    rw [a1, b1]
    show Except.ok _ = Except.ok _
    rw [a2, a3, b2, b3, o1.1, o1.2.1, o1.2.2.1, o1.2.2.2, o2.1, o2.2.1, o2.2.2.1, o2.2.2.2,
      hso.1, hso.2.1, hso.2.2.1, hso.2.2.2]

theorem align_eq (h : LFHMM R) (read : List Char) (qual : Nat → Char) :
    align h read qual =
      if read.length > MAXLEN then .error .exit
      else if 0 < read.length ∧ MAXLEN * MAXLEN ≤ index read.length read.length then
        .error (.store (index read.length read.length))
      else trace_path (align_loops h read qual) := rfl

theorem align_loops_sameInput (h : LFHMM R) (read : List Char) (qual : Nat → Char)
    (hn : read.length ≤ 255) :
    SameInput (align_prep h read qual) (align_loops h read qual) :=
  (align_fill_inv (align_prep h read qual) hn).1

/-- C8: determinism across repeated invocations on one instance. For an aligner built by
`initialize`, the result of `align` on a read (the fault, or the optimal score, end
state, end probe position, end track, path length and path) is the same from any two
states that earlier successful alignments left the instance in. -/
theorem align_deterministic (h0 h1 h2 : LFHMM R) (log10 : ℚ → WithBot R) (motif : List Char)
    (r1 : Reachable (initialise h0 log10 motif) h1)
    (r2 : Reachable (initialise h0 log10 motif) h2)
    (read : List Char) (qual : Nat → Char) :
    align_result (align h2 read qual) = align_result (align h1 read qual) := by
  rw [align_eq, align_eq]
  by_cases c1 : read.length > MAXLEN
  · rw [if_pos c1, if_pos c1]
  · rw [if_neg c1, if_neg c1]
    by_cases c2 : 0 < read.length ∧ MAXLEN * MAXLEN ≤ index read.length read.length
    · rw [if_pos c2, if_pos c2]
    · rw [if_neg c2, if_neg c2]
      have hn : read.length ≤ 255 := by
        rw [index_eq] at c2
        simp only [MAXLEN] at c1 c2
        omega
      obtain ⟨m1, b1⟩ := reachable_inv r1
      obtain ⟨m2, b2⟩ := reachable_inv r2
      have hb0 := initialise_boundary h0 log10 motif
      have i1 := align_loops_sameInput h1 read qual hn
      have i2 := align_loops_sameInput h2 read qual hn
      have hprep : SameInput (align_prep h1 read qual) (align_prep h2 read qual) :=
        ⟨⟨m2.1.trans m1.1.symm, m2.2.1.trans m1.2.1.symm, m2.2.2.1.trans m1.2.2.1.symm,
          m2.2.2.2.1.trans m1.2.2.2.1.symm, m2.2.2.2.2.trans m1.2.2.2.2.symm⟩,
          rfl, rfl, rfl, rfl⟩
      have hs : SameInput (align_loops h1 read qual) (align_loops h2 read qual) := by
        obtain ⟨⟨a1, a2, a3, a4, a5⟩, a6, a7, a8, a9⟩ := i1
        obtain ⟨⟨c1, c2, c3, c4, c5⟩, c6, c7, c8, c9⟩ := i2
        obtain ⟨⟨p1, p2, p3, p4, p5⟩, p6, p7, p8, p9⟩ := hprep
        exact ⟨⟨c1.trans (p1.trans a1.symm), c2.trans (p2.trans a2.symm),
          c3.trans (p3.trans a3.symm), c4.trans (p4.trans a4.symm),
          c5.trans (p5.trans a5.symm)⟩, c6.trans (p6.trans a6.symm),
          c7.trans (p7.trans a7.symm), c8.trans (p8.trans a8.symm),
          c9.trans (p9.trans a9.symm)⟩
      have hg1 := align_loops_boundary (b1 hb0) read qual hn
      have hg2 := align_loops_boundary (b2 hb0) read qual hn
      have hag : AgreeWindow (align_loops h1 read qual) (align_loops h2 read qual) read.length :=
        window_agree hn hs hg1 hg2
          (fun i j hi hi' hj hj' => align_loops_cellOK h1 read qual hn hi hi' hj hj')
          (fun i j hi hi' hj hj' => align_loops_cellOK h2 read qual hn hi hi' hj hj')
      exact trace_path_agree hn hag hg1 i1.2.2.2.1 i2.2.2.2.1 i1.2.2.2.2 i2.2.2.2.2 hs.1.2.2.2.1

set_option maxRecDepth 100000 in
/-- C8, witness: the aligner for the motif `AT`, fresh and after the alignment of
`ATATAT`, gives the same result on the read `AT`. -/
theorem align_deterministic_witness :
    ∃ hf, wrap_run = .ok hf ∧
      align_result (align hf ['A', 'T'] (fun _ => 'I')) =
        align_result (align (aligner_spec ['A', 'T']) ['A', 'T'] (fun _ => 'I')) := by
  obtain ⟨hf, hok⟩ := ok_of_fault_of (show fault_of wrap_run = none by decide!)
  exact ⟨hf, hok,
    align_deterministic (raw pl2log10_varp_spec (moves_spec 2)) _ hf log10Q ['A', 'T']
      Reachable.init (Reachable.step Reachable.init hok) ['A', 'T'] (fun _ => 'I')⟩

set_option maxRecDepth 100000 in
/-- C1, witness: the cell `(3,3)` of the motif `AT` and the read `ATATAT`. -/
theorem align_recurrence_witness :
    Recurrence (align_loops (aligner_spec ['A', 'T']) ['A', 'T', 'A', 'T', 'A', 'T']
      (fun _ => 'I')) 3 3 ∧
    ∃ hf, wrap_run = .ok hf ∧ Recurrence hf 3 3 := by
  have h := align_recurrence (aligner_spec ['A', 'T']) ['A', 'T', 'A', 'T', 'A', 'T']
    (fun _ => 'I') (by decide) 3 3 (by decide) (by decide) (by decide) (by decide)
  obtain ⟨hf, hok⟩ := ok_of_fault_of (show fault_of wrap_run = none by decide!)
  exact ⟨h.1, hf, hok, h.2 hf hok⟩

set_option maxRecDepth 100000 in
/-- C2, witness: on an object whose candidates all tie at score `0`, the `Z` cell `(1,1)`
keeps the track of its first candidate `M → Z`. -/
theorem align_ties_first_seen_witness :
    FirstSeen (align_loops tie_aligner ['A'] (fun _ => 'I')) Z 1 1 ∧
    (candidates (align_loops tie_aligner ['A'] (fun _ => 'I')) Z 1 1).map Prod.fst =
      [0, 0, 0, 0] ∧
    track_get_u ((align_loops tie_aligner ['A'] (fun _ => 'I')).U Z (index 1 1)) = M :=
  ⟨(align_ties_first_seen tie_aligner ['A'] (fun _ => 'I') (by decide) 1 1 (by decide)
      (by decide) (by decide) (by decide) Z (by decide) (by decide)).2.1,
    by decide!, by decide!⟩

/-- The consumed bases are the characters of the row `Read:` of `print_alignment` at the
entries that consume a read base. -/
theorem consumed_bases_read_row (read : List Char) (es : List Nat) :
    ∀ j, consumed_bases read es j =
      ((es.zip (read_row read es j)).filter (fun p => consumes p.1)).map Prod.snd := by
  induction es with
  | nil => intro j; rfl
  | cons e es ih =>
    intro j
    rw [consumed_bases, read_row]
    by_cases hce : consumes e = true
    · rw [if_pos hce, if_pos hce, List.zip_cons_cons, List.filter_cons_of_pos (by exact hce),
        List.map_cons, ih (j + 1)]
    · rw [if_neg hce, if_neg hce, List.zip_cons_cons, List.filter_cons_of_neg (by exact hce),
        ih j]

/-- C13: `log10_emission_odds(probe_base, read_base, q)` is `-INFINITY` exactly when one
of the bases is the ambiguity symbol `N`; otherwise it is `+h(q)` when the bases differ
and `-h(q)` when they are equal, `h` being `pl2log10_varp` of the injected log tool, so
that the match value and the mismatch value at one quality are negations of each
other. -/
theorem log10_emission_odds_spec (h : LFHMM R) (probe_base read_base : Char) (pl : Nat) :
    (log10_emission_odds h probe_base read_base pl = ⊥ ↔
      (read_base = 'N' ∨ probe_base = 'N')) ∧
    (read_base ≠ 'N' → probe_base ≠ 'N' → read_base ≠ probe_base →
      log10_emission_odds h probe_base read_base pl = ((h.lt pl : R) : WithBot R)) ∧
    (read_base ≠ 'N' → probe_base ≠ 'N' → read_base = probe_base →
      log10_emission_odds h probe_base read_base pl = ((-(h.lt pl) : R) : WithBot R)) ∧
    (∀ a b c : Char, a ≠ 'N' → b ≠ 'N' → c ≠ 'N' → a ≠ b →
      ∃ x : R, log10_emission_odds h a b pl = ((x : R) : WithBot R) ∧
        log10_emission_odds h c c pl = ((-x : R) : WithBot R)) := by
  refine ⟨?_, ?_, ?_, ?_⟩
  · unfold log10_emission_odds
    constructor
    · intro hbot
      by_contra hN
      rw [if_neg hN] at hbot
      split at hbot
      · exact WithBot.coe_ne_bot hbot
      · exact WithBot.coe_ne_bot hbot
    · intro hN
      rw [if_pos hN]
  · intro h1 h2 h3
    unfold log10_emission_odds
    rw [if_neg (by simp [h1, h2]), if_pos h3]
  · intro h1 h2 h3
    unfold log10_emission_odds
    rw [if_neg (by simp [h1, h2]), if_neg (by simp [h3])]
  · intro a b c ha hb hc hab
    refine ⟨h.lt pl, ?_, ?_⟩
    · unfold log10_emission_odds
      rw [if_neg (by simp [ha, hb]), if_pos (Ne.symm hab)]
    · unfold log10_emission_odds
      rw [if_neg (by simp [hc]), if_neg (by simp)]

/-- C14 (as the code has it): when the log tool returns the log10 of a probability
strictly between 0 and 1 (a negative value), `log10_emission_odds` is strictly negative
when the probe base and the read base differ, strictly positive when they match, and
`-INFINITY` when either base is `N`. -/
theorem log10_emission_odds_sign (h : LFHMM R) (pl : Nat) (hneg : h.lt pl < 0)
    (probe_base read_base : Char) :
    (read_base ≠ 'N' → probe_base ≠ 'N' → read_base ≠ probe_base →
      log10_emission_odds h probe_base read_base pl < 0 ∧
        ⊥ < log10_emission_odds h probe_base read_base pl) ∧
    (read_base ≠ 'N' → probe_base ≠ 'N' → read_base = probe_base →
      0 < log10_emission_odds h probe_base read_base pl) ∧
    (read_base = 'N' ∨ probe_base = 'N' →
      log10_emission_odds h probe_base read_base pl = ⊥) := by
  refine ⟨?_, ?_, ?_⟩
  · intro h1 h2 h3
    unfold log10_emission_odds
    rw [if_neg (by simp [h1, h2]), if_pos h3]
    exact ⟨by exact_mod_cast hneg, WithBot.bot_lt_coe _⟩
  · intro h1 h2 h3
    unfold log10_emission_odds
    rw [if_neg (by simp [h1, h2]), if_neg (by simp [h3])]
    have : (0 : R) < -(h.lt pl) := neg_pos.mpr hneg
    exact_mod_cast this
  · intro hN
    unfold log10_emission_odds
    rw [if_pos hN]

set_option maxRecDepth 100000 in
/-- C14, witness: the log tool of the spec at quality 40 returns the log10 of `1/10000`;
a mismatch `A`/`T` scores below 0 and a match `A`/`A` above 0. -/
theorem log10_emission_odds_sign_witness :
    pl2log10_varp_spec 40 < 0 ∧
    log10_emission_odds (aligner_spec ['A', 'T']) 'A' 'T' 40 < 0 ∧
    0 < log10_emission_odds (aligner_spec ['A', 'T']) 'A' 'A' 40 :=
  ⟨by decide!,
   ((log10_emission_odds_sign (aligner_spec ['A', 'T']) 40 (by decide!) 'A' 'T').1
      (by decide) (by decide) (by decide)).1,
   (log10_emission_odds_sign (aligner_spec ['A', 'T']) 40 (by decide!) 'A' 'A').2.1
      (by decide) (by decide) rfl⟩

set_option maxRecDepth 100000 in
/-- C14, counterexample: with the log tool returning the log10 of the error probability
`1/10000` of quality 40, the emission odds of the differing bases `A` and `T` are not
strictly positive, and those of the matching bases `A` and `A` are not strictly
negative. -/
theorem log10_emission_odds_sign_counterexample :
    (aligner_spec ['A', 'T']).lt 40 = pl2log10_varp_spec 40 ∧
    linear ((pl2log10_varp_spec 40 : LogQ) : WithBot LogQ) = 1 / 10000 ∧
    ¬ (0 < log10_emission_odds (aligner_spec ['A', 'T']) 'A' 'T' 40) ∧
    ¬ (log10_emission_odds (aligner_spec ['A', 'T']) 'A' 'A' 40 < 0) := by
  decide!

theorem track_get_d_eq (t : Nat) : track_get_d t = t / 2 ^ 16 % 256 := by
  unfold track_get_d
  apply Nat.eq_of_testBit_eq
  intro k
  have e1 : (0x00FF0000 : Nat) = (2 ^ 8 - 1) <<< 16 := by decide
  have e2 : (256 : Nat) = 2 ^ 8 := by decide
  rw [e1, e2, Nat.testBit_shiftRight, Nat.testBit_and, Nat.testBit_shiftLeft,
    Nat.testBit_mod_two_pow, Nat.testBit_two_pow_sub_one, ← Nat.shiftRight_eq_div_pow,
    Nat.testBit_shiftRight]
  simp only [Nat.add_sub_cancel_left, ge_iff_le, Nat.le_add_right, decide_True, Bool.true_and]
  exact Bool.and_comm _ _

theorem track_get_c_eq (t : Nat) : track_get_c t = t / 2 ^ 8 % 256 := by
  unfold track_get_c
  apply Nat.eq_of_testBit_eq
  intro k
  have e1 : (0x0000FF00 : Nat) = (2 ^ 8 - 1) <<< 8 := by decide
  have e2 : (256 : Nat) = 2 ^ 8 := by decide
  rw [e1, e2, Nat.testBit_shiftRight, Nat.testBit_and, Nat.testBit_shiftLeft,
    Nat.testBit_mod_two_pow, Nat.testBit_two_pow_sub_one, ← Nat.shiftRight_eq_div_pow,
    Nat.testBit_shiftRight]
  simp only [Nat.add_sub_cancel_left, ge_iff_le, Nat.le_add_right, decide_True, Bool.true_and]
  exact Bool.and_comm _ _

theorem track_get_p_eq (t : Nat) : track_get_p t = t % 256 := by
  unfold track_get_p
  have e1 : (0x000000FF : Nat) = 2 ^ 8 - 1 := by decide
  rw [e1, Nat.and_pow_two_sub_one_eq_mod]

theorem make_track_eq (u d c p : Nat) (hd : d < 256) (hc : c < 256) (hp : p < 256) :
    make_track u d c p = u * 2 ^ 24 + d * 2 ^ 16 + c * 2 ^ 8 + p := by
  unfold make_track
  have h1 : c <<< 8 ||| p = 2 ^ 8 * c + p := by
    rw [Nat.shiftLeft_eq, Nat.mul_comm c, ← Nat.mul_add_lt_is_or (by omega)]
  have h2 : d <<< 16 ||| (2 ^ 8 * c + p) = 2 ^ 16 * d + (2 ^ 8 * c + p) := by
    rw [Nat.shiftLeft_eq, Nat.mul_comm d, ← Nat.mul_add_lt_is_or (by omega)]
  have h3 : u <<< 24 ||| (2 ^ 16 * d + (2 ^ 8 * c + p)) =
      2 ^ 24 * u + (2 ^ 16 * d + (2 ^ 8 * c + p)) := by
    rw [Nat.shiftLeft_eq, Nat.mul_comm u, ← Nat.mul_add_lt_is_or (by omega)]
  rw [Nat.or_assoc, Nat.or_assoc, h1, h2, h3]
  omega

/-- C15: the track codec round trip. For fields `u, d, c, p` in `0..255` the packed
track fits in 32 bits and the four getters return the fields; every 32-bit track is the
packing of its four fields; and a track is valid exactly when its component is `MOTIF`
and its position is nonzero. -/
theorem track_codec_round_trip :
    (∀ u d c p : Nat, u < 256 → d < 256 → c < 256 → p < 256 →
      make_track u d c p < 2 ^ 32 ∧
      track_get_u (make_track u d c p) = u ∧ track_get_d (make_track u d c p) = d ∧
      track_get_c (make_track u d c p) = c ∧ track_get_p (make_track u d c p) = p) ∧
    (∀ t : Nat, t < 2 ^ 32 →
      make_track (track_get_u t) (track_get_d t) (track_get_c t) (track_get_p t) = t) ∧
    (∀ t : Nat, track_valid t = true ↔ (track_get_d t = MOTIF ∧ track_get_p t ≠ 0)) := by
  refine ⟨?_, ?_, ?_⟩
  · intro u d c p hu hd hc hp
    rw [track_get_u_eq, track_get_d_eq, track_get_c_eq, track_get_p_eq,
      make_track_eq u d c p hd hc hp]
    omega
  · intro t ht
    have hd : track_get_d t < 256 := by rw [track_get_d_eq]; omega
    have hc : track_get_c t < 256 := by rw [track_get_c_eq]; omega
    have hp : track_get_p t < 256 := by rw [track_get_p_eq]; omega
    rw [make_track_eq _ _ _ _ hd hc hp, track_get_u_eq, track_get_d_eq, track_get_c_eq,
      track_get_p_eq]
    omega
  · intro t
    simp [track_valid]

/-- C16 (as the code has it): `NULL_TRACK = 0x0F040000` decodes to the state field 15,
the component field 4, counter 0 and position 0; `START_TRACK = 0x0F000000` decodes to
component `MOTIF`, counter 0 and position 0. -/
theorem sentinel_tracks_decode :
    track_get_u NULL_TRACK = 15 ∧ track_get_d NULL_TRACK = 4 ∧ track_get_c NULL_TRACK = 0 ∧
    track_get_p NULL_TRACK = 0 ∧
    track_get_d START_TRACK = MOTIF ∧ track_get_c START_TRACK = 0 ∧
    track_get_p START_TRACK = 0 ∧
    NULL_TRACK = make_track 15 4 0 0 := by
  decide

/-- C16, counterexample: the component field of `NULL_TRACK` is not `UNMODELED`, its
counter is not 4 and its state field is not 0; the state field of `START_TRACK` is 15,
not `N`. -/
theorem sentinel_tracks_counterexample :
    track_get_d NULL_TRACK ≠ UNMODELED ∧ track_get_c NULL_TRACK ≠ 4 ∧
    track_get_u NULL_TRACK ≠ 0 ∧ track_get_u START_TRACK ≠ N := by
  decide

theorem log10Q_ne_bot (q : ℚ) (hq : 0 < q) : log10Q q ≠ ⊥ := by
  unfold log10Q
  rw [dif_pos hq]
  exact WithBot.coe_ne_bot

/-- C11: after `initialize`, for states `a, b` of `S..Z`, `T[a][b]` is finite exactly for
the thirteen edges of `finite_edges`, with `S → M = log10((1-2δ-τ)/(η(1-η)²))`,
`M → D = log10(δ/(1-η))` and `Z → Z = 0`; every other pair is `-INFINITY`, and the
self-assignment `T[I][M] = T[I][M]` leaves `I → M` at `-INFINITY`. (`log10` of a positive
number is finite.) -/
theorem initialise_T_finite_edges (h : LFHMM R) (log10 : ℚ → WithBot R) (motif : List Char)
    (hlog : ∀ q : ℚ, 0 < q → log10 q ≠ ⊥) (a b : Nat) (ha : a ≤ Z) (hb : b ≤ Z) :
    ((initialise h log10 motif).T a b ≠ ⊥ ↔ (a, b) ∈ finite_edges) ∧
    (initialise h log10 motif).T S M =
      log10 ((1 - 2 * delta - tau) / (eta * (1 - eta) * (1 - eta))) ∧
    (initialise h log10 motif).T M D = log10 (delta / (1 - eta)) ∧
    (initialise h log10 motif).T Z Z = 0 ∧
    (initialise h log10 motif).T I M = ⊥ := by
  have e : (initialise h log10 motif).T = initialise_T log10 h.T := rfl
  rw [e]
  refine ⟨?_, ?_, ?_, ?_, ?_⟩
  · simp only [Z] at ha hb
    interval_cases a <;> interval_cases b <;>
      first
      | (refine ⟨fun _ => by decide, fun _ => ?_⟩
         simp [initialise_T, set2, S, M, D, I, Z]
         try exact hlog _ (by norm_num))
      | (refine ⟨fun hne => absurd ?_ hne, fun hmem => absurd hmem (by decide)⟩
         simp [initialise_T, set2, S, M, D, I, Z])
  · simp [initialise_T, set2, S, M, D, I, Z]
  · simp [initialise_T, set2, S, M, D, I, Z]
  · simp [initialise_T, set2, S, M, D, I, Z]
  · simp [initialise_T, set2, S, M, D, I, Z]

set_option maxRecDepth 100000 in
/-- C11, witness: the table of the aligner for the motif `AT`, at the pair `I → M`. -/
theorem initialise_T_finite_edges_witness :
    (aligner_spec ['A', 'T']).T I M = ⊥ ∧ (I, M) ∉ finite_edges ∧
    (aligner_spec ['A', 'T']).T Z Z = 0 := by
  have h := initialise_T_finite_edges (raw pl2log10_varp_spec (moves_spec 2)) log10Q
    ['A', 'T'] log10Q_ne_bot I M (by decide) (by decide)
  exact ⟨h.2.2.2.2, by decide, h.2.2.2.1⟩

theorem cand_score_invalid (g : LFHMM R) (A B x k m : Nat) (hT : g.T A B = ⊥) :
    cand_score g A B x k m = ⊥ := by
  unfold cand_score
  simp only [hT, WithBot.add_bot, WithBot.bot_add]

theorem proc_comp_invalid (g : LFHMM R) (A B x k m : Nat) (hT : g.T A B = ⊥) :
    proc_comp g A B x k m = g := by
  rw [proc_comp_eq, cand_score_invalid g A B x k m hT, if_neg (not_lt_bot)]

theorem initialise_T_I_M (log10 : ℚ → WithBot R) (T0 : Nat → Nat → WithBot R) :
    initialise_T log10 T0 I M = ⊥ := by
  simp [initialise_T, set2, S, M, D, I, Z]

theorem reachable_T_I_M {h0 h : LFHMM R} {log10 : ℚ → WithBot R} {motif : List Char}
    (hr : Reachable (initialise h0 log10 motif) h) : h.T I M = ⊥ := by
  rw [(reachable_inv hr).1.2.2.2.2]
  exact initialise_T_I_M log10 h0.T

theorem best_append_bot (l : List (WithBot R × Nat)) (c acc : WithBot R × Nat)
    (hc : c.1 = ⊥) : best (l ++ [c]) acc = best l acc := by
  unfold best
  rw [List.foldl_append, List.foldl_cons, List.foldl_nil, hc, if_neg (not_lt_bot)]

/-- C12: a candidate over a transition whose entry of `T` is `-INFINITY` scores
`-INFINITY`, and its `proc_comp` call leaves the object, with `max_score` and
`max_track`, unchanged. For an aligner built by `initialize`, in any state that earlier
alignments left it in, `T[I][M]` is `-INFINITY` during `align`: in every Match cell the
`I → M` candidate scores `-INFINITY` and the stored score and track are the best of the
candidates `S → M`, `M → M`, `D → M` alone. -/
theorem invalid_transition_propagates (h0 h : LFHMM R) (log10 : ℚ → WithBot R)
    (motif read : List Char) (qual : Nat → Char)
    (hr : Reachable (initialise h0 log10 motif) h) (hn : read.length ≤ 255) (i j : Nat)
    (hi : 1 ≤ i) (hi' : i ≤ read.length) (hj : 1 ≤ j) (hj' : j ≤ read.length) :
    (∀ (g : LFHMM R) (A B x k m : Nat), g.T A B = ⊥ →
      cand_score g A B x k m = ⊥ ∧ proc_comp g A B x k m = g ∧
      (proc_comp g A B x k m).max_score = g.max_score ∧
      (proc_comp g A B x k m).max_track = g.max_track) ∧
    (align_loops h read qual).T I M = ⊥ ∧
    cand_score (align_loops h read qual) I M (index (i - 1) (j - 1)) (j - 1) MATCH = ⊥ ∧
    sources M = [S, M, D, I] ∧
    ((align_loops h read qual).V M (index i j), (align_loops h read qual).U M (index i j)) =
      best ((candidates (align_loops h read qual) M i j).take 3) (⊥, NULL_TRACK) := by
  have hT : (align_loops h read qual).T I M = ⊥ := by
    rw [(align_loops_sameModel h read qual hn).2.2.2.2]
    exact reachable_T_I_M hr
  refine ⟨?_, hT, cand_score_invalid _ _ _ _ _ _ hT, rfl, ?_⟩
  · intro g A B x k m hg
    have e := proc_comp_invalid g A B x k m hg
    exact ⟨cand_score_invalid g A B x k m hg, e, by rw [e], by rw [e]⟩
  · obtain ⟨hV, hU⟩ := align_loops_cellOK h read qual hn hi hi' hj hj' M (by decide) (by decide)
    rw [hV, hU]
    have hsplit : candidates (align_loops h read qual) M i j =
        (candidates (align_loops h read qual) M i j).take 3 ++
          [(cand_score (align_loops h read qual) I M (pred M i j) (roff M j) (mtype M),
            cand_track (align_loops h read qual) I M (pred M i j) (roff M j))] := rfl
    rw [hsplit, best_append_bot _ _ _ (cand_score_invalid _ _ _ _ _ _ hT)]
    rfl

/-- C12, witness: the Match cell `(3,3)` of the motif `AT` and the read `ATATAT`. -/
theorem invalid_transition_propagates_witness :
    (align_loops (aligner_spec ['A', 'T']) ['A', 'T', 'A', 'T', 'A', 'T'] (fun _ => 'I')).T I M
      = ⊥ ∧
    cand_score (align_loops (aligner_spec ['A', 'T']) ['A', 'T', 'A', 'T', 'A', 'T']
      (fun _ => 'I')) I M (index 2 2) 2 MATCH = ⊥ := by
  have h := invalid_transition_propagates (raw pl2log10_varp_spec (moves_spec 2))
    (aligner_spec ['A', 'T']) log10Q ['A', 'T'] ['A', 'T', 'A', 'T', 'A', 'T'] (fun _ => 'I')
    Reachable.init (by decide) 3 3 (by decide) (by decide) (by decide) (by decide)
  exact ⟨h.2.1, h.2.2.1⟩

theorem best_cons_bot (c : WithBot R × Nat) (l : List (WithBot R × Nat))
    (acc : WithBot R × Nat) (hc : c.1 = ⊥) : best (c :: l) acc = best l acc := by
  rw [best_cons, hc, if_neg (not_lt_bot)]

theorem best_all_bot (l : List (WithBot R × Nat)) (acc : WithBot R × Nat)
    (hl : ∀ c ∈ l, c.1 = ⊥) : best l acc = acc := by
  induction l with
  | nil => rfl
  | cons c rest ih =>
    rw [best_cons_bot c rest acc (hl c (List.mem_cons_self _ _))]
    exact ih (fun x hx => hl x (List.mem_cons_of_mem _ hx))

/-- A filled cell stores `-INFINITY` exactly when it stores `NULL_TRACK`. -/
theorem cell_null_iff {h : LFHMM R} {i j B : Nat} (hc : CellOK h i j)
    (hB1 : 1 ≤ B) (hB2 : B ≤ Z) :
    h.V B (index i j) = ⊥ ↔ h.U B (index i j) = NULL_TRACK := by
  obtain ⟨hV, hU⟩ := hc B hB1 hB2
  obtain ⟨_, _, p3, p4⟩ := best_props (candidates h B i j) ((⊥ : WithBot R), NULL_TRACK)
  constructor
  · intro hbot
    rw [hV] at hbot
    rw [hU, p3 hbot]
  · intro hnull
    by_contra hne
    rw [hV] at hne
    have hmem := List.mem_of_find?_eq_some (p4 (bot_lt_iff_ne_bot.mpr hne))
    unfold candidates at hmem
    obtain ⟨A, _, hAe⟩ := List.mem_map.mp hmem
    have h1 : cand_score h A B (pred B i j) (roff B j) (mtype B) =
        (best (candidates h B i j) ((⊥ : WithBot R), NULL_TRACK)).1 := congrArg Prod.fst hAe
    have h2 : cand_track h A B (pred B i j) (roff B j) =
        (best (candidates h B i j) ((⊥ : WithBot R), NULL_TRACK)).2 := congrArg Prod.snd hAe
    have hsc : cand_score h A B (pred B i j) (roff B j) (mtype B) ≠ ⊥ := by
      rw [h1]; exact hne
    unfold cand_score at hsc
    simp only [ne_eq, WithBot.add_eq_bot, not_or] at hsc
    apply hsc.2
    rw [if_pos]
    rw [h2, ← hU]
    exact hnull

/-- C20: for a read of length `n ≤ 255`, in every filled cell `(i,j)`, `1 ≤ i, j ≤ n`, of
a state `B` of `M, D, I, Z`, after the loops of `align` (and in every object `align`
returns) the stored score is `-INFINITY` if and only if the stored track is
`NULL_TRACK`. -/
theorem score_bot_iff_null_track (h : LFHMM R) (read : List Char) (qual : Nat → Char)
    (hn : read.length ≤ 255) (i j : Nat)
    (hi : 1 ≤ i) (hi' : i ≤ read.length) (hj : 1 ≤ j) (hj' : j ≤ read.length)
    (B : Nat) (hB1 : 1 ≤ B) (hB2 : B ≤ Z) :
    ((align_loops h read qual).V B (index i j) = ⊥ ↔
      (align_loops h read qual).U B (index i j) = NULL_TRACK) ∧
    ∀ hf, align h read qual = .ok hf →
      (hf.V B (index i j) = ⊥ ↔ hf.U B (index i j) = NULL_TRACK) :=
  ⟨cell_null_iff (align_loops_cellOK h read qual hn hi hi' hj hj') hB1 hB2,
   fun _ hok => cell_null_iff
    (cellOK_sameMatrices (align_ok_sameMatrices hok)
      (align_loops_cellOK h read qual hn hi hi' hj hj')) hB1 hB2⟩

set_option maxRecDepth 100000 in
/-- C20, witness: for the motif `AT` and the read `ATATAT`, the cell `D(1,1)` stores
`-INFINITY` and `NULL_TRACK`, the cell `M(1,1)` neither. -/
theorem score_bot_iff_null_track_witness :
    ((align_loops (aligner_spec ['A', 'T']) ['A', 'T', 'A', 'T', 'A', 'T'] (fun _ => 'I')).V D
        (index 1 1) = ⊥ ↔
      (align_loops (aligner_spec ['A', 'T']) ['A', 'T', 'A', 'T', 'A', 'T'] (fun _ => 'I')).U D
        (index 1 1) = NULL_TRACK) ∧
    (align_loops (aligner_spec ['A', 'T']) ['A', 'T', 'A', 'T', 'A', 'T'] (fun _ => 'I')).U D
        (index 1 1) = NULL_TRACK ∧
    (align_loops (aligner_spec ['A', 'T']) ['A', 'T', 'A', 'T', 'A', 'T'] (fun _ => 'I')).U M
        (index 1 1) ≠ NULL_TRACK ∧
    (align_loops (aligner_spec ['A', 'T']) ['A', 'T', 'A', 'T', 'A', 'T'] (fun _ => 'I')).V M
        (index 1 1) ≠ ⊥ :=
  ⟨(score_bot_iff_null_track (aligner_spec ['A', 'T']) ['A', 'T', 'A', 'T', 'A', 'T']
      (fun _ => 'I') (by decide) 1 1 (by decide) (by decide) (by decide) (by decide) D
      (by decide) (by decide)).1,
    by decide!, by decide!, by decide!⟩

/-- A candidate whose predecessor cell stores `-INFINITY` scores `-INFINITY`. -/
theorem cand_score_pred_bot (g : LFHMM R) (A B x k m : Nat) (hV : g.V A x = ⊥) :
    cand_score g A B x k m = ⊥ := by
  unfold cand_score
  simp only [hV, WithBot.bot_add]

/-- A `Z` cell of read column 1 over the boundary of `initialize`. -/
theorem z_column_one {g : LFHMM R} {i : Nat} (hb : Boundary g) (hi : i ≤ 255)
    (hc : CellOK g i 1) : g.V Z (index i 1) = ⊥ ∧ g.U Z (index i 1) = NULL_TRACK := by
  obtain ⟨hV, hU⟩ := hc Z (by decide) (by decide)
  have hall : ∀ c ∈ candidates g Z i 1, c.1 = ⊥ := by
    intro c hcm
    unfold candidates at hcm
    obtain ⟨A, hA, rfl⟩ := List.mem_map.mp hcm
    have hA1 : 1 ≤ A := by
      simp only [sources, S, M, D, I, Z] at hA
      simp at hA
      omega
    apply cand_score_pred_bot
    have hp : pred Z i 1 = index i 0 := by simp [pred, M, D, Z]
    rw [hp]
    exact ((hb i 0 hi (by decide)).2.2 (Or.inr rfl) A hA1 (sources_le hA)).1
  rw [hV, hU, best_all_bot _ _ hall]
  exact ⟨rfl, rfl⟩

/-- C19: for an aligner built by `initialize`, in any state that earlier alignments left
it in, every `Z` cell of read column 1 stores `-INFINITY` (and `NULL_TRACK`) after the
loops of `align`; and for a read of exactly one base the scan of `trace_path` ends with
`optimal_score = -INFINITY`, `optimal_probe_len = 1` and `optimal_track = NULL_TRACK`. -/
theorem z_column_one_unreachable (h0 h : LFHMM R) (log10 : ℚ → WithBot R)
    (motif read : List Char) (qual : Nat → Char)
    (hr : Reachable (initialise h0 log10 motif) h) (hn : read.length ≤ 255) :
    (∀ i, 1 ≤ i → i ≤ read.length →
      (align_loops h read qual).V Z (index i 1) = ⊥ ∧
      (align_loops h read qual).U Z (index i 1) = NULL_TRACK) ∧
    (read.length = 1 →
      (trace_scan (align_loops h read qual)).optimal_score = ⊥ ∧
      (trace_scan (align_loops h read qual)).optimal_probe_len = 1 ∧
      (trace_scan (align_loops h read qual)).optimal_track = NULL_TRACK ∧
      (trace_scan (align_loops h read qual)).optimal_state = Z) := by
  have hb : Boundary (align_loops h read qual) :=
    align_loops_boundary ((reachable_inv hr).2 (initialise_boundary h0 log10 motif)) read qual hn
  have hcol : ∀ i, 1 ≤ i → i ≤ read.length →
      (align_loops h read qual).V Z (index i 1) = ⊥ ∧
      (align_loops h read qual).U Z (index i 1) = NULL_TRACK := by
    intro i hi hi'
    exact z_column_one hb (le_trans hi' hn)
      (align_loops_cellOK h read qual hn hi hi' (le_refl 1) (le_trans hi hi'))
  refine ⟨hcol, ?_⟩
  intro h1
  have hrl : (align_loops h read qual).rlen = 1 := by
    rw [(align_loops_sameInput h read qual hn).2.2.2.1]; exact h1
  have hpl : (align_loops h read qual).plen = 1 := by
    rw [(align_loops_sameInput h read qual hn).2.2.2.2]; exact h1
  obtain ⟨s1, s2, s3, s4, s5, s6⟩ := trace_scan_result (align_loops h read qual)
  rw [hrl] at s3 s4 s5 s6
  rw [hpl] at s2 s5 s6
  obtain ⟨c1, c2⟩ := hcol 1 (le_refl 1) (by omega)
  have hopl : (trace_scan (align_loops h read qual)).optimal_probe_len = 1 := by
    by_contra hne
    have h0' : (trace_scan (align_loops h read qual)).optimal_probe_len = 0 := by omega
    have hlt := s6 1 (le_refl 1) (by omega)
    rw [c1, s3, h0',
      ((hb 0 1 (by decide) (by decide)).2.2 (Or.inl rfl) Z (by decide) (by decide)).1] at hlt
    exact lt_irrefl _ hlt
  rw [hopl] at s3 s4
  exact ⟨s3.trans c1, hopl, s4.trans c2, s1⟩

set_option maxRecDepth 100000 in
/-- C19, witness: the motif `AT` and the one-base read `A`. -/
theorem z_column_one_unreachable_witness :
    one_base_run.V Z (index 1 1) = ⊥ ∧
    (trace_scan one_base_run).optimal_score = ⊥ ∧
    (trace_scan one_base_run).optimal_probe_len = 1 ∧
    (trace_scan one_base_run).optimal_track = NULL_TRACK := by
  have h := z_column_one_unreachable (raw pl2log10_varp_spec (moves_spec 2))
    (aligner_spec ['A', 'T']) log10Q ['A', 'T'] ['A'] (fun _ => 'I') Reachable.init
    (by decide)
  exact ⟨(h.1 1 (by decide) (by decide)).1, (h.2 rfl).1, (h.2 rfl).2.1, (h.2 rfl).2.2.1⟩

/-- The walk of `trace_path` over filled matrices, when it ends, has read its first path
entry (the one nearest the origin) from the Match cell `(1,1)`. -/
theorem walk_pure_head {h : LFHMM R} {n : Nat} (hfl : Filled h n) (room : Nat) :
    ∀ (t i j : Nat) (es : List Nat), i ≤ n → j ≤ n → 1 ≤ track_get_u t → track_get_u t ≤ Z →
      walk_pure h.U room t (i : Int) (j : Int) = .ok es →
      es.head? = some (track_set_u (h.U M (index 1 1)) M) := by
  obtain ⟨hn, hb, hw, hc⟩ := hfl
  induction room with
  | zero =>
    intro t i j es _ _ _ _ hok
    simp [walk_pure] at hok
  | succ room ih =>
    intro t i j es hi hj hu1 hu2 hok
    rw [walk_pure_step _ _ _ _ _ hu2 (le_trans hi hn) (le_trans hj hn)] at hok
    have hcell : (i = 0 ∨ j = 0) ∨ (1 ≤ i ∧ 1 ≤ j) := by omega
    rcases hcell with hbd | ⟨hi1, hj1⟩
    · have hU := ((hb i j (le_trans hi hn) (le_trans hj hn)).2.2 hbd _ hu1 hu2).2
      rw [hU] at hok
      rw [if_pos (by rw [track_get_u_boundary]; decide)] at hok
      obtain ⟨e, he⟩ := walk_pure_fault h.U room (make_track N UNMODELED 0 0)
        (walk_next (track_get_u t) i j).1 (walk_next (track_get_u t) i j).2
        (by rw [track_get_u_boundary]; decide)
      rw [he] at hok
      cases hok
    · obtain ⟨i', j', hnext, hpred, hi', hj', hM, hD, hIZ⟩ := walk_next_pred hu1 hu2 hi1 hj1
      rcases cell_track (hc i j hi1 hi hj1 hj) hw hu1 hu2 with hnull | ⟨A, hA, hAu, hAV⟩
      · rw [hnull] at hok
        rw [if_pos (by decide)] at hok
        obtain ⟨e, he⟩ := walk_pure_fault h.U room NULL_TRACK
          (walk_next (track_get_u t) i j).1 (walk_next (track_get_u t) i j).2 (by decide)
        rw [he] at hok
        cases hok
      · rw [hpred] at hAV
        by_cases hS : A = S
        · rw [hAu, hS] at hok
          rw [if_neg (by simp)] at hok
          cases hok
          rw [hS] at hAV
          have hbS := (hb i' j' (by omega) (by omega)).1
          rw [hbS] at hAV
          have h00 : i' = 0 ∧ j' = 0 := by
            by_contra hne
            rw [if_neg hne] at hAV
            exact lt_irrefl _ hAV
          have hu : track_get_u t = M := by
            simp only [M, D, I, Z] at *
            have hcases : track_get_u t = 1 ∨ track_get_u t = 2 ∨
                (track_get_u t = 3 ∨ track_get_u t = 4) := by omega
            rcases hcases with h1 | h2 | h3
            · exact h1
            · have := hD h2; omega
            · have := hIZ h3; omega
          have hij := hM hu
          have ei : i = 1 := by omega
          have ej : j = 1 := by omega
          rw [hu, ei, ej]
          rfl
        · rw [hAu] at hok
          rw [if_pos hS] at hok
          rw [hnext] at hok
          have hA1 : 1 ≤ A := Nat.one_le_iff_ne_zero.mpr hS
          have hA2 : A ≤ Z := sources_le hA
          revert hok
          cases hres : walk_pure h.U room (h.U (track_get_u t) (index i j)) (i' : Int) (j' : Int) with
          | error e => intro hok; cases hok
          | ok es' =>
            intro hok
            cases hok
            have hhd := ih (h.U (track_get_u t) (index i j)) i' j' es' (by omega) (by omega)
              (by rw [hAu]; exact hA1) (by rw [hAu]; exact hA2) hres
            cases es' with
            | nil => simp at hhd
            | cons x xs => simpa using hhd

/-- The candidates that leave the Start state, over the boundary of `initialize`. -/
theorem start_candidates_bot {g : LFHMM R} (hb : Boundary g) {i j : Nat}
    (hi : 1 ≤ i) (hi' : i ≤ 255) (hj : 1 ≤ j) (hj' : j ≤ 255) :
    cand_score g S D (index (i - 1) j) j PROBE_ONLY = ⊥ ∧
    cand_score g S I (index i (j - 1)) (j - 1) READ_ONLY = ⊥ ∧
    ((i, j) ≠ (1, 1) → cand_score g S M (index (i - 1) (j - 1)) (j - 1) MATCH = ⊥) := by
  refine ⟨?_, ?_, ?_⟩
  · apply cand_score_pred_bot
    rw [(hb (i - 1) j (by omega) hj').1, if_neg (by omega)]
  · apply cand_score_pred_bot
    rw [(hb i (j - 1) hi' (by omega)).1, if_neg (by omega)]
  · intro hne
    apply cand_score_pred_bot
    rw [(hb (i - 1) (j - 1) (by omega) (by omega)).1, if_neg]
    intro h00
    apply hne
    have e1 : i = 1 := by omega
    have e2 : j = 1 := by omega
    rw [e1, e2]

/-- The path that a successful `trace_path` leaves over filled matrices begins with the
entry of the Match cell `(1,1)`. -/
theorem trace_path_head {g hf : LFHMM R} {n : Nat} (hfl : Filled g n) (hr : g.rlen = n)
    (hp : g.plen = n) (hm : g.mlen + 1 < 2 ^ 24) (hok : trace_path g = .ok hf) :
    (path_entries hf).head? = some (track_set_u (g.U M (index 1 1)) M) := by
  obtain ⟨s1, s2, _, _, _, _⟩ := trace_scan_result g
  have key := trace_path_pure g
  have hseed : track_get_u (make_track (trace_scan g).optimal_state MOTIF 0 (g.mlen + 1)) = Z := by
    rw [s1]; exact track_get_u_seed Z _ (by decide) hm
  revert key
  cases hres : walk_pure g.U (MAXLEN <<< 2)
      (make_track (trace_scan g).optimal_state MOTIF 0 (g.mlen + 1))
      (trace_scan g).optimal_probe_len g.rlen with
  | error e =>
    intro key
    rw [hok] at key
    cases key
  | ok es =>
    intro key
    obtain ⟨hf', k1, k2, _⟩ := key
    rw [hok] at k1
    cases k1
    rw [k2]
    exact walk_pure_head hfl (MAXLEN <<< 2) _ (trace_scan g).optimal_probe_len g.rlen es
      (by rw [← hp]; exact s2) (le_of_eq hr) (by rw [hseed]; decide) (le_of_eq hseed) hres

/-- C18: for an aligner built by `initialize`, in any state that earlier alignments left
it in, and a read of length `n ≤ 255`: in every cell `(i,j)`, `1 ≤ i, j ≤ n`, the
candidates `S → D` and `S → I` score `-INFINITY`, and so does `S → M` unless the cell is
`(1,1)`; the stored score and track are the best of the other candidates alone. Over a
well-tagged move table every path that `align` returns begins with the entry of the
Match cell `(1,1)`. -/
theorem start_edges_only_at_origin (h0 h : LFHMM R) (log10 : ℚ → WithBot R)
    (motif read : List Char) (qual : Nat → Char)
    (hr : Reachable (initialise h0 log10 motif) h) (hn : read.length ≤ 255) (i j : Nat)
    (hi : 1 ≤ i) (hi' : i ≤ read.length) (hj : 1 ≤ j) (hj' : j ≤ read.length) :
    cand_score (align_loops h read qual) S D (index (i - 1) j) j PROBE_ONLY = ⊥ ∧
    cand_score (align_loops h read qual) S I (index i (j - 1)) (j - 1) READ_ONLY = ⊥ ∧
    ((i, j) ≠ (1, 1) →
      cand_score (align_loops h read qual) S M (index (i - 1) (j - 1)) (j - 1) MATCH = ⊥) ∧
    ((align_loops h read qual).V D (index i j), (align_loops h read qual).U D (index i j)) =
      best ((candidates (align_loops h read qual) D i j).drop 1) (⊥, NULL_TRACK) ∧
    ((align_loops h read qual).V I (index i j), (align_loops h read qual).U I (index i j)) =
      best ((candidates (align_loops h read qual) I i j).drop 1) (⊥, NULL_TRACK) ∧
    ((i, j) ≠ (1, 1) →
      ((align_loops h read qual).V M (index i j), (align_loops h read qual).U M (index i j)) =
        best ((candidates (align_loops h read qual) M i j).drop 1) (⊥, NULL_TRACK)) ∧
    (WellTagged h0.moves → motif.length + 1 < 2 ^ 24 →
      ∀ hf, align h read qual = .ok hf →
        (path_entries hf).head? = some (track_set_u (hf.U M (index 1 1)) M) ∧
        (path_entries hf).head?.map track_get_u = some M) := by
  have hb : Boundary (align_loops h read qual) :=
    align_loops_boundary ((reachable_inv hr).2 (initialise_boundary h0 log10 motif)) read qual hn
  obtain ⟨a1, a2, a3⟩ := start_candidates_bot hb hi (le_trans hi' hn) hj (le_trans hj' hn)
  have hc := align_loops_cellOK h read qual hn hi hi' hj hj'
  refine ⟨a1, a2, a3, ?_, ?_, ?_, ?_⟩
  · obtain ⟨hV, hU⟩ := hc D (by decide) (by decide)
    rw [hV, hU]
    have hsplit : candidates (align_loops h read qual) D i j =
        (cand_score (align_loops h read qual) S D (index (i - 1) j) j PROBE_ONLY,
          cand_track (align_loops h read qual) S D (index (i - 1) j) j) ::
        (candidates (align_loops h read qual) D i j).drop 1 := rfl
    rw [hsplit, best_cons_bot _ _ _ a1]
    rfl
  · obtain ⟨hV, hU⟩ := hc I (by decide) (by decide)
    rw [hV, hU]
    have hsplit : candidates (align_loops h read qual) I i j =
        (cand_score (align_loops h read qual) S I (index i (j - 1)) (j - 1) READ_ONLY,
          cand_track (align_loops h read qual) S I (index i (j - 1)) (j - 1)) ::
        (candidates (align_loops h read qual) I i j).drop 1 := rfl
    rw [hsplit, best_cons_bot _ _ _ a2]
    rfl
  · intro hne
    obtain ⟨hV, hU⟩ := hc M (by decide) (by decide)
    rw [hV, hU]
    have hsplit : candidates (align_loops h read qual) M i j =
        (cand_score (align_loops h read qual) S M (index (i - 1) (j - 1)) (j - 1) MATCH,
          cand_track (align_loops h read qual) S M (index (i - 1) (j - 1)) (j - 1)) ::
        (candidates (align_loops h read qual) M i j).drop 1 := rfl
    rw [hsplit, best_cons_bot _ _ _ (a3 hne)]
    rfl
  · intro hw hm hf hok
    have hhd := trace_path_head (filled_align_loops hw hr read qual hn)
      (align_fill_inv (align_prep h read qual) hn).1.2.2.2.1
      (align_fill_inv (align_prep h read qual) hn).1.2.2.2.2
      (by rw [align_loops_mlen hr read qual hn]; exact hm) (align_ok hok).2
    rw [(align_ok_sameMatrices hok).2.1]
    refine ⟨hhd, ?_⟩
    rw [hhd]
    show some (track_get_u (track_set_u _ M)) = some M
    rw [track_get_u_set_u _ M (by decide)]

set_option maxRecDepth 100000 in
/-- C18, witness: the cell `(2,2)` of the motif `AT` and the read `ATATAT`, and the first
entry of its path. -/
theorem start_edges_only_at_origin_witness :
    cand_score (align_loops (aligner_spec ['A', 'T']) ['A', 'T', 'A', 'T', 'A', 'T']
      (fun _ => 'I')) S M (index 1 1) 1 MATCH = ⊥ ∧
    ∃ hf, wrap_run = .ok hf ∧ (path_entries hf).head?.map track_get_u = some M := by
  have h := start_edges_only_at_origin (raw pl2log10_varp_spec (moves_spec 2))
    (aligner_spec ['A', 'T']) log10Q ['A', 'T'] ['A', 'T', 'A', 'T', 'A', 'T'] (fun _ => 'I')
    Reachable.init (by decide) 2 2 (by decide) (by decide) (by decide) (by decide)
  obtain ⟨hf, hok⟩ := ok_of_fault_of (show fault_of wrap_run = none by decide!)
  exact ⟨h.2.2.1 (by decide), hf, hok,
    (h.2.2.2.2.2.2 (moves_spec_wellTagged 2) (by decide) hf hok).2⟩

/-- The entries of the pure walk are the entries of the visited cells, reversed. -/
theorem walk_pure_cells (U : Nat → Nat → Nat) (room : Nat) :
    ∀ (t : Nat) (i j : Int),
      match walk_cells U room t i j with
      | .error e => walk_pure U room t i j = .error e
      | .ok cs => walk_pure U room t i j = .ok (cs.reverse.map (entry_of U)) ∧
          cs.head? = some (track_get_u t, i, j) ∧ (∀ c ∈ cs, c.1 ≤ Z) ∧ cs.length ≤ room := by
  induction room with
  | zero => intro t i j; simp [walk_cells, walk_pure]
  | succ room ih =>
    intro t i j
    rw [walk_cells, walk_pure]
    by_cases hv : track_get_u t ≤ Z ∧ 0 ≤ index32 i j ∧
        index32 i j < (MAXLEN : Int) * (MAXLEN : Int)
    · rw [if_pos hv, if_pos hv]
      by_cases hs : track_get_u (U (track_get_u t) (index32 i j).toNat) ≠ S
      · rw [if_pos hs, if_pos hs]
        have := ih (U (track_get_u t) (index32 i j).toNat)
          (walk_next (track_get_u t) i j).1 (walk_next (track_get_u t) i j).2
        revert this
        cases walk_cells U room (U (track_get_u t) (index32 i j).toNat)
            (walk_next (track_get_u t) i j).1 (walk_next (track_get_u t) i j).2 with
        | error e =>
          intro this
          simp only at this ⊢
          rw [this]
        | ok cs =>
          intro this
          simp only at this ⊢
          obtain ⟨k1, _, k3, k4⟩ := this
          rw [k1]
          refine ⟨?_, rfl, ?_, ?_⟩
          · simp [entry_of]
          · intro c hc
            rcases List.mem_cons.mp hc with rfl | hc
            · exact hv.1
            · exact k3 c hc
          · simp only [List.length_cons]; omega
      · rw [if_neg hs, if_neg hs]
        refine ⟨?_, rfl, ?_, ?_⟩
        · simp [entry_of]
        · intro c hc
          rcases List.mem_cons.mp hc with rfl | hc
          · exact hv.1
          · cases hc
        · simp
    · rw [if_neg hv, if_neg hv]

theorem track_get_u_entry_of (U : Nat → Nat → Nat) (c : Nat × Int × Int) (hc : c.1 ≤ Z) :
    track_get_u (entry_of U c) = c.1 :=
  track_get_u_set_u _ _ (lt_of_le_of_lt hc (by decide))

/-- C17: after `trace_path` has returned, the valid part of the 1024-entry path buffer
is its trailing `optimal_path_len` entries: `optimal_path_ptr` is at offset
`1024 - optimal_path_len`, and the entries from there to the end are the tracks of the
visited cells in path order (the walk visits the end cell first and writes it last in
the buffer), each with its state field overwritten by the state of the cell it was read
from; the last entry has state `Z` (motif shorter than `2^24`). -/
theorem trace_path_buffer (h hf : LFHMM R) (hm : h.mlen + 1 < 2 ^ 24)
    (hok : trace_path h = .ok hf) :
    hf.optimal_path_ptr = (1024 : Int) - hf.optimal_path_len ∧
    hf.optimal_path_len ≤ 1024 ∧
    path_entries hf = tail_entries hf (1024 - hf.optimal_path_len) ∧
    (path_entries hf).length = hf.optimal_path_len ∧
    ∃ cells, walk_cells h.U 1024 (make_track Z MOTIF 0 (h.mlen + 1))
        (trace_scan h).optimal_probe_len h.rlen = .ok cells ∧
      cells.head? = some (Z, ((trace_scan h).optimal_probe_len : Int), (h.rlen : Int)) ∧
      path_entries hf = cells.reverse.map (entry_of hf.U) ∧
      (path_entries hf).map track_get_u = cells.reverse.map (fun c => c.1) ∧
      (path_entries hf).getLast?.map track_get_u = some Z := by
  obtain ⟨s1, _, _, _, _, _⟩ := trace_scan_result h
  have hseed : track_get_u (make_track Z MOTIF 0 (h.mlen + 1)) = Z :=
    track_get_u_seed Z _ (by decide) hm
  have hU : hf.U = h.U := (trace_path_frame h hf hok).1.2.1
  have key := trace_path_pure h
  rw [s1] at key
  have kc := walk_pure_cells h.U (MAXLEN <<< 2) (make_track Z MOTIF 0 (h.mlen + 1))
    (trace_scan h).optimal_probe_len h.rlen
  revert key kc
  cases hres : walk_pure h.U (MAXLEN <<< 2) (make_track Z MOTIF 0 (h.mlen + 1))
      (trace_scan h).optimal_probe_len h.rlen with
  | error e =>
    intro key _
    rw [hok] at key
    cases key
  | ok es =>
    intro key kc
    obtain ⟨hf', k1, k2, k3, k4, k5⟩ := key
    rw [hok] at k1
    cases k1
    revert kc
    cases hcs : walk_cells h.U (MAXLEN <<< 2) (make_track Z MOTIF 0 (h.mlen + 1))
        (trace_scan h).optimal_probe_len h.rlen with
    | error e => intro kc; cases kc
    | ok cs =>
      intro kc
      obtain ⟨c1, c2, c3, _⟩ := kc
      cases c1
      rw [hseed] at c2
      have hmap : (path_entries hf).map track_get_u = cs.reverse.map (fun c => c.1) := by
        rw [k2, List.map_map]
        apply List.map_congr_left
        intro c hc
        exact track_get_u_entry_of h.U c (c3 c (List.mem_reverse.mp hc))
      have hptr : hf.optimal_path_ptr = (1024 : Int) - hf.optimal_path_len := by
        rw [k4, k3]; rfl
      refine ⟨hptr, by rw [k3]; exact k5, ?_, by rw [k2, k3], cs, rfl, c2, ?_, hmap, ?_⟩
      · rw [path_entries_eq, hptr]
        congr 1
        have : hf.optimal_path_len ≤ 1024 := by rw [k3]; exact k5
        omega
      · rw [k2, hU]
      · have hl : (path_entries hf).getLast?.map track_get_u =
            ((path_entries hf).map track_get_u).getLast? := by
          simp [List.getLast?_map]
        rw [hl, hmap, List.getLast?_map, List.getLast?_reverse, c2]
        rfl

set_option maxRecDepth 100000 in
/-- C17, witness: the run of `trace_path` after the loops of `align` for the motif `AT`
and the read `ATATAT`: six entries, at the offsets 1018 to 1023. -/
theorem trace_path_buffer_witness :
    ∃ hf, trace_path (align_loops (aligner_spec ['A', 'T']) ['A', 'T', 'A', 'T', 'A', 'T']
        (fun _ => 'I')) = .ok hf ∧
      hf.optimal_path_ptr = (1024 : Int) - hf.optimal_path_len ∧
      (path_entries hf).length = hf.optimal_path_len ∧
      (path_entries hf).getLast?.map track_get_u = some Z := by
  obtain ⟨hf, hok⟩ := ok_of_fault_of
    (show fault_of (trace_path (align_loops (aligner_spec ['A', 'T'])
      ['A', 'T', 'A', 'T', 'A', 'T'] (fun _ => 'I'))) = none by decide!)
  have h := trace_path_buffer _ hf (by decide!) hok
  obtain ⟨h1, _, _, h4, _, _, _, _, _, h9⟩ := h
  exact ⟨hf, hok, h1, h4, h9⟩

/-- One iteration of the walk of `trace_path`, as a list of visited cells, at a cell of
the allocation. -/
theorem walk_cells_step (U : Nat → Nat → Nat) (room t i j : Nat)
    (hu : track_get_u t ≤ Z) (hi : i ≤ 255) (hj : j ≤ 255) :
    walk_cells U (room + 1) t (i : Int) (j : Int) =
      if track_get_u (U (track_get_u t) (index i j)) ≠ S then
        match walk_cells U room (U (track_get_u t) (index i j))
            (walk_next (track_get_u t) i j).1 (walk_next (track_get_u t) i j).2 with
        | .ok cs => .ok ((track_get_u t, (i : Int), (j : Int)) :: cs)
        | .error e => .error e
      else .ok [(track_get_u t, (i : Int), (j : Int))] := by
  rw [walk_cells]
  have hr := index32_range hi hj
  rw [if_pos ⟨hu, hr.1, by exact_mod_cast hr.2⟩]
  have e : (index32 (i : Int) (j : Int)).toNat = index i j := by
    rw [index32_eq]; exact Int.toNat_natCast _
  rw [e]
  try rfl

/-- The walk of `trace_path` over filled matrices, started at a cell `(i,j)` of the window
whose score in the state of the seed track is finite: it ends without a fault, after at
most `i + j - 1` iterations; every cell it visits lies in `1 ≤ i', j'`, has a state of
`M..Z` and a finite score; the last cell is the Match cell `(1,1)`, and the step from no
earlier cell lands on the origin. -/
theorem walk_cells_total {h : LFHMM R} {n : Nat} (hfl : Filled h n) (room : Nat) :
    ∀ (t i j : Nat), i ≤ n → j ≤ n → 1 ≤ track_get_u t → track_get_u t ≤ Z →
      ⊥ < h.V (track_get_u t) (index i j) → i + j ≤ room + 1 →
      ∃ front, walk_cells h.U room t (i : Int) (j : Int) = .ok (front ++ [(M, 1, 1)]) ∧
        front.length + 2 ≤ i + j ∧
        (∀ c ∈ front ++ [(M, (1 : Int), (1 : Int))],
          1 ≤ c.2.1 ∧ c.2.1 ≤ (i : Int) ∧ 1 ≤ c.2.2 ∧ c.2.2 ≤ (j : Int) ∧ 1 ≤ c.1 ∧ c.1 ≤ Z ∧
            ⊥ < h.V c.1 (index32 c.2.1 c.2.2).toNat) ∧
        (∀ c ∈ front, walk_next c.1 c.2.1 c.2.2 ≠ (0, 0)) := by
  obtain ⟨hn, hb, hw, hc⟩ := hfl
  have hbd : ∀ (u i j : Nat), i ≤ n → j ≤ n → 1 ≤ u → u ≤ Z → ⊥ < h.V u (index i j) →
      1 ≤ i ∧ 1 ≤ j := by
    intro u i j hi hj hu1 hu2 hV
    by_contra hne
    have h0 : i = 0 ∨ j = 0 := by omega
    have hU := ((hb i j (le_trans hi hn) (le_trans hj hn)).2.2 h0 _ hu1 hu2).1
    rw [hU] at hV
    exact lt_irrefl _ hV
  induction room with
  | zero =>
    intro t i j hi hj hu1 hu2 hV hroom
    have := hbd _ i j hi hj hu1 hu2 hV
    omega
  | succ room ih =>
    intro t i j hi hj hu1 hu2 hV hroom
    obtain ⟨hi1, hj1⟩ := hbd _ i j hi hj hu1 hu2 hV
    rw [walk_cells_step _ _ _ _ _ hu2 (le_trans hi hn) (le_trans hj hn)]
    have e : (index32 (i : Int) (j : Int)).toNat = index i j := by
      rw [index32_eq]; exact Int.toNat_natCast _
    have hhead : 1 ≤ ((i : Int)) ∧ (i : Int) ≤ (i : Int) ∧ 1 ≤ (j : Int) ∧
        (j : Int) ≤ (j : Int) ∧ 1 ≤ track_get_u t ∧ track_get_u t ≤ Z ∧
        ⊥ < h.V (track_get_u t) (index32 (i : Int) (j : Int)).toNat := by
      refine ⟨by exact_mod_cast hi1, le_refl _, by exact_mod_cast hj1, le_refl _, hu1, hu2, ?_⟩
      rw [e]; exact hV
    obtain ⟨i', j', hnext, hpred, hi', hj', hM, hD, hIZ⟩ := walk_next_pred hu1 hu2 hi1 hj1
    rcases cell_track (hc i j hi1 hi hj1 hj) hw hu1 hu2 with hnull | ⟨A, hA, hAu, hAV⟩
    · have := (cell_null_iff (hc i j hi1 hi hj1 hj) hu1 hu2).mpr hnull
      rw [this] at hV
      exact absurd hV (lt_irrefl _)
    · rw [hpred] at hAV
      by_cases hS : A = S
      · rw [hAu, hS, if_neg (by simp)]
        rw [hS] at hAV
        have hbS := (hb i' j' (by omega) (by omega)).1
        rw [hbS] at hAV
        have h00 : i' = 0 ∧ j' = 0 := by
          by_contra hne
          rw [if_neg hne] at hAV
          exact lt_irrefl _ hAV
        have hu : track_get_u t = M := by
          simp only [M, D, I, Z] at *
          have hcases : track_get_u t = 1 ∨ track_get_u t = 2 ∨
              (track_get_u t = 3 ∨ track_get_u t = 4) := by omega
          rcases hcases with h1 | h2 | h3
          · exact h1
          · have := hD h2; omega
          · have := hIZ h3; omega
        have hij := hM hu
        have ei : i = 1 := by omega
        have ej : j = 1 := by omega
        refine ⟨[], ?_, ?_, ?_, ?_⟩
        · rw [hu, ei, ej]; rfl
        · simp; omega
        · intro c hc'
          simp only [List.nil_append, List.mem_singleton] at hc'
          have hc'' : c = (track_get_u t, (i : Int), (j : Int)) := by
            rw [hc', hu, ei, ej]; rfl
          rw [hc'']
          exact hhead
        · intro c hc'
          cases hc'
      · rw [hAu, if_pos hS, hnext]
        have hA1 : 1 ≤ A := Nat.one_le_iff_ne_zero.mpr hS
        have hA2 : A ≤ Z := sources_le hA
        have hp1 := hbd A i' j' (by omega) (by omega) hA1 hA2 hAV
        have hsum : i' + j' + 1 ≤ i + j := by
          simp only [M, D, I, Z] at *
          have hcases : track_get_u t = 1 ∨ track_get_u t = 2 ∨
              (track_get_u t = 3 ∨ track_get_u t = 4) := by omega
          rcases hcases with h1 | h2 | h3
          · have := hM h1; omega
          · have := hD h2; omega
          · have := hIZ h3; omega
        obtain ⟨front, hres, hlen, hcells, hsteps⟩ :=
          ih (h.U (track_get_u t) (index i j)) i' j' (by omega) (by omega)
            (by rw [hAu]; exact hA1) (by rw [hAu]; exact hA2) (by rw [hAu]; exact hAV)
            (by omega)
        refine ⟨(track_get_u t, (i : Int), (j : Int)) :: front, ?_, ?_, ?_, ?_⟩
        · show (match walk_cells h.U room (h.U (track_get_u t) (index i j))
              ((i' : Int), (j' : Int)).1 ((i' : Int), (j' : Int)).2 with
            | .ok cs => Except.ok ((track_get_u t, (i : Int), (j : Int)) :: cs)
            | .error e => Except.error e) = _
          rw [hres]
          rfl
        · simp only [List.length_cons]; omega
        · intro c hc'
          rw [List.cons_append] at hc'
          rcases List.mem_cons.mp hc' with rfl | hc'
          · exact hhead
          · obtain ⟨c1, c2, c3, c4, c5⟩ := hcells c hc'
            have e1 : (i' : Int) ≤ (i : Int) := by exact_mod_cast hi'
            have e2 : (j' : Int) ≤ (j : Int) := by exact_mod_cast hj'
            exact ⟨c1, le_trans c2 e1, c3, le_trans c4 e2, c5⟩
        · intro c hc'
          rcases List.mem_cons.mp hc' with rfl | hc'
          · show walk_next (track_get_u t) (i : Int) (j : Int) ≠ (0, 0)
            rw [hnext]
            intro h0
            have h1 := (Prod.mk.inj h0).1
            have h1' : i' = 0 := by exact_mod_cast h1
            omega
          · exact hsteps c hc'
/-- The run of `trace_path` over filled matrices whose scan finds a finite score: it returns,
and the cells of its walk are those of `walk_cells_total`. -/
theorem trace_path_total {g : LFHMM R} {n : Nat} (hfl : Filled g n) (hr : g.rlen = n)
    (hp : g.plen = n) (hm : g.mlen + 1 < 2 ^ 24)
    (hopt : ⊥ < (trace_scan g).optimal_score) :
    ∃ hf front, trace_path g = .ok hf ∧
      walk_cells g.U (MAXLEN <<< 2) (make_track Z MOTIF 0 (g.mlen + 1))
        (trace_scan g).optimal_probe_len n = .ok (front ++ [(M, 1, 1)]) ∧
      front.length + 2 ≤ (trace_scan g).optimal_probe_len + n ∧
      (∀ c ∈ front ++ [(M, (1 : Int), (1 : Int))],
        1 ≤ c.2.1 ∧ c.2.1 ≤ (n : Int) ∧ 1 ≤ c.2.2 ∧ c.2.2 ≤ (n : Int) ∧ 1 ≤ c.1 ∧ c.1 ≤ Z ∧
          ⊥ < g.V c.1 (index32 c.2.1 c.2.2).toNat) ∧
      (∀ c ∈ front, walk_next c.1 c.2.1 c.2.2 ≠ (0, 0)) ∧
      hf.optimal_path_len = front.length + 1 ∧
      hf.optimal_path_ptr = (1024 : Int) - (front.length + 1 : Nat) := by
  obtain ⟨s1, s2, s3, _, _, _⟩ := trace_scan_result g
  have hseed : track_get_u (make_track Z MOTIF 0 (g.mlen + 1)) = Z :=
    track_get_u_seed Z _ (by decide) hm
  have hn : n ≤ 255 := hfl.1
  rw [hp] at s2
  rw [hr] at s3
  obtain ⟨front, hres, hlen, hcells, hsteps⟩ :=
    walk_cells_total hfl (MAXLEN <<< 2) (make_track Z MOTIF 0 (g.mlen + 1))
      (trace_scan g).optimal_probe_len n s2 (le_refl _) (by rw [hseed]; decide)
      (le_of_eq hseed) (by rw [hseed, ← s3]; exact hopt)
      (by
        have : MAXLEN <<< 2 = 1024 := by decide
        omega)
  have kc := walk_pure_cells g.U (MAXLEN <<< 2) (make_track Z MOTIF 0 (g.mlen + 1))
    (trace_scan g).optimal_probe_len n
  rw [hres] at kc
  have key := trace_path_pure g
  rw [s1, hr, kc.1] at key
  obtain ⟨hf, k1, _, k3, k4, _⟩ := key
  refine ⟨hf, front, k1, hres, hlen, ?_, hsteps, ?_, ?_⟩
  · intro c hc
    obtain ⟨c1, c2, c3, c4, c5⟩ := hcells c hc
    exact ⟨c1, le_trans c2 (by exact_mod_cast s2), c3, c4, c5⟩
  · rw [k3]; simp
  · rw [k4]; simp
    rfl

/-- C21: termination of the traceback. For an aligner built by `initialize` over a
well-tagged move table (motif shorter than `2^24`), in any state that earlier alignments
left it in, and a read of length `n ≤ 255`: when the score that the scan of `trace_path`
finds is above `-INFINITY`, `align` returns, its `trace_path` having ended without a
fault; every cell the walk visits has `1 ≤ i, j ≤ n`, a state of `M..Z` and a finite
score; the last cell visited is the Match cell `(1,1)`, whose step lands on the origin
`(0,0)`, and the step from no earlier cell does; and
`optimal_path_len ≤ plen + rlen ≤ 510`, with `optimal_path_ptr` left inside the
1024-entry buffer. -/
theorem trace_path_terminates (h0 h : LFHMM R) (log10 : ℚ → WithBot R)
    (motif read : List Char) (qual : Nat → Char)
    (hw : WellTagged h0.moves) (hm : motif.length + 1 < 2 ^ 24)
    (hr : Reachable (initialise h0 log10 motif) h) (hn : read.length ≤ 255)
    (hopt : ⊥ < (trace_scan (align_loops h read qual)).optimal_score) :
    ∃ hf front, align h read qual = .ok hf ∧
      trace_path (align_loops h read qual) = .ok hf ∧
      walk_cells hf.U 1024 (make_track Z MOTIF 0 (hf.mlen + 1))
        hf.optimal_probe_len hf.rlen = .ok (front ++ [(M, 1, 1)]) ∧
      (∀ c ∈ front ++ [(M, (1 : Int), (1 : Int))],
        0 ≤ c.2.1 ∧ 1 ≤ c.2.1 ∧ c.2.1 ≤ (read.length : Int) ∧
        0 ≤ c.2.2 ∧ 1 ≤ c.2.2 ∧ c.2.2 ≤ (read.length : Int) ∧ 1 ≤ c.1 ∧ c.1 ≤ Z ∧
          ⊥ < hf.V c.1 (index32 c.2.1 c.2.2).toNat) ∧
      (∀ c ∈ front, walk_next c.1 c.2.1 c.2.2 ≠ (0, 0)) ∧
      walk_next M 1 1 = (0, 0) ∧
      hf.optimal_path_len = front.length + 1 ∧
      hf.optimal_path_len ≤ hf.plen + hf.rlen ∧ hf.plen + hf.rlen ≤ 510 ∧
      hf.optimal_path_len ≤ 1024 ∧
      hf.optimal_path_ptr = (1024 : Int) - hf.optimal_path_len ∧ 0 ≤ hf.optimal_path_ptr := by
  have hinv := align_fill_inv (align_prep h read qual) hn
  have hrl : (align_loops h read qual).rlen = read.length := hinv.1.2.2.2.1
  have hpl : (align_loops h read qual).plen = read.length := hinv.1.2.2.2.2
  obtain ⟨hf, front, hok, hres, hlen, hcells, hsteps, hpl', hptr⟩ :=
    trace_path_total (filled_align_loops hw hr read qual hn) hrl hpl
      (by rw [align_loops_mlen hr read qual hn]; exact hm) hopt
  obtain ⟨s1, s2, _, _, _, _⟩ := trace_scan_result (align_loops h read qual)
  rw [hpl] at s2
  obtain ⟨⟨fV, fU, fI⟩, fO⟩ := trace_path_frame _ _ hok
  have hal : align h read qual = .ok hf := by
    rw [align_eq, if_neg (by simp only [MAXLEN]; omega), if_neg]
    · exact hok
    · intro hc
      exact absurd (index_lt hn hn) (not_lt.mpr hc.2)
  have e1 : hf.rlen = read.length := by rw [fI.2.2.2.1, hrl]
  have e2 : hf.plen = read.length := by rw [fI.2.2.2.2, hpl]
  have e3 : hf.mlen = (align_loops h read qual).mlen := fI.1.2.2.2.1
  have e4 : hf.optimal_probe_len = (trace_scan (align_loops h read qual)).optimal_probe_len :=
    fO.2.2.2
  refine ⟨hf, front, hal, hok, ?_, ?_, hsteps, by decide, hpl', ?_, ?_, ?_, ?_, ?_⟩
  · rw [fU, e1, e3, e4]
    exact hres
  · intro c hc
    obtain ⟨c1, c2, c3, c4, c5, c6, c7⟩ := hcells c hc
    rw [fV]
    exact ⟨by omega, c1, c2, by omega, c3, c4, c5, c6, c7⟩
  · rw [hpl', e1, e2]; omega
  · rw [e1, e2]; omega
  · rw [hpl']; omega
  · rw [hptr, hpl']
  · rw [hptr]; omega
set_option maxRecDepth 100000 in
/-- C21, witness: the motif `AT` and the read `AT` of uniform quality 40; the scan finds a
finite score and `align` returns a path of at most `plen + rlen = 4` entries. -/
theorem trace_path_terminates_witness :
    ∃ (hf : LFHMM LogQ) (front : List (Nat × Int × Int)), align (aligner_spec ['A', 'T']) ['A', 'T'] (fun _ => 'I') = .ok hf ∧
      hf.optimal_path_len = front.length + 1 ∧
      hf.optimal_path_len ≤ hf.plen + hf.rlen ∧ hf.plen + hf.rlen ≤ 510 := by
  obtain ⟨hf, front, h1, _, _, _, _, _, h7, h8, h9, _⟩ :=
    trace_path_terminates (raw pl2log10_varp_spec (moves_spec 2)) (aligner_spec ['A', 'T'])
      log10Q ['A', 'T'] ['A', 'T'] (fun _ => 'I') (moves_spec_wellTagged 2) (by decide)
      Reachable.init (by decide)
      (show ⊥ < (trace_scan (align_loops (aligner_spec ['A', 'T']) ['A', 'T']
        (fun _ => 'I'))).optimal_score by decide!)
  exact ⟨hf, front, h1, h7, h8, h9⟩

/-- The frame of the loops of `align`: an entry of the matrices that is not an entry of
state `M..Z` at a cell `(i,j)`, `1 ≤ i, j ≤ n`, keeps its value. -/
theorem align_loops_frame (h : LFHMM R) (read : List Char) (qual : Nat → Char)
    (hn : read.length ≤ 255) (s x : Nat)
    (hx : ¬ ∃ i j, 1 ≤ i ∧ i ≤ read.length ∧ 1 ≤ j ∧ j ≤ read.length ∧ 1 ≤ s ∧ s ≤ Z ∧
      x = index i j) :
    (align_loops h read qual).V s x = h.V s x ∧ (align_loops h read qual).U s x = h.U s x := by
  have hinv := (align_fill_inv (align_prep h read qual) hn).2.2 s x
  apply hinv
  rintro ⟨i, j, hi, hj, hj', hrow, hs, hs', rfl⟩
  apply hx
  refine ⟨i, j, hi, ?_, hj, hj', hs, hs', rfl⟩
  have hp : (align_prep h read qual).plen = read.length := rfl
  rw [hp] at hrow
  omega

/-- C22: the frame of `align`. For a read of length `n ≤ 255`, the loops of `align` (and
every object that `align` returns) leave the transition table `T` as it was, and leave
every entry of the score and track matrices as it was unless it is an entry of a state
`M..Z` at a cell `(i,j)` with `1 ≤ i, j ≤ n`: so the whole of `V[S]` and `U[S]`, every
allocated cell with `i = 0` or `j = 0` of every state, and every allocated cell with
`i > n` or `j > n` of every state are unchanged. -/
theorem align_frame (h : LFHMM R) (read : List Char) (qual : Nat → Char)
    (hn : read.length ≤ 255) :
    (align_loops h read qual).T = h.T ∧
    (∀ s x, (¬ ∃ i j, 1 ≤ i ∧ i ≤ read.length ∧ 1 ≤ j ∧ j ≤ read.length ∧ 1 ≤ s ∧ s ≤ Z ∧
        x = index i j) →
      (align_loops h read qual).V s x = h.V s x ∧
      (align_loops h read qual).U s x = h.U s x) ∧
    (∀ x, (align_loops h read qual).V S x = h.V S x ∧
      (align_loops h read qual).U S x = h.U S x) ∧
    (∀ s i j, i ≤ 255 → j ≤ 255 → (i = 0 ∨ j = 0) →
      (align_loops h read qual).V s (index i j) = h.V s (index i j) ∧
      (align_loops h read qual).U s (index i j) = h.U s (index i j)) ∧
    (∀ s i j, i ≤ 255 → j ≤ 255 → (read.length < i ∨ read.length < j) →
      (align_loops h read qual).V s (index i j) = h.V s (index i j) ∧
      (align_loops h read qual).U s (index i j) = h.U s (index i j)) ∧
    (∀ hf, align h read qual = .ok hf →
      hf.T = h.T ∧ hf.V = (align_loops h read qual).V ∧
      hf.U = (align_loops h read qual).U) := by
  refine ⟨(align_loops_sameModel h read qual hn).2.2.2.2,
    fun s x hx => align_loops_frame h read qual hn s x hx, ?_, ?_, ?_, ?_⟩
  · intro x
    apply align_loops_frame h read qual hn
    rintro ⟨i, j, _, _, _, _, hs, _, _⟩
    simp only [S] at hs
    omega
  · intro s i j hi hj h0
    apply align_loops_frame h read qual hn
    rintro ⟨i', j', hi1, _, hj1, hj2, _, _, e⟩
    have := index_inj hj (le_trans hj2 hn) e
    omega
  · intro s i j hi hj hout
    apply align_loops_frame h read qual hn
    rintro ⟨i', j', _, hi2, _, hj2, _, _, e⟩
    have := index_inj hj (le_trans hj2 hn) e
    omega
  · intro hf hok
    obtain ⟨fV, fU, fI⟩ := align_ok_sameMatrices hok
    refine ⟨?_, fV, fU⟩
    rw [fI.1.2.2.2.2]
    exact (align_loops_sameModel h read qual hn).2.2.2.2

/-- C22, witness: the motif `AT` and the read `A`: the Start matrices, the boundary cells
and the cells outside `1 ≤ i, j ≤ 1` keep the values that `initialize` gave them. -/
theorem align_frame_witness :
    (align_loops (aligner_spec ['A', 'T']) ['A'] (fun _ => 'I')).T =
      (aligner_spec ['A', 'T']).T ∧
    (∀ x, (align_loops (aligner_spec ['A', 'T']) ['A'] (fun _ => 'I')).V S x =
      (aligner_spec ['A', 'T']).V S x) ∧
    (align_loops (aligner_spec ['A', 'T']) ['A'] (fun _ => 'I')).V M (index 2 1) =
      (aligner_spec ['A', 'T']).V M (index 2 1) := by
  obtain ⟨h1, _, h3, _, h5, _⟩ :=
    align_frame (aligner_spec ['A', 'T']) ['A'] (fun _ => 'I') (by decide)
  exact ⟨h1, fun x => (h3 x).1, (h5 M 2 1 (by decide) (by decide) (Or.inl (by decide))).1⟩

end LFHMM

/-! ## The ordered region overlap matcher: facts -/

namespace OrderedRegionOverlapMatcher

/-- The loop over the buffer drops the leading records that end before `start1`, and
sets `overlaps` from the first record left. -/
theorem scan_buffer_eq (start1 end1 : Int) (buffer : List BEDRecord) :
    scan_buffer start1 end1 buffer =
      (buffer.dropWhile (fun r => decide (r.end1 < start1)),
        match buffer.dropWhile (fun r => decide (r.end1 < start1)) with
        | [] => false
        | r :: _ => decide (r.start1 ≤ end1)) := by
  induction buffer with
  | nil => rfl
  | cons r rest ih =>
    rw [scan_buffer]
    by_cases h1 : r.end1 < start1
    · rw [if_pos h1, ih]
      simp [List.dropWhile_cons, h1]
    · rw [if_neg h1]
      by_cases h2 : r.start1 ≤ end1
      · rw [if_pos h2]
        simp [List.dropWhile_cons, h1, h2]
      · rw [if_neg h2]
        simp [List.dropWhile_cons, h1, h2]

/-- On the current chromosome, when a record is left in the buffer after the records
ending before `start1` are dropped, `overlaps_with` returns whether the first record left
starts at or before `end1`, and does not read. -/
theorem overlaps_with_buffered (m : OrderedRegionOverlapMatcher) (chrom : String)
    (start1 end1 : Int) (r : BEDRecord) (rest : List BEDRecord)
    (hc : m.current_interval_seq = chrom)
    (hb : m.buffer.dropWhile (fun r => decide (r.end1 < start1)) = r :: rest) :
    overlaps_with m chrom start1 end1 =
      some (decide (r.start1 ≤ end1), { m with buffer := r :: rest }) := by
  unfold overlaps_with
  rw [if_neg (not_not.mpr hc), scan_buffer_eq, hb]
  simp

/-- When the read loop ends with `overlaps` set, a record of the reader overlaps the
query interval (or `overlaps` was set before the loop). -/
theorem read_loop_sound (start1 end1 : Int) (todr : List BEDRecord) :
    ∀ (buffer : List BEDRecord) (ov : Bool),
      (read_loop start1 end1 todr buffer ov).2.2 = true →
      ov = true ∨ ∃ r ∈ todr, Overlaps r start1 end1 := by
  induction todr with
  | nil =>
    intro buffer ov h
    left
    exact h
  | cons br todr ih =>
    intro buffer ov h
    rw [read_loop] at h
    by_cases h1 : br.end1 < start1
    · rw [if_pos h1] at h
      rcases ih buffer ov h with h' | ⟨r, hr, ho⟩
      · left; exact h'
      · right; exact ⟨r, List.mem_cons_of_mem _ hr, ho⟩
    · rw [if_neg h1] at h
      by_cases h2 : br.start1 > end1
      · rw [if_pos h2] at h
        simp at h
        omega
      · rw [if_neg h2] at h
        right
        exact ⟨br, List.mem_cons_self _ _, by unfold Overlaps; omega⟩

/-- On the current chromosome with an empty buffer, `overlaps_with` returns `true` only
when a record of the reader overlaps the query interval. -/
theorem overlaps_with_sound (m m' : OrderedRegionOverlapMatcher) (chrom : String)
    (start1 end1 : Int) (hb : m.buffer = [])
    (h : overlaps_with m chrom start1 end1 = some (true, m')) :
    ∃ r ∈ m.todr, Overlaps r start1 end1 := by
  unfold overlaps_with at h
  rw [hb] at h
  by_cases hc : m.current_interval_seq ≠ chrom
  · rw [if_pos hc] at h
    cases h
  · rw [if_neg hc] at h
    simp only [scan_buffer, List.length_nil, and_self, if_true] at h
    have h' := congrArg (fun o => o.map Prod.fst) h
    simp only [Option.map_some'] at h'
    rcases read_loop_sound start1 end1 m.todr [] false (Option.some.inj h') with h0 | h0
    · cases h0
    · exact h0

/-- C23: on the current chromosome with an empty buffer and a reader holding the records
`[5,10]` and `[20,30]`, sorted, the query `[8,12]` reads both records and returns `false`,
although the record `[5,10]` it has read overlaps the query; the same query repeated on
the object that the call leaves (both records in the buffer) returns `true`. -/
theorem overlaps_with_misses_overlap :
    two_records.buffer = [] ∧
    two_records.todr.Pairwise (fun a b => a.start1 ≤ b.start1) ∧
    overlaps_with two_records "20" 8 12 =
      some (false, { two_records with todr := [], buffer := [⟨5, 10⟩, ⟨20, 30⟩] }) ∧
    records_read two_records { two_records with todr := [], buffer := [⟨5, 10⟩, ⟨20, 30⟩] } =
      [⟨5, 10⟩, ⟨20, 30⟩] ∧
    (∃ r ∈ records_read two_records
        { two_records with todr := [], buffer := [⟨5, 10⟩, ⟨20, 30⟩] }, Overlaps r 8 12) ∧
    overlaps_with { two_records with todr := [], buffer := [⟨5, 10⟩, ⟨20, 30⟩] } "20" 8 12 =
      some (true, { two_records with todr := [], buffer := [⟨5, 10⟩, ⟨20, 30⟩] }) := by
  refine ⟨rfl, by decide, by decide, by decide, ⟨⟨5, 10⟩, by decide, by decide⟩, by decide⟩

end OrderedRegionOverlapMatcher
